import Mathlib

/-!
Shallow embedding of the cyclic-dependency-fixer core (TypeScript) in Lean 4,
together with proofs settling the frozen claims about its specification.

Embedded components, translated from the repository sources:
* domain model types (`src/domain/models/types.ts`);
* the Tarjan-based cycle detector (`TarjanCycleDetector` / `TarjanAlgorithm`
  in `src/infrastructure/parsers/JavaScriptParser.ts`);
* the dependency policy enforcer and its glob compiler
  (`DependencyPolicyEnforcer`, `compilePattern`);
* the fix orchestrator (`FixCyclesUseCase`) and the two registered fix
  strategies (`DynamicImportStrategy`, `ExtractSharedStrategy`).

Modelling conventions:
* JavaScript `Map`s (insertion-ordered) are association lists
  `List (String × Module)`; key uniqueness, guaranteed by `Map`, appears as a
  `Nodup` hypothesis where proofs need it.
* JavaScript numbers that the code only ever uses as small non-negative
  integers are `Nat`.
* The internal mutable maps of the Tarjan algorithm are modelled as functions
  `String → Option Nat` / `String → Bool`; `array.push`/`array.pop` on the
  DFS stack is modelled with `List` cons/head (same LIFO behaviour).
* Recursive procedures are given explicit fuel; callers pass fuel that
  provably never runs out on the executions the theorems talk about.
* `crypto.createHash('md5')` is embedded as a full MD5 implementation over
  `Nat` arithmetic (`% 2 ^ 32` for the 32-bit word operations).
-/

/-! ## MD5 (embedding of Node `crypto.createHash('md5') ... digest('hex')`) -/

/-- Truncate to a 32-bit word. -/
def w32 (n : Nat) : Nat := n % 4294967296

/-- Bitwise complement on 32-bit words (valid for `x < 2 ^ 32`). -/
def wnot (x : Nat) : Nat := 4294967295 - x

/-- 32-bit left rotation. -/
def rotl (x s : Nat) : Nat := (x * 2 ^ s + x / 2 ^ (32 - s)) % 4294967296

/-- The 64 MD5 sine-derived constants. -/
def md5K : List Nat :=
  [3614090360, 3905402710, 606105819, 3250441966, 4118548399, 1200080426,
   2821735955, 4249261313, 1770035416, 2336552879, 4294925233, 2304563134,
   1804603682, 4254626195, 2792965006, 1236535329, 4129170786, 3225465664,
   643717713, 3921069994, 3593408605, 38016083, 3634488961, 3889429448,
   568446438, 3275163606, 4107603335, 1163531501, 2850285829, 4243563512,
   1735328473, 2368359562, 4294588738, 2272392833, 1839030562, 4259657740,
   2763975236, 1272893353, 4139469664, 3200236656, 681279174, 3936430074,
   3572445317, 76029189, 3654602809, 3873151461, 530742520, 3299628645,
   4096336452, 1126891415, 2878612391, 4237533241, 1700485571, 2399980690,
   4293915773, 2240044497, 1873313359, 4264355552, 2734768916, 1309151649,
   4149444226, 3174756917, 718787259, 3951481745]

/-- The per-round MD5 shift amounts. -/
def md5S : List Nat :=
  [7, 12, 17, 22, 7, 12, 17, 22, 7, 12, 17, 22, 7, 12, 17, 22,
   5, 9, 14, 20, 5, 9, 14, 20, 5, 9, 14, 20, 5, 9, 14, 20,
   4, 11, 16, 23, 4, 11, 16, 23, 4, 11, 16, 23, 4, 11, 16, 23,
   6, 10, 15, 21, 6, 10, 15, 21, 6, 10, 15, 21, 6, 10, 15, 21]

/-- The MD5 round mixing function, by round index. -/
def md5F (i b c d : Nat) : Nat :=
  if i < 16 then Nat.lor (Nat.land b c) (Nat.land (wnot b) d)
  else if i < 32 then Nat.lor (Nat.land d b) (Nat.land (wnot d) c)
  else if i < 48 then Nat.xor b (Nat.xor c d)
  else Nat.xor c (Nat.lor b (wnot d))

/-- The MD5 message-word index schedule. -/
def md5G (i : Nat) : Nat :=
  if i < 16 then i
  else if i < 32 then (5 * i + 1) % 16
  else if i < 48 then (3 * i + 5) % 16
  else (7 * i) % 16

/-- One MD5 round on the register quadruple. -/
def md5Round (M : Nat → Nat) (st : Nat × Nat × Nat × Nat) (i : Nat) :
    Nat × Nat × Nat × Nat :=
  let a := st.1
  let b := st.2.1
  let c := st.2.2.1
  let d := st.2.2.2
  let tmp := w32 (a + md5F i b c d + md5K.getD i 0 + M (md5G i))
  (d, w32 (b + rotl tmp (md5S.getD i 0)), b, c)

/-- Process one 64-byte chunk, given as its byte list. -/
def md5Chunk (h : Nat × Nat × Nat × Nat) (chunk : List Nat) :
    Nat × Nat × Nat × Nat :=
  let M : Nat → Nat := fun j =>
    chunk.getD (4 * j) 0 + chunk.getD (4 * j + 1) 0 * 256 +
      chunk.getD (4 * j + 2) 0 * 65536 + chunk.getD (4 * j + 3) 0 * 16777216
  let r := (List.range 64).foldl (md5Round M) h
  (w32 (h.1 + r.1), w32 (h.2.1 + r.2.1), w32 (h.2.2.1 + r.2.2.1),
    w32 (h.2.2.2 + r.2.2.2))

/-- MD5 padding: `0x80`, zeros to 56 mod 64, then the 64-bit little-endian
bit length. -/
def md5Pad (msg : List Nat) : List Nat :=
  let bitLen := msg.length * 8
  let zeros := (120 - (msg.length + 1) % 64) % 64
  msg ++ [128] ++ List.replicate zeros 0 ++
    ((List.range 8).map fun i => bitLen / 256 ^ i % 256)

/-- Split a byte list into 64-byte chunks (fuelled so that the definition
is structurally recursive; the fuel passed by `chunks64` always suffices). -/
def chunks64Go : Nat → List Nat → List (List Nat)
  | 0, _ => []
  | _, [] => []
  | n + 1, x :: xs => ((x :: xs).take 64) :: chunks64Go n ((x :: xs).drop 64)

/-- Split a byte list into 64-byte chunks. -/
def chunks64 (l : List Nat) : List (List Nat) := chunks64Go l.length l

/-- Lowercase hex digit. -/
def hexChar (n : Nat) : Char :=
  Char.ofNat (if n < 10 then 48 + n else 87 + n)

/-- Two lowercase hex digits of a byte. -/
def byteHex (b : Nat) : List Char := [hexChar (b / 16), hexChar (b % 16)]

/-- Serialize a 32-bit word as four little-endian bytes. -/
def wordBytes (w : Nat) : List Nat :=
  [w % 256, w / 256 % 256, w / 65536 % 256, w / 16777216 % 256]

/-- MD5 digest of a byte list, as a lowercase hex string. -/
def md5Hex (msg : List Nat) : String :=
  let h :=
    (chunks64 (md5Pad msg)).foldl md5Chunk
      (1732584193, 4023233417, 2562383102, 271733878)
  String.mk
    (((wordBytes h.1 ++ wordBytes h.2.1 ++ wordBytes h.2.2.1 ++
        wordBytes h.2.2.2).map byteHex).flatten)

/-- UTF-8 encoding of one character's code point. -/
def charUtf8 (c : Char) : List Nat :=
  let n := c.toNat
  if n < 128 then [n]
  else if n < 2048 then [192 + n / 64, 128 + n % 64]
  else if n < 65536 then [224 + n / 4096, 128 + n / 64 % 64, 128 + n % 64]
  else [240 + n / 262144, 128 + n / 4096 % 64, 128 + n / 64 % 64, 128 + n % 64]

/-- UTF-8 bytes of a string (Node hashes the UTF-8 encoding of the input). -/
def strBytes (s : String) : List Nat := (s.data.map charUtf8).flatten

/-- MD5 hex digest of a string. -/
def md5HexOfString (s : String) : String := md5Hex (strBytes s)

namespace Cycfix

/-! ## Domain model (`src/domain/models/types.ts`) -/

/-- `ImportType` enum. -/
inductive ImportType where
  | static
  | dynamic
  | require
  | exportFrom
deriving Repr, DecidableEq

abbrev ModulePath := String

/-- `ImportInfo`. -/
structure ImportInfo where
  source : String
  resolvedPath : ModulePath
  line : Nat
  type : ImportType
  identifiers : List String
deriving Repr, DecidableEq

/-- `Module`. -/
structure Module where
  path : ModulePath
  imports : List ImportInfo
  extension : String
  isTypeScript : Bool
deriving Repr, DecidableEq

/-- `CycleEdge`.  The TypeScript field names `from`/`to` are Lean keywords,
hence `from'`/`to'`. -/
structure CycleEdge where
  from' : ModulePath
  to' : ModulePath
  importInfo : ImportInfo
deriving Repr, DecidableEq

/-- `Cycle`. -/
structure Cycle where
  paths : List ModulePath
  edges : List CycleEdge
  id : String
deriving Repr, DecidableEq

/-- A module graph: the insertion-ordered `ReadonlyMap<ModulePath, Module>`
is modelled as an association list in insertion order. -/
abbrev ModuleGraph := List (ModulePath × Module)

/-- `modules.get(p)` (first binding wins, as in a JS `Map` with unique keys). -/
def graphGet (g : ModuleGraph) (p : ModulePath) : Option Module :=
  (g.find? fun e => e.1 == p).map (·.2)

/-- `modules.has(p)`. -/
def graphHas (g : ModuleGraph) (p : ModulePath) : Bool :=
  (graphGet g p).isSome

/-- `modules.keys()` in iteration (= insertion) order. -/
def graphKeys (g : ModuleGraph) : List ModulePath := g.map (·.1)

/-! ## Cycle detector (`TarjanCycleDetector` / `TarjanAlgorithm` in
`src/infrastructure/parsers/JavaScriptParser.ts`) -/

/-- The mutable state of `TarjanAlgorithm`: the `index` counter, the DFS
`stack` (modelled head-first: JS `push`/`pop` at the array end become `cons`
and `head`), `indexMap`, `lowLinkMap`, `onStack`, and the accumulated `sccs`
in pop order. -/
structure TarjanState where
  num : Nat
  stack : List ModulePath
  idxOf : ModulePath → Option Nat
  lowOf : ModulePath → Option Nat
  onStk : ModulePath → Bool
  sccs : List (List ModulePath)

/-- `map.set(k, v)` on a `Map<ModulePath, number>`. -/
def updFn (f : ModulePath → Option Nat) (k : ModulePath) (v : Nat) :
    ModulePath → Option Nat :=
  fun x => if x = k then some v else f x

/-- The do-while pop loop of `strongConnect`: pop until (and including) `v`,
returning the popped elements in pop order and the remaining stack.  (When
`v` is absent the model pops everything; in the algorithm's executions `v`
is always on the stack at this point.) -/
def popUntil (v : ModulePath) : List ModulePath → List ModulePath × List ModulePath
  | [] => ([], [])
  | w :: rest =>
    if w = v then ([w], rest)
    else
      let r := popUntil v rest
      (w :: r.1, r.2)

/-- The SCC-emitting tail of `strongConnect` (`if moduleLowLink ===
moduleIndex`): pop the stack down to `v`, clear `onStack` for the popped
nodes, and append the new SCC. -/
def popScc (v : ModulePath) (s : TarjanState) : TarjanState :=
  let r := popUntil v s.stack
  { s with
    stack := r.2
    onStk := fun x => if r.1.contains x then false else s.onStk x
    sccs := s.sccs ++ [r.1] }

/-- `TarjanAlgorithm.strongConnect`, with explicit recursion fuel (the
callers below always pass enough fuel; the fuel-exhausted branch returns the
state unchanged).  The non-null assertions (`!`) of the source are modelled
with `Option.getD 0`; the values are always present at those points.  The
successor loop (`for (const importInfo of module.imports)`) is a `foldl`
over the import list. -/
def strongConnect (g : ModuleGraph) : Nat → ModulePath → TarjanState → TarjanState
  | 0, _, s => s
  | fuel + 1, v, s =>
    let s1 : TarjanState :=
      { num := s.num + 1
        stack := v :: s.stack
        idxOf := updFn s.idxOf v s.num
        lowOf := updFn s.lowOf v s.num
        onStk := fun x => if x = v then true else s.onStk x
        sccs := s.sccs }
    match graphGet g v with
    | none => s1
    | some m =>
      let s2 :=
        m.imports.foldl
          (fun st imp =>
            let w := imp.resolvedPath
            if ¬ graphHas g w then st
            else if (st.idxOf w).isNone then
              let t := strongConnect g fuel w st
              { t with
                lowOf :=
                  updFn t.lowOf v (min ((t.lowOf v).getD 0) ((t.lowOf w).getD 0)) }
            else if st.onStk w then
              { st with
                lowOf :=
                  updFn st.lowOf v (min ((st.lowOf v).getD 0) ((st.idxOf w).getD 0)) }
            else st)
          s1
      if (s2.lowOf v).getD 0 = (s2.idxOf v).getD 0 then popScc v s2 else s2

/-- The entry sequence of `strongConnect` (index, push, mark on-stack), as a
named state so the unfolding lemma below can name it. -/
def pushState (s : TarjanState) (v : ModulePath) : TarjanState :=
  { num := s.num + 1
    stack := v :: s.stack
    idxOf := updFn s.idxOf v s.num
    lowOf := updFn s.lowOf v s.num
    onStk := fun x => if x = v then true else s.onStk x
    sccs := s.sccs }

/-- The body of the import loop of `strongConnect`, as a named function (the
same term the `foldl` in `strongConnect` folds with). -/
def scStep (g : ModuleGraph) (fuel : Nat) (v : ModulePath)
    (st : TarjanState) (imp : ImportInfo) : TarjanState :=
  if ¬ graphHas g imp.resolvedPath then st
  else if (st.idxOf imp.resolvedPath).isNone then
    { strongConnect g fuel imp.resolvedPath st with
      lowOf :=
        updFn (strongConnect g fuel imp.resolvedPath st).lowOf v
          (min (((strongConnect g fuel imp.resolvedPath st).lowOf v).getD 0)
            (((strongConnect g fuel imp.resolvedPath st).lowOf
                imp.resolvedPath).getD 0)) }
  else if st.onStk imp.resolvedPath then
    { st with
      lowOf :=
        updFn st.lowOf v
          (min ((st.lowOf v).getD 0) ((st.idxOf imp.resolvedPath).getD 0)) }
  else st

/-- One step of the `findCycles` key loop, as a named function. -/
def tarStep (g : ModuleGraph) (s : TarjanState) (v : ModulePath) :
    TarjanState :=
  if (s.idxOf v).isSome then s else strongConnect g (g.length + 1) v s

/-- `TarjanAlgorithm.hasSelfLoop`. -/
def hasSelfLoop (g : ModuleGraph) (v : ModulePath) : Bool :=
  match graphGet g v with
  | none => false
  | some m => m.imports.any fun imp => imp.resolvedPath == v

/-- The mutable state of the inner `dfs` closure of `findCyclePath`
(`visited`, `path` — appended at the end, as in the JS array — and
`recStack`). -/
structure FcState where
  visited : List ModulePath
  path : List ModulePath
  recStack : List ModulePath

/-- The inner recursive `dfs` of `TarjanAlgorithm.findCyclePath`, with
explicit fuel.  The neighbor loop is a `foldl` whose accumulator carries the
found-flag; once a cycle is found the remaining iterations are the identity,
which models the early `return true` of the source. -/
def fcDfs (adj : ModulePath → List ModulePath) :
    Nat → ModulePath → FcState → Bool × FcState
  | 0, _, st => (false, st)
  | fuel + 1, node, st =>
    let st1 : FcState :=
      { visited := node :: st.visited
        path := st.path ++ [node]
        recStack := node :: st.recStack }
    let r :=
      (adj node).foldl
        (fun acc nb =>
          if acc.1 then acc
          else if ¬ acc.2.visited.contains nb then fcDfs adj fuel nb acc.2
          else if acc.2.recStack.contains nb then
            (true, { acc.2 with path := acc.2.path ++ [nb] })
          else acc)
        (false, st1)
    if r.1 then r
    else
      (false,
        { r.2 with
          recStack := r.2.recStack.erase node
          path := r.2.path.dropLast })

/-- The adjacency map `findCyclePath` builds over the SCC members, as a
function that is `[]` off the SCC (matching `adjacency.get(node) || []`). -/
def sccAdj (g : ModuleGraph) (scc : List ModulePath) (v : ModulePath) :
    List ModulePath :=
  if scc.contains v then
    match graphGet g v with
    | none => []
    | some m => (m.imports.map (·.resolvedPath)).filter fun p => scc.contains p
  else []

/-- `TarjanAlgorithm.findCyclePath`. -/
def findCyclePath (g : ModuleGraph) (scc : List ModulePath) : List ModulePath :=
  if scc.length = 1 then [scc.headD "", scc.headD ""]
  else if (fcDfs (sccAdj g scc) (g.length + 1) (scc.headD "")
      ⟨[], [], []⟩).2.path.length > 1 then
    (fcDfs (sccAdj g scc) (g.length + 1) (scc.headD "") ⟨[], [], []⟩).2.path
  else [scc.headD "", scc.headD ""]

/-- `TarjanAlgorithm.buildCycleEdges`. -/
def buildCycleEdges (g : ModuleGraph) (cyclePath : List ModulePath) :
    List CycleEdge :=
  (cyclePath.zip cyclePath.tail).filterMap fun pr =>
    match graphGet g pr.1 with
    | none => none
    | some m =>
      (m.imports.find? fun imp => imp.resolvedPath == pr.2).map fun imp =>
        { from' := pr.1, to' := pr.2, importInfo := imp }

/-- The `<` comparison JS `Array.prototype.sort()` applies to strings by
default: lexicographic on code units (written over code points here, which
agrees with UTF-16 code-unit order on the basic-plane path strings this
repository handles). -/
def jsStrLt : List Char → List Char → Bool
  | [], [] => false
  | [], _ :: _ => true
  | _ :: _, [] => false
  | a :: as, b :: bs =>
    if a.toNat < b.toNat then true
    else if b.toNat < a.toNat then false
    else jsStrLt as bs

/-- Insert into a sorted list (JS default sort order). -/
def insertSorted (x : String) : List String → List String
  | [] => [x]
  | y :: ys =>
    if jsStrLt y.data x.data then y :: insertSorted x ys else x :: y :: ys

/-- Sort a list of strings (JS `[...cyclePath].sort()`). -/
def sortStrings (l : List String) : List String := l.foldr insertSorted []

/-- `TarjanAlgorithm.generateCycleId`: MD5 of the **sorted but not
deduplicated** cycle path joined with `::`, truncated to 8 hex characters. -/
def generateCycleId (cyclePath : List ModulePath) : String :=
  (md5HexOfString (String.intercalate "::" (sortStrings cyclePath))).take 8

/-- `TarjanAlgorithm.createCycle`. -/
def createCycle (g : ModuleGraph) (scc : List ModulePath) : Cycle :=
  let cyclePath := findCyclePath g scc
  { paths := cyclePath
    edges := buildCycleEdges g cyclePath
    id := generateCycleId cyclePath }

/-- The initial `TarjanAlgorithm` state. -/
def tarjanInit : TarjanState where
  num := 0
  stack := []
  idxOf := fun _ => none
  lowOf := fun _ => none
  onStk := fun _ => false
  sccs := []

/-- The main loop of `TarjanAlgorithm.findCycles`: run `strongConnect` on
every not-yet-indexed key, in map iteration order. -/
def runTarjan (g : ModuleGraph) : TarjanState :=
  (graphKeys g).foldl
    (fun s v => if (s.idxOf v).isSome then s else strongConnect g (g.length + 1) v s)
    tarjanInit

/-- `TarjanAlgorithm.findCycles`: keep SCCs of size `> 1` or with a
self-loop, and convert each to a `Cycle`. -/
def findCycles (g : ModuleGraph) : List Cycle :=
  ((runTarjan g).sccs.filter fun scc =>
      decide (scc.length > 1) || hasSelfLoop g (scc.headD "")).map
    (createCycle g)

/-- `TarjanCycleDetector.detectCycles`; the `maxDepth` argument is kept only
for interface compatibility and is not used (as in the source constructor's
`_maxDepth`). -/
def detectCycles (g : ModuleGraph) (_maxDepth : Nat) : List Cycle :=
  findCycles g

/-! ## Remaining domain model pieces (`types.ts`, `domain/policy/types.ts`) -/

/-- `FixStrategy` enum. -/
inductive FixStrategy where
  | extractShared
  | dynamicImport
  | dependencyInjection
  | moveCode
  | barrelFile
deriving Repr, DecidableEq

/-- `AnalysisResult`. -/
structure AnalysisResult where
  cycles : List Cycle
  totalModules : Nat
  affectedModules : List ModulePath
  duration : Nat
deriving Repr, DecidableEq

/-- `PolicySeverity` (`'warn' | 'error'`). -/
inductive PolicySeverity where
  | warn
  | error
deriving Repr, DecidableEq

/-- `DependencyBoundaryRule` (optional fields are `Option`s). -/
structure DependencyBoundaryRule where
  name : String
  from' : String
  to' : String
  severity : Option PolicySeverity
  description : Option String
  recommendedStrategies : Option (List FixStrategy)
deriving Repr, DecidableEq

/-- `PolicyViolation`. -/
structure PolicyViolation where
  rule : String
  severity : PolicySeverity
  from' : String
  to' : String
  message : String
  description : Option String
  cycleId : Option String
  recommendedStrategies : Option (List FixStrategy)
deriving Repr, DecidableEq

/-! ## Glob compilation (`compilePattern` in the policy enforcer source) and
the semantics of the JS regexes it produces

`compilePattern` is embedded exactly as the source's three chained string
`replace` calls, producing the source text of the anchored JS regex.  The
regexes that can arise this way use only: escaped literals `\c`, the class
`[^/]`, `.`, the quantifiers `*` and `?` (a `?` survives untouched because
the escape class does not include it), `^`, `$`, and plain characters.  A
complete backtracking matcher for exactly that fragment (full-match
semantics of `RegExp('^..$').test`) is given below. -/

/-- The escape step: `pattern.replace(/[.+^${}()|[\]\\]/g, '\\$&')`. -/
def escapeRegexChar (c : Char) : List Char :=
  if c ∈ ['.', '+', '^', '$', '\x7b', '\x7d', '(', ')', '|', '[', ']', '\\'] then
    ['\\', c]
  else [c]

/-- `escaped.replace(/\*\*/g, '.*')`: left-to-right, non-overlapping. -/
def replaceStarStar : List Char → List Char
  | '*' :: '*' :: rest => '.' :: '*' :: replaceStarStar rest
  | c :: rest => c :: replaceStarStar rest
  | [] => []

/-- `….replace(/\*/g, '[^/]*')` (note that this also rewrites the `*` of any
`.*` produced by the previous step). -/
def replaceStar (l : List Char) : List Char :=
  (l.map fun c => if c = '*' then ['[', '^', '/', ']', '*'] else [c]).flatten

/-- `compilePattern`: the source text of `new RegExp('^' + escaped + '$')`. -/
def compilePattern (pattern : String) : List Char :=
  '^' :: replaceStar (replaceStarStar ((pattern.data.map escapeRegexChar).flatten)) ++ ['$']

/-- An atom of the regex fragment `compilePattern` can produce. -/
inductive RAtom where
  | lit (c : Char)
  | dot
  | nonSlash
deriving Repr, DecidableEq

/-- A quantifier of that fragment. -/
inductive RQuant where
  | one
  | star
  | opt
deriving Repr, DecidableEq

/-- Split a leading quantifier off the remaining regex source. -/
def quantSplit : List Char → RQuant × List Char
  | '*' :: rest => (.star, rest)
  | '?' :: rest => (.opt, rest)
  | rest => (.one, rest)

/-- Parse the body (between the anchors) of a produced regex into quantified
atoms; `none` on source text outside the fragment. -/
def parseAtoms : Nat → List Char → Option (List (RAtom × RQuant))
  | 0, l => if l.isEmpty then some [] else none
  | _ + 1, [] => some []
  | fuel + 1, '\\' :: c :: rest =>
    let q := quantSplit rest
    (parseAtoms fuel q.2).map ((.lit c, q.1) :: ·)
  | _ + 1, ['\\'] => none
  | fuel + 1, '[' :: '^' :: '/' :: ']' :: rest =>
    let q := quantSplit rest
    (parseAtoms fuel q.2).map ((.nonSlash, q.1) :: ·)
  | _ + 1, '[' :: _ => none
  | fuel + 1, '.' :: rest =>
    let q := quantSplit rest
    (parseAtoms fuel q.2).map ((.dot, q.1) :: ·)
  | _ + 1, '*' :: _ => none
  | _ + 1, '?' :: _ => none
  | fuel + 1, c :: rest =>
    let q := quantSplit rest
    (parseAtoms fuel q.2).map ((.lit c, q.1) :: ·)

/-- Does an atom match one character?  (`.` in a JS regex without the `s`
flag matches everything except the four line terminators.) -/
def amatch : RAtom → Char → Bool
  | .lit c, x => x == c
  | .dot, x =>
    !(x == '\n') && !(x == '\r') && !(x.toNat == 8232) && !(x.toNat == 8233)
  | .nonSlash, x => x != '/'

/-- Complete backtracking matcher for the fragment (full-string match, i.e.
the semantics of the anchored `^…$` regex).  Fuelled; every step shrinks
`pattern length + input length`, so the fuel passed by `regexTest` always
suffices. -/
def rmatch : Nat → List (RAtom × RQuant) → List Char → Bool
  | 0, _, _ => false
  | _ + 1, [], [] => true
  | _ + 1, [], _ :: _ => false
  | fuel + 1, (a, .one) :: r, cs =>
    match cs with
    | [] => false
    | c :: cs' => amatch a c && rmatch fuel r cs'
  | fuel + 1, (a, .opt) :: r, cs =>
    rmatch fuel r cs ||
      match cs with
      | [] => false
      | c :: cs' => amatch a c && rmatch fuel r cs'
  | fuel + 1, (a, .star) :: r, cs =>
    rmatch fuel r cs ||
      match cs with
      | [] => false
      | c :: cs' => amatch a c && rmatch fuel ((a, .star) :: r) cs'

/-- `regex.test(s)` for a produced anchored regex source. -/
def regexTest (src : List Char) : String → Bool :=
  fun s =>
    match src with
    | '^' :: body =>
      if body.getLast? = some '$' then
        match parseAtoms body.length body.dropLast with
        | some toks => rmatch (toks.length + s.length + 1) toks s.data
        | none => false
      else false
    | _ => false

/-- `compilePattern(p).test(s)`: compile a glob and test a string. -/
def matchesPattern (pattern s : String) : Bool :=
  regexTest (compilePattern pattern) s

/-! ## `DependencyPolicyEnforcer` (`evaluate`) -/

/-- The `normalize` helper: `path.relative(rootDir, p)` then backslash →
slash.  `path.relative` is modelled for the shapes the enforcer meets:
an empty root returns the path unchanged, and a path under `rootDir`
loses that prefix. -/
def normalizeRel (rootDir p : String) : String :=
  let rel :=
    if rootDir = "" then p.data
    else if List.isPrefixOf (rootDir.data ++ ['/']) p.data then
      p.data.drop (rootDir.data.length + 1)
    else p.data
  String.mk (rel.map fun c => if c = '\\' then '/' else c)

/-- `DependencyPolicyEnforcer.evaluate`.  Rule compilation (constructor) and
evaluation are fused: `severity ?? 'error'` is applied per rule, and the
compiled matchers are exactly `matchesPattern` on the rule's patterns. -/
def evaluate (rules : List DependencyBoundaryRule) (rootDir : String)
    (result : AnalysisResult) : List PolicyViolation :=
  if rules.isEmpty then []
  else
    (result.cycles.map fun cycle =>
      (cycle.edges.map fun edge =>
        let fromRelative := normalizeRel rootDir edge.from'
        let toRelative := normalizeRel rootDir edge.to'
        (rules.filterMap fun rule =>
          if matchesPattern rule.from' fromRelative &&
              matchesPattern rule.to' toRelative then
            some
              { rule := rule.name
                severity := rule.severity.getD .error
                from' := fromRelative
                to' := toRelative
                cycleId := some cycle.id
                description := rule.description
                recommendedStrategies := rule.recommendedStrategies
                message :=
                  "Imports from " ++ fromRelative ++ " to " ++ toRelative ++
                    " violate boundary rule \"" ++ rule.name ++ "\"" }
          else none)).flatten).flatten

/-! ## Node `path` helpers used by `ExtractSharedStrategy`

Modelled for the forward-slash paths this repository handles. -/

/-- Node `path.basename`. -/
def pathBasename (p : String) : String :=
  (p.splitOn "/").getLastD ""

/-- Node `path.dirname`. -/
def pathDirname (p : String) : String :=
  let parts := p.splitOn "/"
  if parts.length ≤ 1 then "."
  else
    let d := String.intercalate "/" parts.dropLast
    if d = "" then "/" else d

/-- The suffix starting at the last `.`, if any. -/
def lastDotSuffix : List Char → Option (List Char)
  | [] => none
  | '.' :: rest =>
    match lastDotSuffix rest with
    | some r => some r
    | none => some ('.' :: rest)
  | _ :: rest => lastDotSuffix rest

/-- Node `path.extname` (a leading dot of the basename is not an
extension). -/
def pathExtname (p : String) : String :=
  match (pathBasename p).data with
  | [] => ""
  | _ :: rest =>
    match lastDotSuffix rest with
    | none => ""
    | some suf => String.mk suf

/-- Node `path.join` of a directory and a plain file name. -/
def pathJoin (a b : String) : String := a ++ "/" ++ b

/-! ## Fix results and strategies (`types.ts`, `IFixStrategy`,
`DynamicImportStrategy.ts`, `ExtractSharedStrategy.ts`) -/

/-- `ManualStep` (optional fields are `Option`s). -/
structure ManualStep where
  description : String
  file : ModulePath
  code : Option String
  line : Option Nat
deriving Repr, DecidableEq

/-- The value stored in `FixResult.strategy`.  The declared TS type is
`FixStrategy`, but `FixCyclesUseCase` also smuggles in `null as any`,
`'' as any` and `cycle.paths[0] as any`; the extra constructors model those
casts. -/
inductive StrategyRef where
  | byType (t : FixStrategy)
  | nullRef
  | strRef (s : String)
deriving Repr, DecidableEq

/-- `FixResult` (optional fields are `Option`s; `manualSteps` is `some l`
exactly when the JS object carries the field — note that `some []` is a
present-but-empty array, which is truthy in JS). -/
structure FixResult where
  cycle : Cycle
  strategy : StrategyRef
  success : Bool
  modifiedFiles : List ModulePath
  createdFiles : List ModulePath
  error : Option String
  manualSteps : Option (List ManualStep)
deriving Repr, DecidableEq

/-- A write effect a strategy can perform through `IFileSystem`; reads are
side-effect free and modelled by `FSView` below. -/
inductive FSEffect where
  | backup (p : ModulePath)
  | writeFile (p : ModulePath) (content : String)
deriving Repr, DecidableEq

/-- The read-only face of `IFileSystem` a strategy consults. -/
structure FSView where
  readFile : ModulePath → String
  getRelativePath : ModulePath → ModulePath → String

/-- `DynamicImportStrategy.canFix`. -/
def dynamicImportCanFix (cycle : Cycle) : Bool :=
  cycle.edges.any fun edge => edge.importInfo.type == .static

/-- `DynamicImportStrategy.score`. -/
def dynamicImportScore (cycle : Cycle) : Nat :=
  let staticImports :=
    (cycle.edges.filter fun e => e.importInfo.type == .static).length
  let cycleLength := cycle.paths.length - 1
  if cycleLength == 2 && staticImports > 0 then 80
  else if staticImports > 0 then 50
  else 0

/-- `DynamicImportStrategy.selectEdgeToConvert` (JS `reduce` without seed:
first element is the seed; strict `<` keeps the earlier edge on ties). -/
def selectEdgeToConvert (cycle : Cycle) : Option CycleEdge :=
  match cycle.edges.filter fun e => e.importInfo.type == .static with
  | [] => none
  | e :: rest =>
    some
      (rest.foldl
        (fun best current =>
          if current.importInfo.identifiers.length <
              best.importInfo.identifiers.length then
            current
          else best)
        e)

/-- `DynamicImportStrategy.createManualResult`. -/
def dynamicImportManualResult (cycle : Cycle) (err : Option String) : FixResult :=
  let staticEdge := cycle.edges.find? fun e => e.importInfo.type == .static
  let manualSteps : List ManualStep :=
    match staticEdge with
    | none => []
    | some e =>
      [{ description :=
            "Convert static import to dynamic import in " ++ e.from'
         file := e.from'
         line := some e.importInfo.line
         code :=
          some
            ("// Replace:\n// import x from '" ++ e.importInfo.source ++
              "'\n\n// With:\nconst x = await import('" ++
              e.importInfo.source ++ "').then(m => m.default || m);") },
       { description := "Make the parent function async if needed"
         file := e.from'
         line := none
         code := none }]
  { cycle := cycle
    strategy := .byType .dynamicImport
    success := false
    modifiedFiles := []
    createdFiles := []
    error := some (err.getD "Could not automatically apply dynamic import fix")
    manualSteps := some manualSteps }

/-- `DynamicImportStrategy.fix`.  The pure text transformation
`convertToDynamicImport` (regex rewriting of the import line) is taken as a
parameter: it is only ever invoked on the non-dry-run branch and only its
output string is written, so no property stated here depends on it. -/
def dynamicImportFix (convert : String → ImportInfo → String) (cycle : Cycle)
    (_modules : ModuleGraph) (fs : FSView) (dryRun : Bool) :
    FixResult × List FSEffect :=
  match selectEdgeToConvert cycle with
  | none => (dynamicImportManualResult cycle none, [])
  | some targetEdge =>
    if dryRun then
      ({ cycle := cycle
         strategy := .byType .dynamicImport
         success := true
         modifiedFiles := []
         createdFiles := []
         error := none
         manualSteps := none }, [])
    else
      let content := fs.readFile targetEdge.from'
      let newContent := convert content targetEdge.importInfo
      ({ cycle := cycle
         strategy := .byType .dynamicImport
         success := true
         modifiedFiles := [targetEdge.from']
         createdFiles := []
         error := none
         manualSteps := none },
        [.backup targetEdge.from', .writeFile targetEdge.from' newContent])

/-- `ExtractSharedStrategy.canFix`. -/
def extractSharedCanFix (cycle : Cycle) : Bool :=
  let cycleLength := cycle.paths.length - 1
  2 ≤ cycleLength && cycleLength ≤ 4

/-- `ExtractSharedStrategy.score`. -/
def extractSharedScore (cycle : Cycle) : Nat :=
  let cycleLength := cycle.paths.length - 1
  let directories := (cycle.paths.dropLast).map pathDirname
  let sameDirectory := directories.eraseDups.length == 1
  if cycleLength == 2 && sameDirectory then 70
  else if cycleLength ≤ 3 && sameDirectory then 60
  else if sameDirectory then 40
  else 20

/-- `ExtractSharedStrategy.determineSharedModulePath`. -/
def determineSharedModulePath (cycle : Cycle) : ModulePath :=
  let firstPath := cycle.paths.headD ""
  pathJoin (pathDirname firstPath) ("shared" ++ pathExtname firstPath)

/-- `ExtractSharedStrategy.generateSharedModuleTemplate`. -/
def generateSharedModuleTemplate (cycle : Cycle) : String :=
  let ext := pathExtname (cycle.paths.headD "")
  let names :=
    String.intercalate ", " ((cycle.paths.dropLast).map pathBasename)
  if ext == ".ts" || ext == ".tsx" then
    "/**\n * Shared module to break circular dependency\n * Extracted from: " ++
      names ++
      "\n */\n\n// Move shared types, interfaces, and utility functions here\nexport \x7b\x7d;\n"
  else
    "/**\n * Shared module to break circular dependency\n * Extracted from: " ++
      names ++
      "\n */\n\n// Move shared functions and constants here\nmodule.exports = \x7b\x7d;\n"

/-- `ExtractSharedStrategy.fix`: always a manual-steps result, no writes. -/
def extractSharedFix (cycle : Cycle) (_modules : ModuleGraph) (fs : FSView)
    (_dryRun : Bool) : FixResult × List FSEffect :=
  let sharedModulePath := determineSharedModulePath cycle
  let manualSteps : List ManualStep :=
    [{ description := "Create a new shared module: " ++ sharedModulePath
       file := sharedModulePath
       code := some (generateSharedModuleTemplate cycle)
       line := none },
     { description :=
        "Move shared types, interfaces, or utility functions to the new module"
       file := sharedModulePath
       code := none
       line := none }] ++
      (cycle.paths.dropLast).map fun modulePath =>
        { description :=
            "Update imports in " ++ pathBasename modulePath ++
              " to use shared module"
          file := modulePath
          code :=
            some
              ("import \x7b /* shared items */ \x7d from '" ++
                fs.getRelativePath modulePath sharedModulePath ++ "';")
          line := none }
  ({ cycle := cycle
     strategy := .byType .extractShared
     success := false
     modifiedFiles := []
     createdFiles := []
     error := some "Extraction requires manual code movement"
     manualSteps := some manualSteps }, [])

/-! ## Fix orchestrator (`FixCyclesUseCase`) -/

/-- A registered strategy, as seen through `IFixStrategy`. -/
structure FixStrategyImpl where
  type : FixStrategy
  canFix : Cycle → ModuleGraph → Bool
  score : Cycle → ModuleGraph → Nat
  fix : Cycle → ModuleGraph → FSView → Bool → FixResult × List FSEffect

/-- `FixOptions`. -/
structure FixOptions where
  autoFix : Bool
  strategies : List FixStrategy
  backup : Bool
  dryRun : Bool

/-- `FixCyclesUseCase.findApplicableStrategies`. -/
def findApplicableStrategies (impls : List FixStrategyImpl) (cycle : Cycle)
    (g : ModuleGraph) (options : FixOptions) : List (FixStrategyImpl × Nat) :=
  impls.filterMap fun s =>
    if options.strategies.length > 0 && !(options.strategies.contains s.type) then
      none
    else if !(s.canFix cycle g) then none
    else some (s, s.score cycle g)

/-- Stable insertion step for the descending sort. -/
def insertDesc (x : FixStrategyImpl × Nat) :
    List (FixStrategyImpl × Nat) → List (FixStrategyImpl × Nat)
  | [] => [x]
  | y :: ys => if x.2 ≤ y.2 then y :: insertDesc x ys else x :: y :: ys

/-- `applicableStrategies.sort((a, b) => b.score - a.score)`: stable
descending sort (JS array sort is stable). -/
def sortByScoreDesc (l : List (FixStrategyImpl × Nat)) :
    List (FixStrategyImpl × Nat) :=
  l.foldl (fun acc x => insertDesc x acc) []

/-- `FixCyclesUseCase.createNoStrategyResult` — note the
`cycle.paths.length === 2 ? (cycle.paths[0] as any) : (null as any)`
stored into `strategy`. -/
def createNoStrategyResult (cycle : Cycle) : FixResult :=
  { cycle := cycle
    strategy :=
      if cycle.paths.length == 2 then .strRef (cycle.paths.headD "")
      else .nullRef
    success := false
    modifiedFiles := []
    createdFiles := []
    error := some "No applicable fix strategy found"
    manualSteps :=
      some
        [{ description := "Review the circular dependency and refactor manually"
           file := cycle.paths.headD ""
           code := none
           line := none },
         { description :=
            "Consider extracting shared code or using dependency injection"
           file := cycle.paths.headD ""
           code := none
           line := none }] }

/-- `FixCyclesUseCase.createFailureResult`
(`attemptedStrategies[0]?.strategy.type || ('' as any)`). -/
def createFailureResult (cycle : Cycle)
    (attempted : List (FixStrategyImpl × Nat)) : FixResult :=
  { cycle := cycle
    strategy :=
      match attempted with
      | [] => .strRef ""
      | (s, _) :: _ => .byType s.type
    success := false
    modifiedFiles := []
    createdFiles := []
    error :=
      some
        ("All strategies failed: " ++
          String.intercalate ", "
            (attempted.map fun st =>
              match st.1.type with
              | .extractShared => "extract-shared"
              | .dynamicImport => "dynamic-import"
              | .dependencyInjection => "dependency-injection"
              | .moveCode => "move-code"
              | .barrelFile => "barrel-file"))
    manualSteps :=
      some
        [{ description := "Manual intervention required to fix this cycle"
           file := cycle.paths.headD ""
           code := none
           line := none }] }

/-- The try-in-order loop of `FixCyclesUseCase.fixCycle`: first result with
`success` or a present `manualSteps` field is returned (the strategies here
are total functions, so the `catch` branch of the source is unreachable in
the model).  Also accumulates the filesystem effects of every attempted
strategy. -/
def tryStrategies (fs : FSView) (cycle : Cycle) (g : ModuleGraph)
    (dryRun : Bool) :
    List (FixStrategyImpl × Nat) → Option FixResult × List FSEffect
  | [] => (none, [])
  | (s, _) :: rest =>
    let r := s.fix cycle g fs dryRun
    if r.1.success then (some r.1, r.2)
    else if r.1.manualSteps.isSome then (some r.1, r.2)
    else
      let next := tryStrategies fs cycle g dryRun rest
      (next.1, r.2 ++ next.2)

/-- `FixCyclesUseCase.fixCycle`. -/
def fixCycle (impls : List FixStrategyImpl) (fs : FSView) (cycle : Cycle)
    (g : ModuleGraph) (options : FixOptions) : FixResult × List FSEffect :=
  let applicableStrategies := findApplicableStrategies impls cycle g options
  if applicableStrategies.isEmpty then (createNoStrategyResult cycle, [])
  else
    let sorted := sortByScoreDesc applicableStrategies
    match tryStrategies fs cycle g options.dryRun sorted with
    | (some r, eff) => (r, eff)
    | (none, eff) => (createFailureResult cycle sorted, eff)

/-- `FixCyclesUseCase.execute`: fix each cycle in order. -/
def executeFix (impls : List FixStrategyImpl) (fs : FSView)
    (cycles : List Cycle) (g : ModuleGraph) (options : FixOptions) :
    List (FixResult × List FSEffect) :=
  cycles.map fun cycle => fixCycle impls fs cycle g options

/-- The registered `DynamicImportStrategy` (the text-rewriting helper is a
parameter, see `dynamicImportFix`). -/
def dynamicImportStrategy (convert : String → ImportInfo → String) :
    FixStrategyImpl where
  type := .dynamicImport
  canFix := fun cycle _ => dynamicImportCanFix cycle
  score := fun cycle _ => dynamicImportScore cycle
  fix := dynamicImportFix convert

/-- The registered `ExtractSharedStrategy`. -/
def extractSharedStrategy : FixStrategyImpl where
  type := .extractShared
  canFix := fun cycle _ => extractSharedCanFix cycle
  score := fun cycle _ => extractSharedScore cycle
  fix := extractSharedFix

/-! ## Graph reachability (for stating graph-level claims) -/

/-- An import edge usable by the SCC pass: module `u` has an import that
resolves to `w`, and `w` is a key of the graph (dangling targets are skipped
by the algorithm). -/
def Edge (g : ModuleGraph) (u w : ModulePath) : Prop :=
  ∃ m imp, graphGet g u = some m ∧ imp ∈ m.imports ∧ imp.resolvedPath = w ∧
    graphHas g w = true

/-- Reachability along import edges (reflexive-transitive closure). -/
def Reaches (g : ModuleGraph) : ModulePath → ModulePath → Prop :=
  Relation.ReflTransGen (Edge g)

/-- No module can reach itself by a non-empty chain of resolved import
edges. -/
def Acyclic (g : ModuleGraph) : Prop :=
  ∀ v, ¬ Relation.TransGen (Edge g) v v

/-- Reachability along import edges whose targets all satisfy `P` (the
start node is unconstrained). -/
def ReachesIn (g : ModuleGraph) (P : ModulePath → Prop) :
    ModulePath → ModulePath → Prop :=
  Relation.ReflTransGen fun a b => Edge g a b ∧ P b

/-- The index of `v` as a plain `Nat` (`0` when absent — the proofs below
only read it where it is defined). -/
def idxN (s : TarjanState) (v : ModulePath) : Nat := (s.idxOf v).getD 0

/-- The low-link of `v` as a plain `Nat`. -/
def lowN (s : TarjanState) (v : ModulePath) : Nat := (s.lowOf v).getD 0

/-- The index of the bottom stack element, or the current counter when the
stack is empty: a lower bound for every low-link computed from here on. -/
def botIdx (s : TarjanState) : Nat :=
  (s.stack.getLast?).elim s.num fun b => idxN s b

/-- How many key occurrences are still unindexed (the fuel measure). -/
def uncount (g : ModuleGraph) (s : TarjanState) : Nat :=
  ((graphKeys g).filter fun k => (s.idxOf k).isNone).length

/-- The machine invariant of the embedded Tarjan algorithm.  All facts are
stated over a reachable state `s`. -/
structure TInv (g : ModuleGraph) (s : TarjanState) : Prop where
  onstk_iff : ∀ v, s.onStk v = true ↔ v ∈ s.stack
  stack_nodup : s.stack.Nodup
  stack_indexed : ∀ v ∈ s.stack, (s.idxOf v).isSome
  idx_lt_num : ∀ v i, s.idxOf v = some i → i < s.num
  idx_keys : ∀ v i, s.idxOf v = some i → v ∈ graphKeys g
  idx_inj : ∀ u v i, s.idxOf u = some i → s.idxOf v = some i → u = v
  stack_sorted : s.stack.Pairwise fun a b => idxN s b < idxN s a
  popped_iff : ∀ v, ((s.idxOf v).isSome ∧ v ∉ s.stack) ↔ v ∈ s.sccs.flatten
  sccs_flat_nodup : s.sccs.flatten.Nodup
  sccs_nonnil : ∀ S ∈ s.sccs, S ≠ []
  low_def : ∀ v i, s.idxOf v = some i → ∃ l, s.lowOf v = some l ∧ l ≤ i
  low_reach : ∀ v l, (s.idxOf v).isSome → s.lowOf v = some l →
    ∃ y, s.idxOf y = some l ∧ Reaches g v y ∧ (v ∈ s.stack → y ∈ s.stack)
  sccs_sound : ∀ S ∈ s.sccs, ∀ a ∈ S, ∀ b ∈ S, Reaches g a b
  sccs_sound_in : ∀ S ∈ s.sccs, ∀ a ∈ S, ∀ b ∈ S,
    ReachesIn g (fun x => x ∈ S) a b

/-- Postcondition of `strongConnect g fuel v s` (under its precondition:
invariant, `v` an unindexed key, enough fuel). -/
structure SCPost (g : ModuleGraph) (v : ModulePath) (s s' : TarjanState) :
    Prop where
  inv : TInv g s'
  idx_mono : ∀ w i, s.idxOf w = some i → s'.idxOf w = some i
  low_frozen : ∀ w, (s.idxOf w).isSome → s'.lowOf w = s.lowOf w
  num_mono : s.num < s'.num
  v_indexed : s'.idxOf v = some s.num
  new_ge : ∀ w i, s'.idxOf w = some i → (s.idxOf w).isSome ∨ s.num ≤ i
  sccs_pre : ∃ t, s'.sccs = s.sccs ++ t
  low_le : lowN s' v ≤ s.num
  low_bot : botIdx s ≤ lowN s' v
  stack_shape : ∃ L, s'.stack = L ++ s.stack ∧
    (∀ w ∈ L, (s.idxOf w).isNone ∧ (s'.idxOf w).isSome ∧
      lowN s' w < idxN s' w ∧ lowN s' v ≤ lowN s' w ∧ Reaches g v w) ∧
    ((lowN s' v = s.num ∧ L = []) ∨ (lowN s' v < s.num ∧ v ∈ L))
  reach_in : ∀ w ∈ s'.stack, w ∉ s.stack →
    ReachesIn g (fun x => x ∈ s'.stack ∧ x ∉ s.stack) v w ∧
    ∃ y, s'.idxOf y = some (lowN s' w) ∧ y ∈ s'.stack ∧
      Relation.ReflTransGen
        (fun a b => Edge g a b ∧ a ∈ s'.stack ∧ idxN s' w ≤ idxN s' a) w y

/-- Invariant carried along the import loop inside `strongConnect`: `s1` is
the state right after `v` was pushed and indexed, `st` the running state. -/
structure LoopInv (g : ModuleGraph) (v : ModulePath) (s1 st : TarjanState) :
    Prop where
  inv : TInv g st
  idx_mono : ∀ w i, s1.idxOf w = some i → st.idxOf w = some i
  low_frozen : ∀ w, (s1.idxOf w).isSome → w ≠ v → st.lowOf w = s1.lowOf w
  num_mono : s1.num ≤ st.num
  v_idx : st.idxOf v = s1.idxOf v
  v_low_le : lowN st v ≤ lowN s1 v
  new_ge : ∀ w i, st.idxOf w = some i → (s1.idxOf w).isSome ∨ s1.num ≤ i
  sccs_pre : ∃ t, st.sccs = s1.sccs ++ t
  low_bot : botIdx s1 ≤ lowN s1 v → botIdx s1 ≤ lowN st v
  stack_shape : ∃ L, st.stack = L ++ s1.stack ∧
    ∀ w ∈ L, (s1.idxOf w).isNone ∧ (st.idxOf w).isSome ∧
      lowN st w < idxN st w ∧ lowN st v ≤ lowN st w ∧ Reaches g v w
  low_reach_v : ∃ y, st.idxOf y = some (lowN st v) ∧ y ∈ st.stack ∧
    Relation.ReflTransGen
      (fun a b => Edge g a b ∧ a ∈ st.stack ∧ idxN st v ≤ idxN st a) v y
  reach_in : ∀ w ∈ st.stack, w ∉ s1.stack →
    ReachesIn g (fun x => x ∈ st.stack ∧ x ∉ s1.stack) v w ∧
    ∃ y, st.idxOf y = some (lowN st w) ∧ y ∈ st.stack ∧
      Relation.ReflTransGen
        (fun a b => Edge g a b ∧ a ∈ st.stack ∧ idxN st w ≤ idxN st a) w y

/-- The adjacency relation induced by a neighbor-list function. -/
def AdjRel (adj : ModulePath → List ModulePath) (u w : ModulePath) : Prop :=
  w ∈ adj u

/-- `u`'s module has an import resolving to `w` (no key check on `w`). -/
def AdjOK (g : ModuleGraph) (u w : ModulePath) : Prop :=
  ∃ m, graphGet g u = some m ∧ ∃ imp ∈ m.imports, imp.resolvedPath = w

/-- The running invariant of the reconstruction DFS: the recursion stack is
part of the visited set, fully processed nodes (visited, off the recursion
stack) only point to fully processed nodes, and no fully processed node
lies on an adjacency cycle. -/
structure DfsInv (adj : ModulePath → List ModulePath) (s : FcState) :
    Prop where
  rec_sub : ∀ x ∈ s.recStack, x ∈ s.visited
  closed : ∀ u ∈ s.visited, u ∉ s.recStack → ∀ w ∈ adj u,
    w ∈ s.visited ∧ w ∉ s.recStack
  nocyc : ∀ u ∈ s.visited, u ∉ s.recStack →
    ¬ Relation.TransGen (AdjRel adj) u u

/-- How many universe nodes the DFS has not visited yet (its fuel
measure). -/
def dfsMeasure (univ : List ModulePath) (s : FcState) : Nat :=
  (univ.filter fun x => ! s.visited.contains x).length

/-! ## Concrete fixtures used by counterexamples and witnesses -/

/-- An import of `p`, resolved to `p`. -/
def mkImport (p : String) (t : ImportType) : ImportInfo :=
  { source := "./" ++ p, resolvedPath := p, line := 1, type := t,
    identifiers := [] }

/-- A module with the given path and imports. -/
def mkModule (p : String) (is : List ImportInfo) : Module :=
  { path := p, imports := is, extension := ".ts", isTypeScript := true }

/-- Two mutually importing modules, inserted as `a` then `b`. -/
def gAB : ModuleGraph :=
  [("a", mkModule "a" [mkImport "b" .static]),
   ("b", mkModule "b" [mkImport "a" .static])]

/-- The same two modules, inserted as `b` then `a`. -/
def gBA : ModuleGraph :=
  [("b", mkModule "b" [mkImport "a" .static]),
   ("a", mkModule "a" [mkImport "b" .static])]

/-- A strongly connected graph (`s → x`, `x → y`, `y → x`, `y → s`) whose
insertion order makes the path-reconstruction DFS start at `s` and close its
first cycle at `x`, leaving the lead-in node `s` in the reported path. -/
def gStem : ModuleGraph :=
  [("x", mkModule "x" [mkImport "y" .static]),
   ("y", mkModule "y" [mkImport "x" .static, mkImport "s" .static]),
   ("s", mkModule "s" [mkImport "x" .static])]

/-- A single module importing itself through a `require`. -/
def gSelf : ModuleGraph := [("a", mkModule "a" [mkImport "a" .require])]

/-- A single module with no imports at all. -/
def gSolo : ModuleGraph := [("a", mkModule "a" [])]

/-- A module with a single dangling import (target `zz` is not a key). -/
def gDangling : ModuleGraph :=
  [("a", mkModule "a" [mkImport "zz" .static])]

/-- `gDangling` with the dangling import removed. -/
def gDanglingRemoved : ModuleGraph := [("a", mkModule "a" [])]

/-- The self-loop cycle exactly as `detectCycles gSelf` reports it. -/
def cSelf : Cycle :=
  { paths := ["a", "a"]
    edges := [{ from' := "a", to' := "a", importInfo := mkImport "a" .require }]
    id := generateCycleId ["a", "a"] }

/-- The single cycle `detectCycles` reports on `gStem`. -/
def cStem : Cycle := (detectCycles gStem 0).headD ⟨[], [], ""⟩

/-- A trivial read-only filesystem view. -/
def fsTrivial : FSView where
  readFile := fun _ => ""
  getRelativePath := fun _ _ => ""

/-- Default fix options with `dryRun` set. -/
def optsDry : FixOptions where
  autoFix := false
  strategies := []
  backup := false
  dryRun := true

/-- The boundary rule of the spec's example. -/
def ruleDomainInfra : DependencyBoundaryRule where
  name := "domain-to-infra"
  from' := "src/domain/**"
  to' := "src/infrastructure/**"
  severity := some .warn
  description := none
  recommendedStrategies := none

/-- An analysis result whose only cycle edge goes from a **nested** domain
file to an infrastructure file. -/
def arNestedDomain : AnalysisResult where
  cycles :=
    [{ paths := ["src/domain/nested/user.ts", "src/infrastructure/db.ts",
                 "src/domain/nested/user.ts"]
       edges :=
        [{ from' := "src/domain/nested/user.ts"
           to' := "src/infrastructure/db.ts"
           importInfo := mkImport "src/infrastructure/db.ts" .static }]
       id := "cycle-1" }]
  totalModules := 2
  affectedModules := []
  duration := 0

/-! ## Claim theorems (concrete evaluations and frame properties) -/

set_option maxRecDepth 100000

/-- Invariant lemma for the path-reconstruction DFS: starting from a state
whose recursion stack mirrors the path and whose path-plus-entry-node is an
adjacency chain, the DFS either fails and restores path and recursion stack,
or succeeds with a path that is an adjacency chain whose last element
repeats an earlier element. -/
theorem fcDfs_spec (adj : ModulePath → List ModulePath) :
    ∀ (fuel : Nat) (node : ModulePath) (st : FcState),
      st.recStack = st.path.reverse →
      List.Chain' (AdjRel adj) (st.path ++ [node]) →
      ((fcDfs adj fuel node st).1 = false ∧
        (fcDfs adj fuel node st).2.path = st.path ∧
        (fcDfs adj fuel node st).2.recStack = st.recStack) ∨
      ((fcDfs adj fuel node st).1 = true ∧
        List.Chain' (AdjRel adj) (fcDfs adj fuel node st).2.path ∧
        ∃ p0 last, (fcDfs adj fuel node st).2.path = p0 ++ [last] ∧ last ∈ p0) := by
  intro fuel
  induction fuel with
  | zero => intro node st h1 _; left; exact ⟨rfl, rfl, rfl⟩
  | succ fuel ih =>
    intro node st h1 h2
    rw [fcDfs]
    set st1 : FcState :=
      { visited := node :: st.visited
        path := st.path ++ [node]
        recStack := node :: st.recStack } with hst1
    -- the invariant carried through the neighbor fold
    set Inv : Bool × FcState → Prop := fun acc =>
      (acc.1 = false ∧ acc.2.path = st.path ++ [node] ∧
        acc.2.recStack = node :: st.recStack) ∨
      (acc.1 = true ∧ List.Chain' (AdjRel adj) acc.2.path ∧
        ∃ p0 last, acc.2.path = p0 ++ [last] ∧ last ∈ p0) with hInv
    have fold :
        ∀ (nbs : List ModulePath), (∀ nb ∈ nbs, nb ∈ adj node) →
          ∀ acc, Inv acc →
            Inv (nbs.foldl
              (fun acc nb =>
                if acc.1 then acc
                else if ¬ acc.2.visited.contains nb then fcDfs adj fuel nb acc.2
                else if acc.2.recStack.contains nb then
                  (true, { acc.2 with path := acc.2.path ++ [nb] })
                else acc)
              acc) := by
      intro nbs
      induction nbs with
      | nil => intro _ acc hacc; exact hacc
      | cons nb rest ihl =>
        intro hmem acc hacc
        rw [List.foldl_cons]
        refine ihl (fun x hx => hmem x (List.mem_cons_of_mem _ hx)) _ ?_
        rcases hacc with ⟨hfalse, hp, hr⟩ | ⟨htrue, hc, hsh⟩
        · have hf : ¬ (acc.1 = true) := by simp [hfalse]
          rw [if_neg hf]
          by_cases hv : acc.2.visited.contains nb = true
          · rw [if_neg (by simpa using hv)]
            by_cases hrc : acc.2.recStack.contains nb = true
            · rw [if_pos hrc]
              right
              refine ⟨by trivial, ?_, st.path ++ [node], nb, by rw [hp], ?_⟩
              · have hnb : nb ∈ adj node := hmem nb (List.mem_cons_self _ _)
                show List.Chain' (AdjRel adj) (acc.2.path ++ [nb])
                rw [hp, List.chain'_append]
                refine ⟨h2, List.chain'_singleton _, ?_⟩
                intro x hx y hy
                simp only [List.head?_cons, Option.mem_def, Option.some.injEq] at hy
                subst hy
                have hlast : (st.path ++ [node]).getLast? = some node := by
                  simp [List.getLast?_append]
                rw [hlast] at hx
                simp only [Option.mem_def, Option.some.injEq] at hx
                subst hx
                exact hnb
              · have hmemr : nb ∈ acc.2.recStack := by simpa using hrc
                rw [hr] at hmemr
                have hrev : node :: st.recStack = (st.path ++ [node]).reverse := by
                  rw [List.reverse_append, h1]; simp
                rw [hrev, List.mem_reverse] at hmemr
                exact hmemr
            · rw [if_neg hrc]
              left; exact ⟨hfalse, hp, hr⟩
          · rw [if_pos hv]
            have pre1 : acc.2.recStack = acc.2.path.reverse := by
              rw [hp, hr, List.reverse_append, h1]; simp
            have pre2 : List.Chain' (AdjRel adj) (acc.2.path ++ [nb]) := by
              rw [hp, List.chain'_append]
              refine ⟨h2, List.chain'_singleton _, ?_⟩
              intro x hx y hy
              simp only [List.head?_cons, Option.mem_def, Option.some.injEq] at hy
              subst hy
              have hlast : (st.path ++ [node]).getLast? = some node := by
                simp [List.getLast?_append]
              rw [hlast] at hx
              simp only [Option.mem_def, Option.some.injEq] at hx
              subst hx
              exact hmem nb (List.mem_cons_self _ _)
            rcases ih nb acc.2 pre1 pre2 with ⟨hf', hp', hr'⟩ | ⟨ht', hc', hsh'⟩
            · left
              exact ⟨hf', by rw [hp', hp], by rw [hr', hr]⟩
            · right; exact ⟨ht', hc', hsh'⟩
        · rw [if_pos htrue]
          right; exact ⟨by trivial, hc, hsh⟩
    have base : Inv (false, st1) := by
      left; exact ⟨rfl, rfl, rfl⟩
    have hres := fold (adj node) (fun _ h => h) (false, st1) base
    rcases hres with ⟨hf, hp, hr⟩ | ⟨ht, hc, hsh⟩
    · left
      simp only [hf, Bool.false_eq_true, if_false]
      refine ⟨by trivial, ?_, ?_⟩
      · simp only [hp]
        exact List.dropLast_concat
      · simp only [hr]
        exact List.erase_cons_head node st.recStack
    · right
      simp only [ht, if_true]
      exact ⟨by trivial, hc, hsh⟩

/-- `findCyclePath` returns either a degenerate `[x, x]` pair (singleton
SCC or failed reconstruction) or an import-adjacency chain; in all cases the
result has length at least two and ends in a repetition of an earlier
entry. -/
theorem findCyclePath_spec (g : ModuleGraph) (scc : List ModulePath) :
    2 ≤ (findCyclePath g scc).length ∧
    (findCyclePath g scc).getLastD "" ∈ (findCyclePath g scc).dropLast ∧
    ((∃ x, findCyclePath g scc = [x, x]) ∨
      List.Chain' (AdjOK g) (findCyclePath g scc)) := by
  unfold findCyclePath
  by_cases hlen : scc.length = 1
  · rw [if_pos hlen]
    exact ⟨by simp, by simp, Or.inl ⟨scc.headD "", rfl⟩⟩
  · rw [if_neg hlen]
    have hAdjImp : ∀ u w, AdjRel (sccAdj g scc) u w → AdjOK g u w := by
      intro u w hw
      unfold AdjRel sccAdj at hw
      by_cases hu : scc.contains u = true
      · rw [if_pos hu] at hw
        cases hg : graphGet g u with
        | none => rw [hg] at hw; simp at hw
        | some m =>
          rw [hg] at hw
          rw [List.mem_filter, List.mem_map] at hw
          obtain ⟨⟨imp, himp, hres⟩, -⟩ := hw
          exact ⟨m, hg, imp, himp, hres⟩
      · rw [if_neg hu] at hw; simp at hw
    rcases fcDfs_spec (sccAdj g scc) (g.length + 1) (scc.headD "") ⟨[], [], []⟩ rfl
        (by simp) with ⟨-, hp, -⟩ | ⟨-, hc, p0, last, hshape, hmem⟩
    · rw [hp]
      norm_num
    · have hp0 : p0 ≠ [] := List.ne_nil_of_mem hmem
      have hlen2 : 1 < (fcDfs (sccAdj g scc) (g.length + 1) (scc.headD "")
          ⟨[], [], []⟩).2.path.length := by
        rw [hshape, List.length_append]
        have := List.length_pos.mpr hp0
        simp only [List.length_singleton]
        omega
      rw [if_pos hlen2]
      refine ⟨by omega, ?_, Or.inr (hc.imp ?_)⟩
      · rw [hshape, List.getLastD_concat, List.dropLast_concat]
        exact hmem
      · intro u w
        exact hAdjImp u w

/-- Every edge produced by `buildCycleEdges` joins a consecutive pair of the
path through an actual import of the source module. -/
theorem buildCycleEdges_sub (g : ModuleGraph) (p : List ModulePath) :
    ∀ e ∈ buildCycleEdges g p,
      (∃ i, i + 1 < p.length ∧ p.getD i "" = e.from' ∧ p.getD (i + 1) "" = e.to') ∧
      ∃ m, graphGet g e.from' = some m ∧ e.importInfo ∈ m.imports ∧
        e.importInfo.resolvedPath = e.to' := by
  intro e he
  unfold buildCycleEdges at he
  rw [List.mem_filterMap] at he
  obtain ⟨pr, hpr, hsome⟩ := he
  cases hg : graphGet g pr.1 with
  | none => rw [hg] at hsome; simp at hsome
  | some m =>
    rw [hg] at hsome
    rw [Option.map_eq_some'] at hsome
    obtain ⟨imp, hfind, heq⟩ := hsome
    have himp : imp ∈ m.imports := List.mem_of_find?_eq_some hfind
    have hres : imp.resolvedPath = pr.2 := by
      have := List.find?_some hfind
      simpa using this
    subst heq
    constructor
    · rw [List.mem_iff_getElem] at hpr
      obtain ⟨i, hi, hget⟩ := hpr
      have hzlen : i < p.length ∧ i < p.tail.length := by
        rw [List.length_zip] at hi
        exact ⟨lt_of_lt_of_le hi (min_le_left _ _),
          lt_of_lt_of_le hi (min_le_right _ _)⟩
      obtain ⟨hz1, hz2⟩ := hzlen
      have hi1 : i + 1 < p.length := by
        have := hz2
        simp only [List.length_tail] at this
        omega
      refine ⟨i, hi1, ?_, ?_⟩
      · rw [List.getD_eq_getElem p "" hz1]
        have hz : (p.zip p.tail)[i] = (p[i], p.tail[i]) :=
          List.getElem_zip (h := hi)
        rw [hget] at hz
        exact (congrArg Prod.fst hz).symm
      · rw [List.getD_eq_getElem p "" hi1]
        have hz : (p.zip p.tail)[i] = (p[i], p.tail[i]) :=
          List.getElem_zip (h := hi)
        rw [hget] at hz
        have ht := List.getElem_tail p i hz2
        rw [ht] at hz
        exact (congrArg Prod.snd hz).symm
    · exact ⟨m, hg, himp, hres⟩

/-- When every consecutive pair of the path is import-adjacent,
`buildCycleEdges` keeps one edge per pair, in order. -/
theorem buildCycleEdges_complete (g : ModuleGraph) :
    ∀ p : List ModulePath, List.Chain' (AdjOK g) p →
      (buildCycleEdges g p).map (fun e => (e.from', e.to')) = p.zip p.tail := by
  intro p
  induction p with
  | nil => intro _; rfl
  | cons u rest ihp =>
    cases rest with
    | nil => intro _; rfl
    | cons w rest2 =>
      intro h
      rw [List.chain'_cons] at h
      obtain ⟨⟨m, hm, imp, himp, hres⟩, hch⟩ := h
      have hrec := ihp hch
      have hfind : ∃ imp', (m.imports.find? fun i => i.resolvedPath == w) = some imp' := by
        rw [← Option.isSome_iff_exists, List.find?_isSome]
        exact ⟨imp, himp, by simp [hres]⟩
      obtain ⟨imp', hfind'⟩ := hfind
      unfold buildCycleEdges at hrec ⊢
      simp only [List.tail_cons] at hrec ⊢
      rw [List.zip_cons_cons, List.filterMap_cons]
      simp only [hm, hfind', Option.map_some']
      rw [List.map_cons]
      rw [hrec]

/-- C7: the `maxDepth` argument has no effect on cycle detection — for every
module graph and any two depth values, `detectCycles` returns exactly the
same list of cycles. -/
theorem detectCycles_ignores_maxDepth (g : ModuleGraph) (d1 d2 : Nat) :
    detectCycles g d1 = detectCycles g d2 := rfl

/-- C1 (refuting evaluation): the same two-module cycle inserted in the two
possible map-iteration orders is reported with the same node set but
**different** `id`s, because `generateCycleId` hashes the sorted cycle path
without deduplicating the repeated closing node (`a::b::b` vs `a::a::b`).
This contradicts the claimed invariant that the id is derived from the
sorted, **deduplicated** node set and is stable across iteration orders. -/
theorem cycleId_differs_across_insertion_orders :
    gAB.Perm gBA ∧
    (detectCycles gAB 0).map (fun c => c.paths) = [["b", "a", "b"]] ∧
    (detectCycles gBA 0).map (fun c => c.paths) = [["a", "b", "a"]] ∧
    (detectCycles gAB 0).map (fun c => sortStrings c.paths.eraseDups) =
      [["a", "b"]] ∧
    (detectCycles gBA 0).map (fun c => sortStrings c.paths.eraseDups) =
      [["a", "b"]] ∧
    (detectCycles gAB 0).map (fun c => c.id) = ["fc0e90fd"] ∧
    (detectCycles gBA 0).map (fun c => c.id) = ["2f6d1e94"] := by
  refine ⟨by decide, ?_, ?_, by decide, by decide, ?_, ?_⟩ <;> decide

/-- C2 (counterexample): on `gStem`, `detectCycles` reports the single cycle
with `paths = [s, x, y, x]`, whose first and last entries differ — the
returned walk is not closed at `paths[0]` as claimed. -/
theorem cycle_path_not_closed_at_head :
    (detectCycles gStem 0).map (fun c => (c.paths.headD "", c.paths.getLastD "")) =
      [("s", "x")] ∧
    (detectCycles gStem 0).map (fun c => c.paths) = [["s", "x", "y", "x"]] ∧
    ("s" : String) ≠ "x" := by
  refine ⟨?_, ?_, by decide⟩ <;> decide

/-- C4 (refuting evaluation): the glob compiler turns `**` into `.[^/]*`
(the second `replace` rewrites the `*` of the freshly produced `.*`), so a
`**` pattern does **not** match across path separators; the spec's
single-segment example still behaves as described, and `?` is an unescaped
regex metacharacter rather than a literal. -/
theorem doubleStar_does_not_cross_separators :
    String.mk (compilePattern "src/domain/**") = "^src/domain/.[^/]*$" ∧
    matchesPattern "src/domain/**" "src/domain/user.ts" = true ∧
    matchesPattern "src/domain/**" "src/infrastructure/db.ts" = false ∧
    matchesPattern "src/infrastructure/**" "src/infrastructure/db.ts" = true ∧
    matchesPattern "src/domain/**" "src/domain/nested/user.ts" = false ∧
    evaluate [ruleDomainInfra] "" arNestedDomain = [] ∧
    matchesPattern "a?" "a" = true := by
  refine ⟨by decide, by decide, by decide, by decide, by decide, by decide,
    by decide⟩

/-- C5 (refuting evaluation): for a self-loop cycle (`paths.length = 2`)
with no applicable strategy, `fixCycle` does return `success = false` with
two manual steps, but stores the module path `cycle.paths[0]` — not `null` —
in the `strategy` field (`cycle.paths.length === 2 ? (cycle.paths[0] as any)
: (null as any)`). -/
theorem noStrategy_result_strategy_not_null_on_selfloop :
    (findApplicableStrategies
        [dynamicImportStrategy (fun c _ => c), extractSharedStrategy]
        cSelf gSelf optsDry).isEmpty = true ∧
    (fixCycle [dynamicImportStrategy (fun c _ => c), extractSharedStrategy]
        fsTrivial cSelf gSelf optsDry).1.success = false ∧
    ((fixCycle [dynamicImportStrategy (fun c _ => c), extractSharedStrategy]
        fsTrivial cSelf gSelf optsDry).1.manualSteps.getD []).length = 2 ∧
    (fixCycle [dynamicImportStrategy (fun c _ => c), extractSharedStrategy]
        fsTrivial cSelf gSelf optsDry).1.strategy = .strRef "a" ∧
    (StrategyRef.strRef "a") ≠ .nullRef := by
  refine ⟨?_, ?_, ?_, ?_, by decide⟩ <;> decide

/-- C6: under `dryRun = true`, both registered strategies perform zero
filesystem writes (no backup, no write, no file creation) and return results
with empty `modifiedFiles` and `createdFiles` — for every cycle, module map,
read-only filesystem view, and any text-rewriting helper. -/
theorem dryRun_strategies_write_nothing
    (convert : String → ImportInfo → String) (cycle : Cycle)
    (g : ModuleGraph) (fs : FSView) :
    (dynamicImportFix convert cycle g fs true).2 = [] ∧
    (dynamicImportFix convert cycle g fs true).1.modifiedFiles = [] ∧
    (dynamicImportFix convert cycle g fs true).1.createdFiles = [] ∧
    (extractSharedFix cycle g fs true).2 = [] ∧
    (extractSharedFix cycle g fs true).1.modifiedFiles = [] ∧
    (extractSharedFix cycle g fs true).1.createdFiles = [] := by
  unfold dynamicImportFix extractSharedFix
  cases h : selectEdgeToConvert cycle <;>
    simp [dynamicImportManualResult]

/-- C10: `ExtractSharedStrategy.fix` never auto-fixes: for every cycle,
module map, filesystem view and either `dryRun` value it performs no
filesystem writes, returns `success = false` with empty `modifiedFiles` and
`createdFiles`, and carries at least two manual steps (create the shared
module, then update each cycle member). -/
theorem extractShared_always_manual (cycle : Cycle) (g : ModuleGraph)
    (fs : FSView) (dryRun : Bool) :
    (extractSharedFix cycle g fs dryRun).2 = [] ∧
    (extractSharedFix cycle g fs dryRun).1.success = false ∧
    (extractSharedFix cycle g fs dryRun).1.modifiedFiles = [] ∧
    (extractSharedFix cycle g fs dryRun).1.createdFiles = [] ∧
    ∃ steps, (extractSharedFix cycle g fs dryRun).1.manualSteps = some steps ∧
      2 ≤ steps.length := by
  unfold extractSharedFix
  refine ⟨rfl, rfl, rfl, rfl, _, rfl, ?_⟩
  simp

/-! ## Basic facts about graph lookup and the fuel measure -/

/-- A successful lookup means the key occurs in the key list. -/
theorem graphGet_mem_keys {g : ModuleGraph} {v : ModulePath} {m : Module}
    (h : graphGet g v = some m) : v ∈ graphKeys g := by
  induction g with
  | nil => simp [graphGet] at h
  | cons e rest ihg =>
    unfold graphGet at h
    rw [List.find?_cons] at h
    by_cases he : (e.1 == v) = true
    · have : e.1 = v := by simpa using he
      simp [graphKeys, this]
    · have hf : (e.1 == v) = false := by simpa using he
      rw [hf] at h
      right
      exact ihg h

/-- A key in the key list has a module. -/
theorem mem_keys_isSome {g : ModuleGraph} {v : ModulePath}
    (h : v ∈ graphKeys g) : (graphGet g v).isSome := by
  induction g with
  | nil => simp [graphKeys] at h
  | cons e rest ihg =>
    unfold graphGet
    rw [List.find?_cons]
    by_cases he : (e.1 == v) = true
    · rw [he]; rfl
    · have hf : (e.1 == v) = false := by simpa using he
      rw [hf]
      have h' : v = e.1 ∨ v ∈ graphKeys rest := by
        simpa [graphKeys] using h
      rcases h' with h' | h'
      · exact absurd (by simp [h']) he
      · exact ihg h'

/-- `graphHas` agrees with key membership. -/
theorem graphHas_iff_mem_keys {g : ModuleGraph} {v : ModulePath} :
    graphHas g v = true ↔ v ∈ graphKeys g := by
  constructor
  · intro h
    unfold graphHas at h
    cases hg : graphGet g v with
    | none => rw [hg] at h; simp at h
    | some m => exact graphGet_mem_keys hg
  · intro h
    unfold graphHas
    rw [Option.isSome_iff_exists] at *
    have := mem_keys_isSome h
    rw [Option.isSome_iff_exists] at this
    obtain ⟨m, hm⟩ := this
    simp [hm]

/-- The fuel measure is antitone along index extension. -/
theorem uncount_mono {g : ModuleGraph} {s s' : TarjanState}
    (h : ∀ w i, s.idxOf w = some i → s'.idxOf w = some i) :
    uncount g s' ≤ uncount g s := by
  unfold uncount
  refine List.Sublist.length_le (List.monotone_filter_right _ ?_)
  intro a ha
  rw [Option.isNone_iff_eq_none] at ha ⊢
  cases hs : s.idxOf a with
  | none => rfl
  | some i => exact absurd (h a i hs) (by simp [ha])

/-- Indexing a fresh key strictly decreases the fuel measure. -/
theorem uncount_strict {g : ModuleGraph} {s s' : TarjanState} {v : ModulePath}
    (hmono : ∀ w i, s.idxOf w = some i → s'.idxOf w = some i)
    (hv : v ∈ graphKeys g) (hnone : s.idxOf v = none)
    (hsome : (s'.idxOf v).isSome) : uncount g s' < uncount g s := by
  unfold uncount
  obtain ⟨l1, l2, hsplit⟩ := List.append_of_mem hv
  rw [hsplit]
  rw [List.filter_append, List.filter_cons, List.filter_append,
    List.filter_cons]
  have h1 : (s.idxOf v).isNone = true := by simp [hnone]
  rw [if_pos h1]
  have h2 : ¬ ((s'.idxOf v).isNone = true) := by
    simp only [Option.isNone_iff_eq_none]
    intro hcon
    rw [hcon] at hsome
    simp at hsome
  rw [if_neg h2]
  have hsub : ∀ (l : List ModulePath),
      (l.filter fun k => (s'.idxOf k).isNone).length ≤
        (l.filter fun k => (s.idxOf k).isNone).length := by
    intro l
    refine List.Sublist.length_le (List.monotone_filter_right _ ?_)
    intro a ha
    rw [Option.isNone_iff_eq_none] at ha ⊢
    cases hs : s.idxOf a with
    | none => rfl
    | some i => exact absurd (hmono a i hs) (by simp [ha])
  have := hsub l1
  have := hsub l2
  simp only [List.length_append, List.length_cons]
  omega

/-- Pushing a fresh key (the entry sequence of `strongConnect`) preserves
the machine invariant. -/
theorem push_spec (g : ModuleGraph) (s : TarjanState) (v : ModulePath)
    (hinv : TInv g s) (hkeys : v ∈ graphKeys g) (hnone : s.idxOf v = none) :
    TInv g
      { num := s.num + 1, stack := v :: s.stack
        idxOf := updFn s.idxOf v s.num, lowOf := updFn s.lowOf v s.num
        onStk := fun x => if x = v then true else s.onStk x
        sccs := s.sccs } := by
  have hvstk : v ∉ s.stack := by
    intro hmem
    have := hinv.stack_indexed v hmem
    rw [hnone] at this
    simp at this
  have hvflat : v ∉ s.sccs.flatten := by
    intro hmem
    have h2 := (hinv.popped_iff v).mpr hmem
    rw [hnone] at h2
    simp at h2
  constructor
  case onstk_iff =>
    intro x
    by_cases hx : x = v
    · subst hx; simp
    · simp only [if_neg hx, List.mem_cons]
      rw [hinv.onstk_iff x]
      constructor
      · exact fun h => Or.inr h
      · rintro (h | h)
        · exact absurd h hx
        · exact h
  case stack_nodup => exact List.nodup_cons.mpr ⟨hvstk, hinv.stack_nodup⟩
  case stack_indexed =>
    intro x hx
    by_cases h : x = v
    · subst h; simp [updFn]
    · rcases List.mem_cons.mp hx with h' | h'
      · exact absurd h' h
      · simpa [updFn, h] using hinv.stack_indexed x h'
  case idx_lt_num =>
    intro x i hx
    simp only [updFn] at hx
    show i < s.num + 1
    by_cases h : x = v
    · rw [if_pos h] at hx
      cases hx
      omega
    · rw [if_neg h] at hx
      have := hinv.idx_lt_num x i hx
      omega
  case idx_keys =>
    intro x i hx
    simp only [updFn] at hx
    by_cases h : x = v
    · subst h; exact hkeys
    · rw [if_neg h] at hx
      exact hinv.idx_keys x i hx
  case idx_inj =>
    intro u w i hu hw
    simp only [updFn] at hu hw
    by_cases h1 : u = v <;> by_cases h2 : w = v
    · rw [h1, h2]
    · rw [if_pos h1] at hu
      rw [if_neg h2] at hw
      cases hu
      have := hinv.idx_lt_num w _ hw
      omega
    · rw [if_neg h1] at hu
      rw [if_pos h2] at hw
      cases hw
      have := hinv.idx_lt_num u _ hu
      omega
    · rw [if_neg h1] at hu
      rw [if_neg h2] at hw
      exact hinv.idx_inj u w i hu hw
  case stack_sorted =>
    rw [List.pairwise_cons]
    constructor
    · intro b hb
      have hbv : b ≠ v := fun h => hvstk (h ▸ hb)
      have hbi := hinv.stack_indexed b hb
      rw [Option.isSome_iff_exists] at hbi
      obtain ⟨i, hi⟩ := hbi
      have := hinv.idx_lt_num b i hi
      show idxN _ b < idxN _ v
      unfold idxN
      show (updFn s.idxOf v s.num b).getD 0 < (updFn s.idxOf v s.num v).getD 0
      unfold updFn
      rw [if_neg hbv, if_pos rfl, hi]
      simpa using this
    · refine hinv.stack_sorted.imp_of_mem ?_
      intro a b ha hb hlt
      have hav : a ≠ v := fun h => hvstk (h ▸ ha)
      have hbv : b ≠ v := fun h => hvstk (h ▸ hb)
      show (if b = v then some s.num else s.idxOf b).getD 0 <
        (if a = v then some s.num else s.idxOf a).getD 0
      rw [if_neg hav, if_neg hbv]
      unfold idxN at hlt
      exact hlt
  case popped_iff =>
    intro x
    by_cases hx : x = v
    · subst hx
      simp only [updFn, if_pos rfl]
      constructor
      · rintro ⟨-, hmem⟩
        exact absurd (List.mem_cons_self _ _) hmem
      · intro h
        exact absurd h hvflat
    · simp only [updFn, if_neg hx]
      rw [← hinv.popped_iff x]
      constructor
      · rintro ⟨h1, h2⟩
        exact ⟨h1, fun hmem => h2 (List.mem_cons_of_mem _ hmem)⟩
      · rintro ⟨h1, h2⟩
        refine ⟨h1, fun hmem => ?_⟩
        rcases List.mem_cons.mp hmem with h' | h'
        · exact hx h'
        · exact h2 h'
  case sccs_flat_nodup => exact hinv.sccs_flat_nodup
  case sccs_nonnil => exact hinv.sccs_nonnil
  case low_def =>
    intro x i hx
    simp only [updFn] at hx ⊢
    by_cases h : x = v
    · rw [if_pos h] at hx
      cases hx
      rw [if_pos h]
      exact ⟨s.num, rfl, le_refl _⟩
    · rw [if_neg h] at hx
      rw [if_neg h]
      exact hinv.low_def x i hx
  case low_reach =>
    intro x l hx hl
    by_cases h : x = v
    · rw [h] at hl ⊢
      simp only [updFn, if_pos rfl] at hl
      cases hl
      refine ⟨v, ?_, Relation.ReflTransGen.refl, fun _ => List.mem_cons_self _ _⟩
      simp [updFn]
    · simp only [updFn, if_neg h] at hx hl
      obtain ⟨y, hy1, hy2, hy3⟩ := hinv.low_reach x l hx hl
      have hyv : y ≠ v := by
        intro hcon
        rw [hcon, hnone] at hy1
        cases hy1
      refine ⟨y, by simp [updFn, hyv, hy1], hy2, fun hmem => ?_⟩
      rcases List.mem_cons.mp hmem with h' | h'
      · exact absurd h' h
      · exact List.mem_cons_of_mem _ (hy3 h')
  case sccs_sound => exact hinv.sccs_sound
  case sccs_sound_in => exact hinv.sccs_sound_in

/-- Lowering `lowLink[v]` to `min (lowLink v) b` preserves the machine
invariant, provided `b` is either the current value or the index of an
on-stack node reachable from `v`. -/
theorem lowupd_spec (g : ModuleGraph) (t : TarjanState) (v : ModulePath)
    (b : Nat) (hinv : TInv g t) (hv : (t.idxOf v).isSome)
    (hvstk : v ∈ t.stack)
    (hb : lowN t v ≤ b ∨ ∃ y, t.idxOf y = some b ∧ Reaches g v y ∧ y ∈ t.stack) :
    TInv g { t with lowOf := updFn t.lowOf v (min (lowN t v) b) } := by
  obtain ⟨iv, hiv⟩ := Option.isSome_iff_exists.mp hv
  obtain ⟨l0, hl0, hl0le⟩ := hinv.low_def v iv hiv
  have hlowv : lowN t v = l0 := by simp [lowN, hl0]
  constructor
  case onstk_iff => exact hinv.onstk_iff
  case stack_nodup => exact hinv.stack_nodup
  case stack_indexed => exact hinv.stack_indexed
  case idx_lt_num => exact hinv.idx_lt_num
  case idx_keys => exact hinv.idx_keys
  case idx_inj => exact hinv.idx_inj
  case stack_sorted => exact hinv.stack_sorted
  case popped_iff => exact hinv.popped_iff
  case sccs_flat_nodup => exact hinv.sccs_flat_nodup
  case sccs_nonnil => exact hinv.sccs_nonnil
  case sccs_sound => exact hinv.sccs_sound
  case sccs_sound_in => exact hinv.sccs_sound_in
  case low_def =>
    intro x i hx
    by_cases h : x = v
    · rw [h] at hx ⊢
      refine ⟨min (lowN t v) b, by simp [updFn], ?_⟩
      have : iv = i := by
        rw [hiv] at hx
        cases hx
        rfl
      subst this
      calc min (lowN t v) b ≤ lowN t v := min_le_left _ _
      _ = l0 := hlowv
      _ ≤ iv := hl0le
    · show ∃ l, updFn t.lowOf v (min (lowN t v) b) x = some l ∧ l ≤ i
      unfold updFn
      rw [if_neg h]
      exact hinv.low_def x i hx
  case low_reach =>
    intro x l hx hl
    by_cases h : x = v
    · rw [h] at hx hl ⊢
      have hl' : min (lowN t v) b = l := by
        simpa [updFn] using hl
      by_cases hbl : b < lowN t v
      · have hmin : min (lowN t v) b = b := min_eq_right (le_of_lt hbl)
        rcases hb with hb | ⟨y, hy1, hy2, hy3⟩
        · omega
        · refine ⟨y, ?_, hy2, fun _ => hy3⟩
          rw [← hl', hmin]
          exact hy1
      · have hmin : min (lowN t v) b = lowN t v := min_eq_left (by omega)
        obtain ⟨y, hy1, hy2, hy3⟩ := hinv.low_reach v l0 hv hl0
        refine ⟨y, ?_, hy2, fun _ => hy3 hvstk⟩
        rw [← hl', hmin, hlowv]
        exact hy1
    · have hl' : t.lowOf x = some l := by
        simpa [updFn, h] using hl
      exact hinv.low_reach x l hx hl'

/-- `popUntil` splits the stack at the first occurrence of `v`. -/
theorem popUntil_eq {v : ModulePath} :
    ∀ (P R : List ModulePath), v ∉ P →
      popUntil v (P ++ v :: R) = (P ++ [v], R) := by
  intro P
  induction P with
  | nil => intro R _; simp [popUntil]
  | cons a P ih =>
    intro R h
    have hav : ¬ (a = v) := fun hc => h (hc ▸ List.mem_cons_self _ _)
    have hP : v ∉ P := fun hc => h (List.mem_cons_of_mem _ hc)
    show popUntil v (a :: (P ++ v :: R)) = ((a :: P) ++ [v], R)
    unfold popUntil
    rw [if_neg hav, ih R hP]
    simp

/-- The chain argument: at a pop with `lowLink v = index v`, every node of
the popped segment reaches `v` (following low-link witnesses strictly down
the index order). -/
theorem chain_reaches (g : ModuleGraph) (t : TarjanState) (v : ModulePath)
    (L R : List ModulePath) (hinv : TInv g t)
    (hstack : t.stack = L ++ v :: R) (hpop : lowN t v = idxN t v)
    (hL : ∀ w ∈ L, lowN t w < idxN t w ∧ lowN t v ≤ lowN t w) :
    ∀ w ∈ L ++ [v], Reaches g w v := by
  have hvstk : v ∈ t.stack := by rw [hstack]; simp
  have hSstk : ∀ w ∈ L ++ [v], w ∈ t.stack := by
    intro w hw
    rw [hstack]
    rcases List.mem_append.mp hw with h | h
    · exact List.mem_append.mpr (Or.inl h)
    · simp only [List.mem_singleton] at h
      subst h
      simp
  have hidxL : ∀ w ∈ L, idxN t v < idxN t w := by
    intro w hw
    have := hinv.stack_sorted
    rw [hstack] at this
    rw [List.pairwise_append] at this
    exact this.2.2 w hw v (List.mem_cons_self _ _)
  have hidxR : ∀ x ∈ R, idxN t x < idxN t v := by
    intro x hx
    have := hinv.stack_sorted
    rw [hstack] at this
    rw [List.pairwise_append] at this
    exact (List.pairwise_cons.mp this.2.1).1 x hx
  have main : ∀ n, ∀ w ∈ L ++ [v], idxN t w ≤ n → Reaches g w v := by
    intro n
    induction n with
    | zero =>
      intro w hw hn
      rcases List.mem_append.mp hw with h | h
      · have := hidxL w h
        omega
      · simp only [List.mem_singleton] at h
        subst h
        exact Relation.ReflTransGen.refl
    | succ n ihn =>
      intro w hw hn
      rcases List.mem_append.mp hw with h | h
      · -- w ∈ L: follow the low-link witness down
        have hwstk : w ∈ t.stack := hSstk w hw
        have hwidx := hinv.stack_indexed w hwstk
        obtain ⟨iw, hiw⟩ := Option.isSome_iff_exists.mp hwidx
        obtain ⟨lw, hlw, hlwle⟩ := hinv.low_def w iw hiw
        obtain ⟨y, hy1, hy2, hy3⟩ := hinv.low_reach w lw hwidx hlw
        have hystk : y ∈ t.stack := hy3 hwstk
        have hlwn : lowN t w = lw := by simp [lowN, hlw]
        have hiwn : idxN t w = iw := by simp [idxN, hiw]
        have hyidx : idxN t y = lw := by simp [idxN, hy1]
        have hfrozen := hL w h
        -- lw ≥ idx v
        have hge : idxN t v ≤ lw := by
          rw [← hpop]
          calc lowN t v ≤ lowN t w := hfrozen.2
          _ = lw := hlwn
        -- y is in the popped segment
        have hymem : y ∈ L ++ [v] := by
          rw [hstack] at hystk
          rcases List.mem_append.mp hystk with h' | h'
          · exact List.mem_append.mpr (Or.inl h')
          · rcases List.mem_cons.mp h' with h'' | h''
            · subst h''
              simp
            · have := hidxR y h''
              omega
        -- index strictly decreases
        have hdec : idxN t y < idxN t w := by
          rw [hyidx, hiwn]
          calc lw = lowN t w := hlwn.symm
          _ < idxN t w := hfrozen.1
          _ = iw := hiwn
        have : Reaches g y v := ihn y hymem (by omega)
        exact Relation.ReflTransGen.trans hy2 this
      · simp only [List.mem_singleton] at h
        subst h
        exact Relation.ReflTransGen.refl
  intro w hw
  exact main (idxN t w) w hw (le_refl _)

/-- A walk whose step sources all satisfy `Q` and whose final node satisfies
`S` is a walk with all targets in `S`, provided `Q` implies `S`. -/
theorem reachesIn_of_src (g : ModuleGraph) (Q S : ModulePath → Prop)
    (hQS : ∀ a, Q a → S a) :
    ∀ w y, Relation.ReflTransGen (fun a b => Edge g a b ∧ Q a) w y →
      S y → ReachesIn g S w y := by
  intro w y h
  induction h with
  | refl =>
    intro _
    exact Relation.ReflTransGen.refl
  | tail hwb e ih =>
    intro hy
    exact Relation.ReflTransGen.tail (ih (hQS _ e.2)) ⟨e.1, hy⟩

/-- The internal chain argument: at a pop with `lowLink v = index v`, every
node of the popped segment reaches `v` by a walk that stays inside the
popped segment (following low-link witness walks, whose step sources stay
on the stack at or above the walk's owner). -/
theorem chain_reaches_in (g : ModuleGraph) (t : TarjanState) (v : ModulePath)
    (L R : List ModulePath) (hinv : TInv g t)
    (hstack : t.stack = L ++ v :: R) (hpop : lowN t v = idxN t v)
    (hL : ∀ w ∈ L, lowN t w < idxN t w ∧ lowN t v ≤ lowN t w)
    (hml : ∀ w ∈ L, ∃ y, t.idxOf y = some (lowN t w) ∧ y ∈ t.stack ∧
      Relation.ReflTransGen
        (fun a b => Edge g a b ∧ a ∈ t.stack ∧ idxN t w ≤ idxN t a) w y) :
    ∀ w ∈ L ++ [v], ReachesIn g (fun x => x ∈ L ++ [v]) w v := by
  have hidxL : ∀ w ∈ L, idxN t v < idxN t w := by
    intro w hw
    have hsort := hinv.stack_sorted
    rw [hstack, List.pairwise_append] at hsort
    exact hsort.2.2 w hw v (List.mem_cons_self _ _)
  have hidxR : ∀ x ∈ R, idxN t x < idxN t v := by
    intro x hx
    have hsort := hinv.stack_sorted
    rw [hstack, List.pairwise_append] at hsort
    exact (List.pairwise_cons.mp hsort.2.1).1 x hx
  have hsegmem : ∀ y, y ∈ t.stack → idxN t v ≤ idxN t y → y ∈ L ++ [v] := by
    intro y hy hge
    rw [hstack] at hy
    rcases List.mem_append.mp hy with h | h
    · exact List.mem_append.mpr (Or.inl h)
    · rcases List.mem_cons.mp h with h' | h'
      · subst h'
        simp
      · have := hidxR y h'
        omega
  have main : ∀ n, ∀ w ∈ L ++ [v], idxN t w ≤ n →
      ReachesIn g (fun x => x ∈ L ++ [v]) w v := by
    intro n
    induction n with
    | zero =>
      intro w hw hn
      rcases List.mem_append.mp hw with h | h
      · have := hidxL w h
        omega
      · simp only [List.mem_singleton] at h
        subst h
        exact Relation.ReflTransGen.refl
    | succ n ihn =>
      intro w hw hn
      rcases List.mem_append.mp hw with h | h
      · obtain ⟨y, hy1, hy2, hy3⟩ := hml w h
        have hfr := hL w h
        have hyidx : idxN t y = lowN t w := by simp [idxN, hy1]
        have hge : idxN t v ≤ idxN t y := by
          rw [hyidx, ← hpop]
          exact hfr.2
        have hymem : y ∈ L ++ [v] := hsegmem y hy2 hge
        have hstep : ReachesIn g (fun x => x ∈ L ++ [v]) w y := by
          refine reachesIn_of_src g
            (fun a => a ∈ t.stack ∧ idxN t w ≤ idxN t a) _ ?_ w y hy3 hymem
          intro a ha
          refine hsegmem a ha.1 ?_
          have := hidxL w h
          omega
        have hrec : ReachesIn g (fun x => x ∈ L ++ [v]) y v := by
          refine ihn y hymem ?_
          have : idxN t y < idxN t w := by
            rw [hyidx]
            exact hfr.1
          omega
        exact Relation.ReflTransGen.trans hstep hrec
      · simp only [List.mem_singleton] at h
        subst h
        exact Relation.ReflTransGen.refl
  intro w hw
  exact main (idxN t w) w hw (le_refl _)

/-- The SCC-emitting pop preserves the machine invariant; the popped
segment becomes a mutually reachable SCC. -/
theorem pop_spec (g : ModuleGraph) (t : TarjanState) (v : ModulePath)
    (L R : List ModulePath) (hinv : TInv g t)
    (hstack : t.stack = L ++ v :: R) (hvL : v ∉ L)
    (hpop : lowN t v = idxN t v)
    (hL : ∀ w ∈ L, lowN t w < idxN t w ∧ lowN t v ≤ lowN t w ∧ Reaches g v w)
    (hml : ∀ w ∈ L, ∃ y, t.idxOf y = some (lowN t w) ∧ y ∈ t.stack ∧
      Relation.ReflTransGen
        (fun a b => Edge g a b ∧ a ∈ t.stack ∧ idxN t w ≤ idxN t a) w y)
    (hrin : ∀ w ∈ L, ReachesIn g (fun x => x ∈ L) v w) :
    TInv g (popScc v t) ∧ (popScc v t).stack = R ∧
      (popScc v t).sccs = t.sccs ++ [L ++ [v]] := by
  have hsplit : popUntil v t.stack = (L ++ [v], R) := by
    rw [hstack]
    exact popUntil_eq L R hvL
  have hps : popScc v t =
      { t with
        stack := R
        onStk := fun x => if (L ++ [v]).contains x then false else t.onStk x
        sccs := t.sccs ++ [L ++ [v]] } := by
    unfold popScc
    rw [hsplit]
  rw [hps]
  refine ⟨?_, rfl, rfl⟩
  have hnd := hinv.stack_nodup
  rw [hstack] at hnd
  have hndSR : (L ++ [v] ++ R).Nodup := by
    simpa using hnd
  have hSstk : ∀ w ∈ L ++ [v], w ∈ t.stack := by
    intro w hw
    rw [hstack]
    rcases List.mem_append.mp hw with h | h
    · exact List.mem_append.mpr (Or.inl h)
    · simp only [List.mem_singleton] at h
      subst h
      simp
  have hRstk : ∀ x ∈ R, x ∈ t.stack := by
    intro x hx
    rw [hstack]
    exact List.mem_append.mpr (Or.inr (List.mem_cons_of_mem _ hx))
  have hdisj : ∀ x ∈ L ++ [v], x ∉ R := by
    intro x hx hxR
    exact (List.nodup_append.mp hndSR).2.2 hx hxR
  have hidxL : ∀ w ∈ L, idxN t v < idxN t w := by
    intro w hw
    have hsort := hinv.stack_sorted
    rw [hstack, List.pairwise_append] at hsort
    exact hsort.2.2 w hw v (List.mem_cons_self _ _)
  have hidxR : ∀ x ∈ R, idxN t x < idxN t v := by
    intro x hx
    have hsort := hinv.stack_sorted
    rw [hstack, List.pairwise_append] at hsort
    exact (List.pairwise_cons.mp hsort.2.1).1 x hx
  have hreach := chain_reaches g t v L R hinv hstack hpop
    (fun w hw => ⟨(hL w hw).1, (hL w hw).2.1⟩)
  have hmemS : ∀ x, x ∈ t.stack ↔ x ∈ L ++ [v] ∨ x ∈ R := by
    intro x
    rw [hstack]
    constructor
    · intro hx
      rcases List.mem_append.mp hx with h | h
      · exact Or.inl (List.mem_append.mpr (Or.inl h))
      · rcases List.mem_cons.mp h with h' | h'
        · exact Or.inl (by simp [h'])
        · exact Or.inr h'
    · rintro (hx | hx)
      · rcases List.mem_append.mp hx with h | h
        · exact List.mem_append.mpr (Or.inl h)
        · simp only [List.mem_singleton] at h
          subst h
          simp
      · exact List.mem_append.mpr (Or.inr (List.mem_cons_of_mem _ hx))
  constructor
  case onstk_iff =>
    intro x
    by_cases hx : x ∈ L ++ [v]
    · have hc : ((L ++ [v]).contains x) = true := by simpa using hx
      show (if (L ++ [v]).contains x then false else t.onStk x) = true ↔ x ∈ R
      rw [hc]
      simp only [if_true]
      constructor
      · intro h; cases h
      · intro h; exact absurd h (hdisj x hx)
    · have hc : ¬ (((L ++ [v]).contains x) = true) := by simpa using hx
      show (if (L ++ [v]).contains x then false else t.onStk x) = true ↔ x ∈ R
      rw [Bool.not_eq_true] at hc
      rw [hc]
      simp only [Bool.false_eq_true, if_false]
      rw [hinv.onstk_iff x, hmemS x]
      constructor
      · rintro (h | h)
        · exact absurd h hx
        · exact h
      · exact fun h => Or.inr h
  case stack_nodup => exact (List.nodup_append.mp hndSR).2.1
  case stack_indexed =>
    intro x hx
    exact hinv.stack_indexed x (hRstk x hx)
  case idx_lt_num => exact hinv.idx_lt_num
  case idx_keys => exact hinv.idx_keys
  case idx_inj => exact hinv.idx_inj
  case stack_sorted =>
    have hsort := hinv.stack_sorted
    rw [hstack, List.pairwise_append] at hsort
    exact (List.pairwise_cons.mp hsort.2.1).2
  case popped_iff =>
    intro x
    rw [List.flatten_append]
    simp only [List.flatten_cons, List.flatten_nil, List.append_nil]
    by_cases hx : x ∈ L ++ [v]
    · constructor
      · intro _
        exact List.mem_append.mpr (Or.inr hx)
      · intro _
        exact ⟨hinv.stack_indexed x (hSstk x hx), hdisj x hx⟩
    · constructor
      · rintro ⟨h1, h2⟩
        have : x ∉ t.stack := by
          rw [hmemS x]
          rintro (h | h)
          · exact hx h
          · exact h2 h
        exact List.mem_append.mpr
          (Or.inl ((hinv.popped_iff x).mp ⟨h1, this⟩))
      · intro h
        rcases List.mem_append.mp h with h' | h'
        · obtain ⟨h1, h2⟩ := (hinv.popped_iff x).mpr h'
          refine ⟨h1, fun hxR => h2 (hRstk x hxR)⟩
        · exact absurd h' hx
  case sccs_flat_nodup =>
    rw [List.flatten_append]
    simp only [List.flatten_cons, List.flatten_nil, List.append_nil]
    rw [List.nodup_append]
    refine ⟨hinv.sccs_flat_nodup, (List.nodup_append.mp hndSR).1, ?_⟩
    intro x hx hxS
    obtain ⟨-, hoff⟩ := (hinv.popped_iff x).mpr hx
    exact hoff (hSstk x hxS)
  case sccs_nonnil =>
    intro S hS
    rcases List.mem_append.mp hS with h | h
    · exact hinv.sccs_nonnil S h
    · simp only [List.mem_singleton] at h
      subst h
      simp
  case low_def => exact hinv.low_def
  case low_reach =>
    intro x l hx hl
    obtain ⟨y, hy1, hy2, hy3⟩ := hinv.low_reach x l hx hl
    refine ⟨y, hy1, hy2, fun hxR => ?_⟩
    have hystk : y ∈ t.stack := hy3 (hRstk x hxR)
    obtain ⟨ix, hix⟩ := Option.isSome_iff_exists.mp hx
    have hix' : t.idxOf x = some ix := hix
    obtain ⟨lx, hlx, hlxle⟩ := hinv.low_def x ix hix'
    have hl' : t.lowOf x = some l := hl
    have hlleq : l = lx := by
      rw [hl'] at hlx
      cases hlx
      rfl
    have hyidx : idxN t y = l := by simp [idxN, hy1]
    have hxidx : idxN t x = ix := by simp [idxN, hix']
    have hxlt : idxN t x < idxN t v := hidxR x hxR
    rcases (hmemS y).mp hystk with h | h
    · -- y in the popped segment: impossible, its index is too big
      exfalso
      have : idxN t v ≤ idxN t y := by
        rcases List.mem_append.mp h with h' | h'
        · exact le_of_lt (hidxL y h')
        · simp only [List.mem_singleton] at h'
          subst h'
          exact le_refl _
      omega
    · exact h
  case sccs_sound =>
    intro S hS a ha b hb
    rcases List.mem_append.mp hS with h | h
    · exact hinv.sccs_sound S h a ha b hb
    · simp only [List.mem_singleton] at h
      subst h
      have hav : Reaches g a v := hreach a ha
      have hvb : Reaches g v b := by
        rcases List.mem_append.mp hb with h' | h'
        · exact (hL b h').2.2
        · simp only [List.mem_singleton] at h'
          subst h'
          exact Relation.ReflTransGen.refl
      exact Relation.ReflTransGen.trans hav hvb
  case sccs_sound_in =>
    intro S hS a ha b hb
    rcases List.mem_append.mp hS with h | h
    · exact hinv.sccs_sound_in S h a ha b hb
    · simp only [List.mem_singleton] at h
      subst h
      have hchain := chain_reaches_in g t v L R hinv hstack hpop
        (fun w hw => ⟨(hL w hw).1, (hL w hw).2.1⟩) hml
      have hav : ReachesIn g (fun x => x ∈ L ++ [v]) a v := hchain a ha
      have hvb : ReachesIn g (fun x => x ∈ L ++ [v]) v b := by
        rcases List.mem_append.mp hb with h' | h'
        · refine Relation.ReflTransGen.mono ?_ (hrin b h')
          intro x y hxy
          exact ⟨hxy.1, List.mem_append.mpr (Or.inl hxy.2)⟩
        · simp only [List.mem_singleton] at h'
          subst h'
          exact Relation.ReflTransGen.refl
      exact Relation.ReflTransGen.trans hav hvb

/-- The bottom-of-stack index bound is unchanged when the stack is only
extended on top and indices are preserved. -/
theorem botIdx_congr (s1 st : TarjanState) (L : List ModulePath)
    (h : st.stack = L ++ s1.stack) (hne : s1.stack ≠ [])
    (hidx : ∀ w i, s1.idxOf w = some i → st.idxOf w = some i)
    (hindexed : ∀ w ∈ s1.stack, (s1.idxOf w).isSome) :
    botIdx st = botIdx s1 := by
  obtain ⟨b, hb⟩ := List.getLast?_isSome.mpr hne |> Option.isSome_iff_exists.mp
  have hbmem : b ∈ s1.stack := by
    obtain ⟨P, hP⟩ := List.getLast?_eq_some_iff.mp hb
    rw [hP]
    simp
  have hbl : st.stack.getLast? = some b := by
    rw [h, List.getLast?_append]
    rw [hb]
    rfl
  obtain ⟨i, hi⟩ := Option.isSome_iff_exists.mp (hindexed b hbmem)
  unfold botIdx
  rw [hb, hbl]
  show idxN st b = idxN s1 b
  unfold idxN
  rw [hi, hidx b i hi]

/-- Every stack member's index is at least the bottom index. -/
theorem botIdx_le_of_mem (g : ModuleGraph) (st : TarjanState)
    (hinv : TInv g st) (w : ModulePath) (hw : w ∈ st.stack) :
    botIdx st ≤ idxN st w := by
  have hne : st.stack ≠ [] := List.ne_nil_of_mem hw
  obtain ⟨b, hb⟩ := List.getLast?_isSome.mpr hne |> Option.isSome_iff_exists.mp
  unfold botIdx
  rw [hb]
  show idxN st b ≤ idxN st w
  obtain ⟨P, hP⟩ := List.getLast?_eq_some_iff.mp hb
  have hsort := hinv.stack_sorted
  rw [hP, List.pairwise_append] at hsort
  rw [hP] at hw
  rcases List.mem_append.mp hw with h | h
  · exact le_of_lt (hsort.2.2 w h b (List.mem_singleton_self _))
  · simp only [List.mem_singleton] at h
    subst h
    exact le_refl _

/-- One iteration of the import loop of `strongConnect` preserves the loop
invariant (given the induction hypothesis for nested calls at the smaller
fuel). -/
theorem loop_step (g : ModuleGraph) (fuel : Nat) (v : ModulePath)
    (s1 st : TarjanState) (imp : ImportInfo) (mv : Module)
    (hmv : graphGet g v = some mv) (himp : imp ∈ mv.imports)
    (hs1v : (s1.idxOf v).isSome) (hs1vstk : v ∈ s1.stack)
    (hs1ind : ∀ w ∈ s1.stack, (s1.idxOf w).isSome)
    (hs1ne : s1.stack ≠ [])
    (hfuel1 : uncount g s1 < fuel)
    (ih : ∀ v' s', TInv g s' → v' ∈ graphKeys g → s'.idxOf v' = none →
      uncount g s' < fuel → SCPost g v' s' (strongConnect g fuel v' s'))
    (linv : LoopInv g v s1 st) :
    LoopInv g v s1
      (if ¬ graphHas g imp.resolvedPath then st
       else if (st.idxOf imp.resolvedPath).isNone then
         { strongConnect g fuel imp.resolvedPath st with
           lowOf :=
            updFn (strongConnect g fuel imp.resolvedPath st).lowOf v
              (min (((strongConnect g fuel imp.resolvedPath st).lowOf v).getD 0)
                (((strongConnect g fuel imp.resolvedPath st).lowOf
                    imp.resolvedPath).getD 0)) }
       else if st.onStk imp.resolvedPath then
         { st with
           lowOf :=
            updFn st.lowOf v
              (min ((st.lowOf v).getD 0) ((st.idxOf imp.resolvedPath).getD 0)) }
       else st) := by
  set w := imp.resolvedPath with hw
  -- facts available throughout
  have hstv_idx : (st.idxOf v).isSome := by
    obtain ⟨i, hi⟩ := Option.isSome_iff_exists.mp hs1v
    rw [linv.v_idx, hi]
    rfl
  have hstvstk : v ∈ st.stack := by
    obtain ⟨L, hL, -⟩ := linv.stack_shape
    rw [hL]
    exact List.mem_append.mpr (Or.inr hs1vstk)
  by_cases hhas : graphHas g w = true
  · rw [if_neg (by simpa using hhas)]
    have hwkeys : w ∈ graphKeys g := graphHas_iff_mem_keys.mp hhas
    have hedge : Edge g v w := ⟨mv, imp, hmv, himp, rfl, hhas⟩
    by_cases hnone : (st.idxOf w).isNone = true
    · rw [if_pos hnone]
      -- nested call
      have hwnone : st.idxOf w = none := Option.isNone_iff_eq_none.mp hnone
      have hfuelst : uncount g st < fuel :=
        lt_of_le_of_lt (uncount_mono linv.idx_mono) hfuel1
      have post := ih w st linv.inv hwkeys hwnone hfuelst
      set t := strongConnect g fuel w st with ht
      obtain ⟨Lt, hLt, hLtprops, hdich⟩ := post.stack_shape
      -- v's index and low survive the nested call
      obtain ⟨iv, hiv⟩ := Option.isSome_iff_exists.mp hstv_idx
      have htv_idx : t.idxOf v = some iv := post.idx_mono v iv hiv
      have htv_low : t.lowOf v = st.lowOf v := post.low_frozen v hstv_idx
      have htvstk : v ∈ t.stack := by
        rw [hLt]
        exact List.mem_append.mpr (Or.inr hstvstk)
      have hlowtv : lowN t v = lowN st v := by
        unfold lowN
        rw [htv_low]
      -- the update value is admissible for `lowupd_spec`
      have hbranch :
          lowN t v ≤ lowN t w ∨
            ∃ y, t.idxOf y = some (lowN t w) ∧ Reaches g v y ∧ y ∈ t.stack := by
        rcases hdich with ⟨heq, -⟩ | ⟨hlt, hvmem⟩
        · -- nested call popped itself: loww = st.num > index of v ≥ low of v
          left
          have hlow_le : lowN st v ≤ iv := by
            obtain ⟨l0, hl0, hle⟩ := linv.inv.low_def v iv hiv
            simp [lowN, hl0, hle]
          have hivlt : iv < st.num := linv.inv.idx_lt_num v iv hiv
          rw [hlowtv, heq]
          omega
        · -- nested call stayed on the stack: follow w's low witness
          right
          have hwstk : w ∈ t.stack := by
            rw [hLt]
            exact List.mem_append.mpr (Or.inl hvmem)
          have hwidx : (t.idxOf w).isSome := by
            rw [post.v_indexed]
            rfl
          have hlowsome : (t.lowOf w).isSome := by
            obtain ⟨l', hl', -⟩ := post.inv.low_def w st.num post.v_indexed
            rw [hl']
            rfl
          obtain ⟨lw', hlw'⟩ := Option.isSome_iff_exists.mp hlowsome
          have hlwn : lowN t w = lw' := by simp [lowN, hlw']
          obtain ⟨y, hy1, hy2, hy3⟩ := post.inv.low_reach w lw' hwidx hlw'
          refine ⟨y, by rw [hlwn]; exact hy1, ?_, hy3 hwstk⟩
          exact Relation.ReflTransGen.trans
            (Relation.ReflTransGen.single hedge) hy2
      refine ⟨?_, ?_, ?_, ?_, ?_, ?_, ?_, ?_, ?_, ?_, ?_, ?_⟩
      · -- inv
        have := lowupd_spec g t v (lowN t w) post.inv
          (by rw [htv_idx]; rfl) htvstk hbranch
        exact this
      · -- idx_mono
        intro x i hx
        exact post.idx_mono x i (linv.idx_mono x i hx)
      · -- low_frozen
        intro x hx hxv
        show updFn t.lowOf v (min (lowN t v) (lowN t w)) x = s1.lowOf x
        unfold updFn
        rw [if_neg hxv]
        have hxst : (st.idxOf x).isSome := by
          obtain ⟨i, hi⟩ := Option.isSome_iff_exists.mp hx
          rw [linv.idx_mono x i hi]
          rfl
        rw [post.low_frozen x hxst]
        exact linv.low_frozen x hx hxv
      · exact le_trans linv.num_mono (le_of_lt post.num_mono)
      · -- v_idx
        show t.idxOf v = s1.idxOf v
        rw [htv_idx, ← linv.v_idx, hiv]
      · -- v_low_le
        show (updFn t.lowOf v (min (lowN t v) (lowN t w)) v).getD 0 ≤ lowN s1 v
        unfold updFn
        rw [if_pos rfl]
        calc (some (min (lowN t v) (lowN t w))).getD 0 ≤ lowN t v :=
          min_le_left _ _
        _ = lowN st v := hlowtv
        _ ≤ lowN s1 v := linv.v_low_le
      · -- new_ge
        intro x i hx
        have hx' : t.idxOf x = some i := hx
        rcases post.new_ge x i hx' with h | h
        · obtain ⟨j, hj⟩ := Option.isSome_iff_exists.mp h
          rcases linv.new_ge x j hj with h' | h'
          · left; exact h'
          · right
            have hj' := post.idx_mono x j hj
            rw [hj'] at hx'
            obtain rfl := Option.some.inj hx'
            exact h'
        · right
          exact le_trans linv.num_mono h
      · -- sccs_pre
        obtain ⟨t1, ht1⟩ := linv.sccs_pre
        obtain ⟨t2, ht2⟩ := post.sccs_pre
        refine ⟨t1 ++ t2, ?_⟩
        show t.sccs = s1.sccs ++ (t1 ++ t2)
        rw [ht2, ht1, List.append_assoc]
      · -- low_bot
        intro hpre
        have h1 := linv.low_bot hpre
        have hbots : botIdx st = botIdx s1 := by
          obtain ⟨L, hL, -⟩ := linv.stack_shape
          exact botIdx_congr s1 st L hL hs1ne linv.idx_mono hs1ind
        show botIdx s1 ≤ (updFn t.lowOf v (min (lowN t v) (lowN t w)) v).getD 0
        unfold updFn
        rw [if_pos rfl]
        have h2 : botIdx st ≤ lowN t w := post.low_bot
        have : botIdx s1 ≤ min (lowN t v) (lowN t w) := by
          rw [le_min_iff]
          constructor
          · rw [hlowtv]; exact h1
          · rw [← hbots]; exact h2
        simpa using this
      · -- stack_shape
        obtain ⟨L, hL, hLprops⟩ := linv.stack_shape
        refine ⟨Lt ++ L, ?_, ?_⟩
        · show t.stack = (Lt ++ L) ++ s1.stack
          rw [hLt, hL, List.append_assoc]
        · intro x hx
          have hxlow :
              (updFn t.lowOf v (min (lowN t v) (lowN t w)) x).getD 0 =
                lowN t x := by
            have hxv : x ≠ v := by
              intro hcon
              subst hcon
              rcases List.mem_append.mp hx with h | h
              · have hh := (hLtprops x h).1
                rw [Option.isNone_iff_eq_none] at hh
                obtain ⟨i, hi⟩ := Option.isSome_iff_exists.mp hstv_idx
                rw [hi] at hh
                cases hh
              · have hh := (hLprops x h).1
                rw [Option.isNone_iff_eq_none] at hh
                obtain ⟨i, hi⟩ := Option.isSome_iff_exists.mp hs1v
                rw [hi] at hh
                cases hh
            unfold updFn lowN
            rw [if_neg hxv]
          have hvlow :
              (updFn t.lowOf v (min (lowN t v) (lowN t w)) v).getD 0 =
                min (lowN t v) (lowN t w) := by
            unfold updFn
            rw [if_pos rfl]
            rfl
          rcases List.mem_append.mp hx with h | h
          · -- new from the nested call
            obtain ⟨h1, h2, h3, h4, h5⟩ := hLtprops x h
            refine ⟨?_, h2, ?_, ?_, ?_⟩
            · rw [Option.isNone_iff_eq_none]
              cases hcase : s1.idxOf x with
              | none => rfl
              | some i =>
                have := linv.idx_mono x i hcase
                rw [Option.isNone_iff_eq_none] at h1
                rw [this] at h1
                cases h1
            · show (updFn t.lowOf v (min (lowN t v) (lowN t w)) x).getD 0 <
                idxN _ x
              rw [hxlow]
              exact h3
            · show (updFn t.lowOf v (min (lowN t v) (lowN t w)) v).getD 0 ≤
                (updFn t.lowOf v (min (lowN t v) (lowN t w)) x).getD 0
              rw [hxlow, hvlow]
              exact le_trans (min_le_right _ _) h4
            · exact Relation.ReflTransGen.trans
                (Relation.ReflTransGen.single hedge) h5
          · -- carried over from before this iteration
            obtain ⟨h1, h2, h3, h4, h5⟩ := hLprops x h
            have hxst : (st.idxOf x).isSome := h2
            have hxlowfrozen : t.lowOf x = st.lowOf x := post.low_frozen x hxst
            refine ⟨h1, ?_, ?_, ?_, h5⟩
            · obtain ⟨i, hi⟩ := Option.isSome_iff_exists.mp h2
              rw [post.idx_mono x i hi]
              rfl
            · show (updFn t.lowOf v (min (lowN t v) (lowN t w)) x).getD 0 <
                idxN _ x
              rw [hxlow]
              unfold lowN
              rw [hxlowfrozen]
              obtain ⟨i, hi⟩ := Option.isSome_iff_exists.mp h2
              have : idxN t x = idxN st x := by
                unfold idxN
                rw [hi, post.idx_mono x i hi]
              rw [show lowN st x = (st.lowOf x).getD 0 from rfl] at h3
              calc (st.lowOf x).getD 0 < idxN st x := h3
              _ = _ := this.symm
            · show (updFn t.lowOf v (min (lowN t v) (lowN t w)) v).getD 0 ≤
                (updFn t.lowOf v (min (lowN t v) (lowN t w)) x).getD 0
              rw [hxlow, hvlow]
              unfold lowN
              rw [hxlowfrozen]
              calc min ((t.lowOf v).getD 0) ((t.lowOf w).getD 0) ≤
                  (t.lowOf v).getD 0 := min_le_left _ _
              _ = (st.lowOf v).getD 0 := by rw [htv_low]
              _ ≤ (st.lowOf x).getD 0 := h4
      · -- low_reach_v
        have hupd : (updFn t.lowOf v (min (lowN t v) (lowN t w)) v).getD 0 =
            min (lowN t v) (lowN t w) := by
          unfold updFn
          rw [if_pos rfl]
          rfl
        rcases le_or_lt (lowN t v) (lowN t w) with hmin | hmin
        · obtain ⟨y0, hy01, hy02, hy03⟩ := linv.low_reach_v
          refine ⟨y0, ?_, ?_, ?_⟩
          · show t.idxOf y0 =
              some ((updFn t.lowOf v (min (lowN t v) (lowN t w)) v).getD 0)
            rw [hupd, min_eq_left hmin, hlowtv]
            exact post.idx_mono y0 (lowN st v) hy01
          · show y0 ∈ t.stack
            rw [hLt]
            exact List.mem_append.mpr (Or.inr hy02)
          · refine Relation.ReflTransGen.mono ?_ hy03
            intro a b hab
            obtain ⟨he, hast, hga⟩ := hab
            obtain ⟨ia, hia⟩ :=
              Option.isSome_iff_exists.mp (linv.inv.stack_indexed a hast)
            refine ⟨he, ?_, ?_⟩
            · show a ∈ t.stack
              rw [hLt]
              exact List.mem_append.mpr (Or.inr hast)
            · show idxN t v ≤ idxN t a
              have h1 : idxN t a = idxN st a := by
                unfold idxN
                rw [hia, post.idx_mono a ia hia]
              have h2 : idxN t v = idxN st v := by
                unfold idxN
                rw [htv_idx, hiv]
              rw [h1, h2]
              exact hga
        · rcases hdich with ⟨heq, -⟩ | ⟨-, hvmem⟩
          · exfalso
            have hlow_le : lowN st v ≤ iv := by
              obtain ⟨l0, hl0, hle⟩ := linv.inv.low_def v iv hiv
              simp [lowN, hl0, hle]
            have hivlt : iv < st.num := linv.inv.idx_lt_num v iv hiv
            rw [hlowtv] at hmin
            omega
          · have hwstk2 : w ∈ t.stack := by
              rw [hLt]
              exact List.mem_append.mpr (Or.inl hvmem)
            have hwnotst : w ∉ st.stack := by
              intro hmem
              have := linv.inv.stack_indexed w hmem
              rw [hwnone] at this
              cases this
            obtain ⟨-, yw, hyw1, hyw2, hyw3⟩ := post.reach_in w hwstk2 hwnotst
            refine ⟨yw, ?_, ?_, ?_⟩
            · show t.idxOf yw =
                some ((updFn t.lowOf v (min (lowN t v) (lowN t w)) v).getD 0)
              rw [hupd, min_eq_right (le_of_lt hmin)]
              exact hyw1
            · show yw ∈ t.stack
              exact hyw2
            · have hvw : idxN t v ≤ idxN t w := by
                have h2 : idxN t v = iv := by
                  unfold idxN
                  rw [htv_idx]
                  rfl
                have h3 : idxN t w = st.num := by
                  unfold idxN
                  rw [post.v_indexed]
                  rfl
                have hivlt : iv < st.num := linv.inv.idx_lt_num v iv hiv
                omega
              refine Relation.ReflTransGen.head ⟨hedge, htvstk, le_refl _⟩ ?_
              refine Relation.ReflTransGen.mono ?_ hyw3
              intro a b hab
              obtain ⟨he, hat, hga⟩ := hab
              exact ⟨he, hat, le_trans hvw hga⟩
      · -- reach_in
        intro x hx hxs1
        have hx' : x ∈ t.stack := hx
        have hxv : x ≠ v := by
          intro hcon
          rw [hcon] at hxs1
          exact hxs1 hs1vstk
        have hxlow2 : (updFn t.lowOf v (min (lowN t v) (lowN t w)) x).getD 0 =
            lowN t x := by
          unfold updFn lowN
          rw [if_neg hxv]
        by_cases hxst : x ∈ st.stack
        · obtain ⟨hrin0, y0, hy1, hy2, hy3⟩ := linv.reach_in x hxst hxs1
          obtain ⟨ix2, hix2⟩ :=
            Option.isSome_iff_exists.mp (linv.inv.stack_indexed x hxst)
          refine ⟨?_, y0, ?_, ?_, ?_⟩
          · refine Relation.ReflTransGen.mono ?_ hrin0
            intro a b hab
            obtain ⟨he, hbst, hbs1⟩ := hab
            refine ⟨he, ?_, hbs1⟩
            show b ∈ t.stack
            rw [hLt]
            exact List.mem_append.mpr (Or.inr hbst)
          · show t.idxOf y0 =
              some ((updFn t.lowOf v (min (lowN t v) (lowN t w)) x).getD 0)
            rw [hxlow2]
            have hfro : t.lowOf x = st.lowOf x := by
              refine post.low_frozen x ?_
              rw [hix2]
              rfl
            have hlx : lowN t x = lowN st x := by
              unfold lowN
              rw [hfro]
            rw [hlx]
            exact post.idx_mono y0 (lowN st x) hy1
          · show y0 ∈ t.stack
            rw [hLt]
            exact List.mem_append.mpr (Or.inr hy2)
          · refine Relation.ReflTransGen.mono ?_ hy3
            intro a b hab
            obtain ⟨he, hast, hga⟩ := hab
            obtain ⟨ia, hia⟩ :=
              Option.isSome_iff_exists.mp (linv.inv.stack_indexed a hast)
            refine ⟨he, ?_, ?_⟩
            · show a ∈ t.stack
              rw [hLt]
              exact List.mem_append.mpr (Or.inr hast)
            · show idxN t x ≤ idxN t a
              have h1 : idxN t a = idxN st a := by
                unfold idxN
                rw [hia, post.idx_mono a ia hia]
              have h2 : idxN t x = idxN st x := by
                unfold idxN
                rw [hix2, post.idx_mono x ix2 hix2]
              rw [h1, h2]
              exact hga
        · have hws1 : w ∉ s1.stack := by
            intro hmem
            obtain ⟨iw2, hiw2⟩ := Option.isSome_iff_exists.mp (hs1ind w hmem)
            have := linv.idx_mono w iw2 hiw2
            rw [hwnone] at this
            cases this
          have hwt : w ∈ t.stack := by
            rcases hdich with ⟨-, hLtnil⟩ | ⟨-, hvmem⟩
            · exfalso
              rw [hLt] at hx'
              rcases List.mem_append.mp hx' with h | h
              · rw [hLtnil] at h
                cases h
              · exact hxst h
            · rw [hLt]
              exact List.mem_append.mpr (Or.inl hvmem)
          obtain ⟨hrin0, yw, hy1, hy2, hy3⟩ := post.reach_in x hx' hxst
          refine ⟨?_, yw, ?_, ?_, ?_⟩
          · refine Relation.ReflTransGen.head ⟨hedge, hwt, hws1⟩ ?_
            refine Relation.ReflTransGen.mono ?_ hrin0
            intro a b hab
            obtain ⟨he, hbt, hbst⟩ := hab
            refine ⟨he, hbt, ?_⟩
            intro hbs1
            apply hbst
            obtain ⟨L0, hL0, -⟩ := linv.stack_shape
            rw [hL0]
            exact List.mem_append.mpr (Or.inr hbs1)
          · show t.idxOf yw =
              some ((updFn t.lowOf v (min (lowN t v) (lowN t w)) x).getD 0)
            rw [hxlow2]
            exact hy1
          · show yw ∈ t.stack
            exact hy2
          · exact hy3
    · -- already indexed
      rw [if_neg hnone]
      by_cases honstk : st.onStk w = true
      · rw [if_pos honstk]
        have hwstk : w ∈ st.stack := (linv.inv.onstk_iff w).mp honstk
        have hwsome : (st.idxOf w).isSome := by
          rw [Option.isSome_iff_ne_none]
          simpa using hnone
        obtain ⟨iw, hiw⟩ := Option.isSome_iff_exists.mp hwsome
        have hiwn : idxN st w = iw := by simp [idxN, hiw]
        have hbranch :
            lowN st v ≤ (st.idxOf w).getD 0 ∨
              ∃ y, st.idxOf y = some ((st.idxOf w).getD 0) ∧ Reaches g v y ∧
                y ∈ st.stack := by
          right
          refine ⟨w, ?_, Relation.ReflTransGen.single hedge, hwstk⟩
          rw [hiw]
          rfl
        refine ⟨?_, ?_, ?_, ?_, ?_, ?_, ?_, ?_, ?_, ?_, ?_, ?_⟩
        · -- inv
          exact lowupd_spec g st v ((st.idxOf w).getD 0) linv.inv hstv_idx
            hstvstk hbranch
        · exact linv.idx_mono
        · -- low_frozen
          intro x hx hxv
          show updFn st.lowOf v _ x = s1.lowOf x
          unfold updFn
          rw [if_neg hxv]
          exact linv.low_frozen x hx hxv
        · exact linv.num_mono
        · exact linv.v_idx
        · -- v_low_le
          show (updFn st.lowOf v _ v).getD 0 ≤ lowN s1 v
          unfold updFn
          rw [if_pos rfl]
          exact le_trans (min_le_left _ _) linv.v_low_le
        · exact linv.new_ge
        · exact linv.sccs_pre
        · -- low_bot
          intro hpre
          have h1 := linv.low_bot hpre
          have hbots : botIdx st = botIdx s1 := by
            obtain ⟨L, hL, -⟩ := linv.stack_shape
            exact botIdx_congr s1 st L hL hs1ne linv.idx_mono hs1ind
          show botIdx s1 ≤ (updFn st.lowOf v _ v).getD 0
          unfold updFn
          rw [if_pos rfl]
          have h2 : botIdx st ≤ idxN st w := botIdx_le_of_mem g st linv.inv w hwstk
          have h2' : botIdx st ≤ (st.idxOf w).getD 0 := h2
          have : botIdx s1 ≤ min (lowN st v) ((st.idxOf w).getD 0) := by
            rw [le_min_iff]
            refine ⟨h1, ?_⟩
            rw [← hbots]
            exact h2'
          simpa using this
        · -- stack_shape
          obtain ⟨L, hL, hLprops⟩ := linv.stack_shape
          refine ⟨L, hL, ?_⟩
          intro x hx
          obtain ⟨h1, h2, h3, h4, h5⟩ := hLprops x hx
          have hxv : x ≠ v := by
            intro hcon
            subst hcon
            rw [Option.isNone_iff_eq_none] at h1
            obtain ⟨i, hi⟩ := Option.isSome_iff_exists.mp hs1v
            rw [hi] at h1
            cases h1
          have hxlow :
              (updFn st.lowOf v
                (min (lowN st v) ((st.idxOf w).getD 0)) x).getD 0 =
                lowN st x := by
            unfold updFn lowN
            rw [if_neg hxv]
          have hvlow :
              (updFn st.lowOf v
                (min (lowN st v) ((st.idxOf w).getD 0)) v).getD 0 =
                min (lowN st v) ((st.idxOf w).getD 0) := by
            unfold updFn
            rw [if_pos rfl]
            rfl
          refine ⟨h1, h2, ?_, ?_, h5⟩
          · show (updFn st.lowOf v
                (min (lowN st v) ((st.idxOf w).getD 0)) x).getD 0 < idxN _ x
            rw [hxlow]
            exact h3
          · show (updFn st.lowOf v
                (min (lowN st v) ((st.idxOf w).getD 0)) v).getD 0 ≤
              (updFn st.lowOf v
                (min (lowN st v) ((st.idxOf w).getD 0)) x).getD 0
            rw [hxlow, hvlow]
            exact le_trans (min_le_left _ _) h4
        · -- low_reach_v
          have hupd : (updFn st.lowOf v
              (min (lowN st v) ((st.idxOf w).getD 0)) v).getD 0 =
              min (lowN st v) ((st.idxOf w).getD 0) := by
            unfold updFn
            rw [if_pos rfl]
            rfl
          rcases le_or_lt (lowN st v) ((st.idxOf w).getD 0) with hmin | hmin
          · obtain ⟨y0, hy01, hy02, hy03⟩ := linv.low_reach_v
            refine ⟨y0, ?_, ?_, ?_⟩
            · show st.idxOf y0 = some ((updFn st.lowOf v
                (min (lowN st v) ((st.idxOf w).getD 0)) v).getD 0)
              rw [hupd, min_eq_left hmin]
              exact hy01
            · show y0 ∈ st.stack
              exact hy02
            · exact hy03
          · refine ⟨w, ?_, ?_, ?_⟩
            · show st.idxOf w = some ((updFn st.lowOf v
                (min (lowN st v) ((st.idxOf w).getD 0)) v).getD 0)
              rw [hupd, min_eq_right (le_of_lt hmin), hiw]
              rfl
            · show w ∈ st.stack
              exact hwstk
            · exact Relation.ReflTransGen.single ⟨hedge, hstvstk, le_refl _⟩
        · -- reach_in
          intro x hx hxs1
          have hx' : x ∈ st.stack := hx
          have hxv : x ≠ v := by
            intro hcon
            rw [hcon] at hxs1
            exact hxs1 hs1vstk
          have hval : (updFn st.lowOf v
              (min (lowN st v) ((st.idxOf w).getD 0)) x).getD 0 =
              lowN st x := by
            unfold updFn lowN
            rw [if_neg hxv]
          obtain ⟨hrin0, y0, hy1, hy2, hy3⟩ := linv.reach_in x hx' hxs1
          refine ⟨?_, y0, ?_, ?_, ?_⟩
          · exact hrin0
          · show st.idxOf y0 = some ((updFn st.lowOf v
              (min (lowN st v) ((st.idxOf w).getD 0)) x).getD 0)
            rw [hval]
            exact hy1
          · show y0 ∈ st.stack
            exact hy2
          · exact hy3
      · rw [if_neg honstk]
        exact linv
  · rw [if_pos (by simpa using hhas)]
    exact linv

/-- The main induction: under the machine invariant, `strongConnect` on a
fresh key establishes its postcondition. -/
theorem strongConnect_spec (g : ModuleGraph) :
    ∀ (fuel : Nat) (v : ModulePath) (s : TarjanState), TInv g s →
      v ∈ graphKeys g → s.idxOf v = none → uncount g s < fuel →
      SCPost g v s (strongConnect g fuel v s) := by
  intro fuel
  induction fuel with
  | zero =>
    intro v s _ _ _ hfuel
    exact absurd hfuel (Nat.not_lt_zero _)
  | succ n ih =>
    intro v s hinv hkeys hnone hfuel
    obtain ⟨m, hm⟩ := Option.isSome_iff_exists.mp (mem_keys_isSome hkeys)
    set s1 : TarjanState :=
      { num := s.num + 1, stack := v :: s.stack
        idxOf := updFn s.idxOf v s.num, lowOf := updFn s.lowOf v s.num
        onStk := fun x => if x = v then true else s.onStk x
        sccs := s.sccs } with hs1
    set s2 := m.imports.foldl
      (fun st imp =>
        if ¬ graphHas g imp.resolvedPath then st
        else if (st.idxOf imp.resolvedPath).isNone then
          { strongConnect g n imp.resolvedPath st with
            lowOf :=
              updFn (strongConnect g n imp.resolvedPath st).lowOf v
                (min
                  (((strongConnect g n imp.resolvedPath st).lowOf v).getD 0)
                  (((strongConnect g n imp.resolvedPath st).lowOf
                      imp.resolvedPath).getD 0)) }
        else if st.onStk imp.resolvedPath then
          { st with
            lowOf :=
              updFn st.lowOf v
                (min ((st.lowOf v).getD 0)
                  ((st.idxOf imp.resolvedPath).getD 0)) }
        else st) s1 with hs2
    have hsc : strongConnect g (n + 1) v s =
        if (s2.lowOf v).getD 0 = (s2.idxOf v).getD 0 then popScc v s2
        else s2 := by
      rw [strongConnect, hm]
    have hinv1 : TInv g s1 := push_spec g s v hinv hkeys hnone
    have hs1vidx : s1.idxOf v = some s.num := by
      show updFn s.idxOf v s.num v = some s.num
      unfold updFn
      rw [if_pos rfl]
    have hs1vlow : s1.lowOf v = some s.num := by
      show updFn s.lowOf v s.num v = some s.num
      unfold updFn
      rw [if_pos rfl]
    have hmono1 : ∀ w i, s.idxOf w = some i → s1.idxOf w = some i := by
      intro x i hx
      show updFn s.idxOf v s.num x = some i
      unfold updFn
      by_cases h : x = v
      · subst h
        rw [hnone] at hx
        cases hx
      · rw [if_neg h]
        exact hx
    have hs1v : (s1.idxOf v).isSome := by rw [hs1vidx]; rfl
    have hs1vstk : v ∈ s1.stack := by
      show v ∈ v :: s.stack
      exact List.mem_cons_self _ _
    have hs1ind : ∀ w ∈ s1.stack, (s1.idxOf w).isSome := hinv1.stack_indexed
    have hs1ne : s1.stack ≠ [] := by
      show v :: s.stack ≠ []
      simp
    have hstrict : uncount g s1 < uncount g s :=
      uncount_strict hmono1 hkeys hnone (by rw [hs1vidx]; rfl)
    have hfuel1 : uncount g s1 < n := by omega
    have base : LoopInv g v s1 s1 := by
      have hlowb : lowN s1 v = s.num := by
        unfold lowN
        rw [hs1vlow]
        rfl
      refine ⟨hinv1, fun w i h => h, fun w _ _ => rfl, le_refl _, rfl,
        le_refl _, ?_, ⟨[], by simp⟩, fun h => h, ⟨[], by simp, by simp⟩,
        ?_, ?_⟩
      · intro x i h
        left
        rw [h]
        rfl
      · refine ⟨v, ?_, hs1vstk, Relation.ReflTransGen.refl⟩
        rw [hlowb]
        exact hs1vidx
      · intro x hx hxs1
        exact absurd hx hxs1
    have hfold : ∀ (l : List ImportInfo), (∀ i ∈ l, i ∈ m.imports) →
        ∀ st, LoopInv g v s1 st →
          LoopInv g v s1
            (l.foldl
              (fun st imp =>
                if ¬ graphHas g imp.resolvedPath then st
                else if (st.idxOf imp.resolvedPath).isNone then
                  { strongConnect g n imp.resolvedPath st with
                    lowOf :=
                      updFn (strongConnect g n imp.resolvedPath st).lowOf v
                        (min
                          (((strongConnect g n imp.resolvedPath st).lowOf
                              v).getD 0)
                          (((strongConnect g n imp.resolvedPath st).lowOf
                              imp.resolvedPath).getD 0)) }
                else if st.onStk imp.resolvedPath then
                  { st with
                    lowOf :=
                      updFn st.lowOf v
                        (min ((st.lowOf v).getD 0)
                          ((st.idxOf imp.resolvedPath).getD 0)) }
                else st) st) := by
      intro l
      induction l with
      | nil =>
        intro _ st h
        exact h
      | cons imp l ihl =>
        intro hsub st h
        rw [List.foldl_cons]
        refine ihl (fun i hi => hsub i (List.mem_cons_of_mem _ hi)) _ ?_
        exact loop_step g n v s1 st imp m hm
          (hsub imp (List.mem_cons_self _ _)) hs1v hs1vstk hs1ind hs1ne hfuel1
          ih h
    have hloop : LoopInv g v s1 s2 := by
      rw [hs2]
      exact hfold m.imports (fun _ h => h) s1 base
    have hvidx2 : s2.idxOf v = some s.num := by
      rw [hloop.v_idx]
      exact hs1vidx
    obtain ⟨l2, hl2, hl2le⟩ := hloop.inv.low_def v s.num hvidx2
    have hmono2 : ∀ w i, s.idxOf w = some i → s2.idxOf w = some i :=
      fun x i hx => hloop.idx_mono x i (hmono1 x i hx)
    have hlowfroz2 : ∀ w, (s.idxOf w).isSome → s2.lowOf w = s.lowOf w := by
      intro x hx
      obtain ⟨i, hi⟩ := Option.isSome_iff_exists.mp hx
      have hxv : x ≠ v := by
        intro hcon
        subst hcon
        rw [hnone] at hi
        cases hi
      have hx1 : (s1.idxOf x).isSome := by rw [hmono1 x i hi]; rfl
      rw [hloop.low_frozen x hx1 hxv]
      show updFn s.lowOf v s.num x = s.lowOf x
      unfold updFn
      rw [if_neg hxv]
    have hnum1 : s1.num = s.num + 1 := rfl
    have hnum2 : s.num < s2.num := by
      have := hloop.num_mono
      omega
    have hnewge2 : ∀ w i, s2.idxOf w = some i →
        (s.idxOf w).isSome ∨ s.num ≤ i := by
      intro x i hx
      rcases hloop.new_ge x i hx with h | h
      · by_cases hxv : x = v
        · subst hxv
          right
          rw [hvidx2] at hx
          obtain rfl := Option.some.inj hx
          exact le_refl _
        · left
          obtain ⟨j, hj⟩ := Option.isSome_iff_exists.mp h
          have hj' : updFn s.idxOf v s.num x = some j := hj
          unfold updFn at hj'
          rw [if_neg hxv] at hj'
          rw [hj']
          rfl
      · right
        omega
    have hsccs2 : ∃ t, s2.sccs = s.sccs ++ t := by
      obtain ⟨t2, ht2⟩ := hloop.sccs_pre
      refine ⟨t2, ?_⟩
      rw [ht2]
    have hlow1 : lowN s1 v = s.num := by
      unfold lowN
      rw [hs1vlow]
      rfl
    have hbots1 : botIdx s1 = botIdx s := by
      unfold botIdx
      have hsh : s1.stack = v :: s.stack := rfl
      rw [hsh]
      cases hst : s.stack with
      | nil =>
        show idxN s1 v = s.num
        unfold idxN
        rw [hs1vidx]
        rfl
      | cons b bs =>
        rw [List.getLast?_cons_cons]
        have hbssome : ((b :: bs).getLast?).isSome :=
          List.getLast?_isSome.mpr (by simp)
        obtain ⟨c, hc⟩ := Option.isSome_iff_exists.mp hbssome
        rw [hc]
        show idxN s1 c = idxN s c
        have hcmem : c ∈ s.stack := by
          rw [hst]
          obtain ⟨P, hP⟩ := List.getLast?_eq_some_iff.mp hc
          rw [hP]
          simp
        obtain ⟨ic, hic⟩ :=
          Option.isSome_iff_exists.mp (hinv.stack_indexed c hcmem)
        unfold idxN
        rw [hic, hmono1 c ic hic]
    have hbot1 : botIdx s1 ≤ lowN s1 v := by
      rw [hlow1, hbots1]
      unfold botIdx
      cases hst : s.stack with
      | nil => exact le_refl _
      | cons b bs =>
        have hbssome : ((b :: bs).getLast?).isSome :=
          List.getLast?_isSome.mpr (by simp)
        obtain ⟨c, hc⟩ := Option.isSome_iff_exists.mp hbssome
        rw [hc]
        show idxN s c ≤ s.num
        have hcmem : c ∈ s.stack := by
          rw [hst]
          obtain ⟨P, hP⟩ := List.getLast?_eq_some_iff.mp hc
          rw [hP]
          simp
        obtain ⟨ic, hic⟩ :=
          Option.isSome_iff_exists.mp (hinv.stack_indexed c hcmem)
        unfold idxN
        rw [hic]
        have := hinv.idx_lt_num c ic hic
        simpa using le_of_lt this
    have hlowbot2 : botIdx s1 ≤ lowN s2 v := hloop.low_bot hbot1
    obtain ⟨L, hL0, hLprops⟩ := hloop.stack_shape
    have hstack2 : s2.stack = L ++ v :: s.stack := hL0
    have hvL : v ∉ L := by
      intro hmem
      have h1 := (hLprops v hmem).1
      rw [Option.isNone_iff_eq_none, hs1vidx] at h1
      cases h1
    by_cases hcond : (s2.lowOf v).getD 0 = (s2.idxOf v).getD 0
    · -- the pop branch
      rw [hsc, if_pos hcond]
      have hpop : lowN s2 v = idxN s2 v := hcond
      have hLprops' : ∀ w ∈ L, lowN s2 w < idxN s2 w ∧
          lowN s2 v ≤ lowN s2 w ∧ Reaches g v w := fun x hx =>
        ⟨(hLprops x hx).2.2.1, (hLprops x hx).2.2.2.1, (hLprops x hx).2.2.2.2⟩
      have hnotS1 : ∀ x ∈ L, x ∉ s1.stack := by
        intro x hx hmem
        have h1 := (hLprops x hx).1
        obtain ⟨i, hi⟩ := Option.isSome_iff_exists.mp (hs1ind x hmem)
        rw [Option.isNone_iff_eq_none, hi] at h1
        cases h1
      have hml2 : ∀ x ∈ L, ∃ y, s2.idxOf y = some (lowN s2 x) ∧
          y ∈ s2.stack ∧
          Relation.ReflTransGen
            (fun a b => Edge g a b ∧ a ∈ s2.stack ∧ idxN s2 x ≤ idxN s2 a)
            x y := by
        intro x hx
        have hxs2 : x ∈ s2.stack := by
          rw [hstack2]
          exact List.mem_append.mpr (Or.inl hx)
        exact (hloop.reach_in x hxs2 (hnotS1 x hx)).2
      have hrin2 : ∀ x ∈ L, ReachesIn g (fun z => z ∈ L) v x := by
        intro x hx
        have hxs2 : x ∈ s2.stack := by
          rw [hstack2]
          exact List.mem_append.mpr (Or.inl hx)
        refine Relation.ReflTransGen.mono ?_
          (hloop.reach_in x hxs2 (hnotS1 x hx)).1
        intro a b hab
        obtain ⟨he, hbs2, hbs1⟩ := hab
        refine ⟨he, ?_⟩
        rw [hstack2] at hbs2
        rcases List.mem_append.mp hbs2 with h | h
        · exact h
        · exfalso
          apply hbs1
          show b ∈ v :: s.stack
          exact h
      obtain ⟨hinvP, hstkP, hsccP⟩ :=
        pop_spec g s2 v L s.stack hloop.inv hstack2 hvL hpop hLprops' hml2
          hrin2
      have hsplit2 : popUntil v s2.stack = (L ++ [v], s.stack) := by
        rw [hstack2]
        exact popUntil_eq L s.stack hvL
      have hps : popScc v s2 =
          { s2 with
            stack := s.stack
            onStk := fun x =>
              if (L ++ [v]).contains x then false else s2.onStk x
            sccs := s2.sccs ++ [L ++ [v]] } := by
        unfold popScc
        rw [hsplit2]
      rw [hps] at hinvP ⊢
      refine ⟨hinvP, ?_, ?_, ?_, ?_, ?_, ?_, ?_, ?_, ?_, ?_⟩
      · intro x i hx
        exact hmono2 x i hx
      · intro x hx
        show s2.lowOf x = s.lowOf x
        exact hlowfroz2 x hx
      · show s.num < s2.num
        exact hnum2
      · show s2.idxOf v = some s.num
        exact hvidx2
      · intro x i hx
        exact hnewge2 x i hx
      · obtain ⟨t2, ht2⟩ := hsccs2
        refine ⟨t2 ++ [L ++ [v]], ?_⟩
        show s2.sccs ++ [L ++ [v]] = s.sccs ++ (t2 ++ [L ++ [v]])
        rw [ht2, List.append_assoc]
      · show (s2.lowOf v).getD 0 ≤ s.num
        rw [hl2]
        simpa using hl2le
      · show botIdx s ≤ (s2.lowOf v).getD 0
        rw [← hbots1]
        exact hlowbot2
      · have hids : idxN s2 v = s.num := by
          unfold idxN
          rw [hvidx2]
          rfl
        refine ⟨[], by simp, by simp, Or.inl ⟨?_, rfl⟩⟩
        show (s2.lowOf v).getD 0 = s.num
        rw [← hids]
        exact hcond
      · intro x hx hxs
        exact absurd (show x ∈ s.stack from hx) hxs
    · -- the no-pop branch
      rw [hsc, if_neg hcond]
      have hlts : lowN s2 v < s.num := by
        have h1 : lowN s2 v = l2 := by
          unfold lowN
          rw [hl2]
          rfl
        have h2 : idxN s2 v = s.num := by
          unfold idxN
          rw [hvidx2]
          rfl
        have hne : lowN s2 v ≠ idxN s2 v := hcond
        omega
      refine ⟨hloop.inv, hmono2, ?_, hnum2, hvidx2, hnewge2, hsccs2,
        le_of_lt hlts, ?_, ?_, ?_⟩
      · intro x hx
        exact hlowfroz2 x hx
      · rw [← hbots1]
        exact hlowbot2
      · refine ⟨L ++ [v], ?_, ?_, Or.inr ⟨hlts, by simp⟩⟩
        · rw [hstack2]
          simp
        · intro x hx
          rcases List.mem_append.mp hx with h | h
          · obtain ⟨h1, h2, h3, h4, h5⟩ := hLprops x h
            rw [Option.isNone_iff_eq_none] at h1
            have h1' : updFn s.idxOf v s.num x = none := h1
            unfold updFn at h1'
            by_cases hxv : x = v
            · rw [if_pos hxv] at h1'
              cases h1'
            · rw [if_neg hxv] at h1'
              refine ⟨?_, h2, h3, h4, h5⟩
              rw [Option.isNone_iff_eq_none]
              exact h1'
          · rw [List.mem_singleton] at h
            subst h
            refine ⟨?_, ?_, ?_, le_refl _, Relation.ReflTransGen.refl⟩
            · rw [Option.isNone_iff_eq_none]
              exact hnone
            · rw [hvidx2]
              rfl
            · have h2 : idxN s2 x = s.num := by
                unfold idxN
                rw [hvidx2]
                rfl
              omega
      · intro x hx hxs
        by_cases hxv : x = v
        · subst hxv
          exact ⟨Relation.ReflTransGen.refl, hloop.low_reach_v⟩
        · have hxs1 : x ∉ s1.stack := by
            intro hmem
            have hmem' : x ∈ v :: s.stack := hmem
            rcases List.mem_cons.mp hmem' with h | h
            · exact hxv h
            · exact hxs h
          obtain ⟨hr1, hwit⟩ := hloop.reach_in x hx hxs1
          refine ⟨?_, hwit⟩
          refine Relation.ReflTransGen.mono ?_ hr1
          intro a b hab
          obtain ⟨he, hbs2, hbs1⟩ := hab
          refine ⟨he, hbs2, ?_⟩
          intro hbs
          apply hbs1
          show b ∈ v :: s.stack
          exact List.mem_cons_of_mem _ hbs

/-- At most `g.length` keys are unindexed, so `g.length + 1` fuel always
suffices. -/
theorem uncount_le (g : ModuleGraph) (s : TarjanState) :
    uncount g s ≤ g.length := by
  unfold uncount
  calc ((graphKeys g).filter fun k => (s.idxOf k).isNone).length ≤
      (graphKeys g).length := List.length_filter_le _ _
  _ = g.length := by
    unfold graphKeys
    rw [List.length_map]

/-- The machine invariant holds in the initial state. -/
theorem tarjanInit_inv (g : ModuleGraph) : TInv g tarjanInit := by
  refine ⟨?_, ?_, ?_, ?_, ?_, ?_, ?_, ?_, ?_, ?_, ?_, ?_, ?_, ?_⟩
  · intro v
    simp [tarjanInit]
  · exact List.nodup_nil
  · intro v hv
    simp [tarjanInit] at hv
  · intro v i h
    simp [tarjanInit] at h
  · intro v i h
    simp [tarjanInit] at h
  · intro u v i hu hv
    simp [tarjanInit] at hu
  · show List.Pairwise _ ([] : List ModulePath)
    exact List.Pairwise.nil
  · intro v
    simp [tarjanInit]
  · show List.Nodup ([] : List (List ModulePath)).flatten
    simp
  · intro S hS
    simp [tarjanInit] at hS
  · intro v i h
    simp [tarjanInit] at h
  · intro v l h
    simp [tarjanInit] at h
  · intro S hS
    simp [tarjanInit] at hS
  · intro S hS
    simp [tarjanInit] at hS

/-- `runTarjan` written with the named step function. -/
theorem runTarjan_eq (g : ModuleGraph) :
    runTarjan g = (graphKeys g).foldl (tarStep g) tarjanInit := rfl

/-- The `findCycles` key loop keeps the invariant and an empty stack, never
unindexes a node, and indexes every processed key. -/
theorem runTarjan_fold (g : ModuleGraph) :
    ∀ (l : List ModulePath), (∀ v ∈ l, v ∈ graphKeys g) →
      ∀ s, TInv g s → s.stack = [] →
        TInv g (l.foldl (tarStep g) s) ∧
        (l.foldl (tarStep g) s).stack = [] ∧
        (∀ v i, s.idxOf v = some i → (l.foldl (tarStep g) s).idxOf v = some i) ∧
        (∀ v ∈ l, ((l.foldl (tarStep g) s).idxOf v).isSome) := by
  intro l
  induction l with
  | nil =>
    intro _ s hinv hstk
    exact ⟨hinv, hstk, fun v i h => h, by simp⟩
  | cons v l ihl =>
    intro hsub s hinv hstk
    rw [List.foldl_cons]
    by_cases hv : (s.idxOf v).isSome
    · have hstep : tarStep g s v = s := by
        unfold tarStep
        rw [if_pos hv]
      rw [hstep]
      obtain ⟨h1, h2, h3, h4⟩ :=
        ihl (fun x hx => hsub x (List.mem_cons_of_mem _ hx)) s hinv hstk
      refine ⟨h1, h2, h3, ?_⟩
      intro x hx
      rcases List.mem_cons.mp hx with h | hx'
      · subst h
        obtain ⟨i, hi⟩ := Option.isSome_iff_exists.mp hv
        rw [h3 x i hi]
        rfl
      · exact h4 x hx'
    · have hnone : s.idxOf v = none := by
        rw [← Option.not_isSome_iff_eq_none]
        simpa using hv
      have hfuel : uncount g s < g.length + 1 :=
        Nat.lt_succ_of_le (uncount_le g s)
      have post := strongConnect_spec g (g.length + 1) v s hinv
        (hsub v (List.mem_cons_self _ _)) hnone hfuel
      have hstep : tarStep g s v = strongConnect g (g.length + 1) v s := by
        unfold tarStep
        rw [if_neg hv]
      rw [hstep]
      obtain ⟨L, hLs, hLprops, hdich⟩ := post.stack_shape
      have hbot : botIdx s ≤ lowN (strongConnect g (g.length + 1) v s) v :=
        post.low_bot
      have hbotval : botIdx s = s.num := by
        unfold botIdx
        rw [hstk]
        rfl
      have hL : L = [] := by
        rcases hdich with ⟨-, h⟩ | ⟨hlt, -⟩
        · exact h
        · rw [hbotval] at hbot
          omega
      have hstk' : (strongConnect g (g.length + 1) v s).stack = [] := by
        rw [hLs, hL, hstk]
        rfl
      obtain ⟨h1, h2, h3, h4⟩ :=
        ihl (fun x hx => hsub x (List.mem_cons_of_mem _ hx)) _ post.inv hstk'
      refine ⟨h1, h2, ?_, ?_⟩
      · intro x i hx
        exact h3 x i (post.idx_mono x i hx)
      · intro x hx
        rcases List.mem_cons.mp hx with h | hx'
        · subst h
          rw [h3 x s.num post.v_indexed]
          rfl
        · exact h4 x hx'

/-- After `findCycles`'s key loop: invariant, empty stack, every key
indexed. -/
theorem runTarjan_spec (g : ModuleGraph) :
    TInv g (runTarjan g) ∧ (runTarjan g).stack = [] ∧
      ∀ v ∈ graphKeys g, ((runTarjan g).idxOf v).isSome := by
  have h := runTarjan_fold g (graphKeys g) (fun _ h => h) tarjanInit
    (tarjanInit_inv g) rfl
  rw [runTarjan_eq]
  exact ⟨h.1, h.2.1, h.2.2.2⟩

/-- The emitted SCCs partition the key set. -/
theorem runTarjan_partition (g : ModuleGraph) (v : ModulePath) :
    v ∈ (runTarjan g).sccs.flatten ↔ v ∈ graphKeys g := by
  obtain ⟨hinv, hstk, hall⟩ := runTarjan_spec g
  constructor
  · intro hv
    obtain ⟨hsome, -⟩ := (hinv.popped_iff v).mpr hv
    obtain ⟨i, hi⟩ := Option.isSome_iff_exists.mp hsome
    exact hinv.idx_keys v i hi
  · intro hv
    refine (hinv.popped_iff v).mp ⟨hall v hv, ?_⟩
    rw [hstk]
    simp

/-- A reported self-loop is a real edge of the graph. -/
theorem hasSelfLoop_edge {g : ModuleGraph} {w : ModulePath}
    (h : hasSelfLoop g w = true) : Edge g w w := by
  unfold hasSelfLoop at h
  cases hm : graphGet g w with
  | none =>
    rw [hm] at h
    cases h
  | some m =>
    rw [hm] at h
    rw [List.any_eq_true] at h
    obtain ⟨imp, himp, heq⟩ := h
    refine ⟨m, imp, hm, himp, by simpa using heq, ?_⟩
    unfold graphHas
    rw [hm]
    rfl

/-- A member of a list-of-lists with duplicate-free flattening is itself
duplicate-free. -/
theorem nodup_of_mem_flatten {α : Type} {S : List α} {l : List (List α)}
    (h : l.flatten.Nodup) (hS : S ∈ l) : S.Nodup := by
  obtain ⟨l1, l2, rfl⟩ := List.append_of_mem hS
  rw [List.flatten_append, List.flatten_cons] at h
  exact (h.of_append_right).of_append_left

/-- A duplicate-free list of length two or more holds two distinct
members. -/
theorem two_mem_of_length_gt_one {α : Type} {S : List α} (hnd : S.Nodup)
    (hlen : 1 < S.length) : ∃ a ∈ S, ∃ b ∈ S, a ≠ b := by
  cases S with
  | nil => simp at hlen
  | cons x t =>
    cases t with
    | nil => simp at hlen
    | cons y t' =>
      refine ⟨x, by simp, y, by simp, ?_⟩
      intro hxy
      subst hxy
      have := List.nodup_cons.mp hnd
      exact this.1 (by simp)

/-- C3: on a graph with no import cycle (no module reaches itself through a
nonempty chain of resolved imports), `detectCycles` returns the empty
list. -/
theorem detectCycles_empty_of_acyclic (g : ModuleGraph) (d : Nat)
    (h : Acyclic g) : detectCycles g d = [] := by
  obtain ⟨hinv, -, -⟩ := runTarjan_spec g
  unfold detectCycles findCycles
  have hfilter : ((runTarjan g).sccs.filter fun scc =>
      decide (scc.length > 1) || hasSelfLoop g (scc.headD "")) = [] := by
    rw [List.filter_eq_nil_iff]
    intro S hS hpred
    rw [Bool.or_eq_true] at hpred
    rcases hpred with hlen | hself
    · rw [decide_eq_true_iff] at hlen
      have hnd : S.Nodup := nodup_of_mem_flatten hinv.sccs_flat_nodup hS
      obtain ⟨a, ha, b, hb, hab⟩ := two_mem_of_length_gt_one hnd hlen
      have hr1 : Reaches g a b := hinv.sccs_sound S hS a ha b hb
      have hr2 : Reaches g b a := hinv.sccs_sound S hS b hb a ha
      rcases Relation.reflTransGen_iff_eq_or_transGen.mp hr1 with heq | htg1
      · exact hab heq.symm
      · rcases Relation.reflTransGen_iff_eq_or_transGen.mp hr2 with heq | htg2
        · exact hab heq
        · exact h a (htg1.trans htg2)
    · exact h (S.headD "") (Relation.TransGen.single (hasSelfLoop_edge hself))
  rw [hfilter]
  rfl

/-- Witness for C3 at the one-module, no-import graph. -/
theorem detectCycles_empty_of_acyclic_witness :
    Acyclic gSolo ∧ detectCycles gSolo 7 = [] := by
  have hno : ∀ u w, ¬ Edge gSolo u w := by
    intro u w h
    obtain ⟨m, imp, hm, himp, -, -⟩ := h
    have hm' : m = mkModule "a" [] := by
      unfold gSolo graphGet at hm
      rw [List.find?_cons] at hm
      by_cases he : ((("a", mkModule "a" []) : ModulePath × Module).1 == u) =
          true
      · rw [he] at hm
        simp at hm
        exact hm.symm
      · have hf : ((("a", mkModule "a" []) : ModulePath × Module).1 == u) =
            false := by simpa using he
        rw [hf] at hm
        simp at hm
    rw [hm'] at himp
    simp [mkModule] at himp
  have hac : Acyclic gSolo := by
    intro v hv
    cases hv with
    | single h => exact hno _ _ h
    | tail h e => exact hno _ _ e
  exact ⟨hac, detectCycles_empty_of_acyclic gSolo 7 hac⟩

/-- C9: a module `A` with a self-import whose only mutual-reachability
partner is itself lands in exactly the singleton SCC `[A]`; that SCC passes
the filter and is reported with `paths = [A, A]` and exactly one `A → A`
edge, while every reported cycle comes from an SCC that has size `> 1` or a
self-loop (so singleton SCCs without a self-loop are discarded). -/
theorem selfLoop_single_cycle (g : ModuleGraph) (A : ModulePath)
    (hkey : A ∈ graphKeys g)
    (hself : hasSelfLoop g A = true)
    (honly : ∀ w, Reaches g A w → Reaches g w A → w = A) :
    (∃ S ∈ (runTarjan g).sccs, A ∈ S) ∧
    (∀ S ∈ (runTarjan g).sccs, A ∈ S → S = [A]) ∧
    (createCycle g [A]).paths = [A, A] ∧
    (∃ e, (createCycle g [A]).edges = [e] ∧ e.from' = A ∧ e.to' = A) ∧
    createCycle g [A] ∈ detectCycles g 0 ∧
    (∀ c ∈ detectCycles g 0, ∃ S, S ∈ (runTarjan g).sccs ∧
      (1 < S.length ∨ hasSelfLoop g (S.headD "") = true) ∧
      c = createCycle g S) := by
  obtain ⟨hinv, hstk, hall⟩ := runTarjan_spec g
  have hmem : A ∈ (runTarjan g).sccs.flatten :=
    (runTarjan_partition g A).mpr hkey
  obtain ⟨S0, hS0, hAS0⟩ := List.mem_flatten.mp hmem
  have hsingle : ∀ S ∈ (runTarjan g).sccs, A ∈ S → S = [A] := by
    intro S hS hA
    have hnd : S.Nodup := nodup_of_mem_flatten hinv.sccs_flat_nodup hS
    have hallA : ∀ b ∈ S, b = A := by
      intro b hb
      exact honly b (hinv.sccs_sound S hS A hA b hb)
        (hinv.sccs_sound S hS b hb A hA)
    cases S with
    | nil => cases hA
    | cons x t =>
      have hxA : x = A := hallA x (List.mem_cons_self _ _)
      have ht : t = [] := by
        cases t with
        | nil => rfl
        | cons y t' =>
          exfalso
          have hyA : y = A := hallA y (by simp)
          have hnd' := List.nodup_cons.mp hnd
          apply hnd'.1
          rw [hxA, hyA]
          exact List.mem_cons_self _ _
      rw [hxA, ht]
  have hmex : ∃ m, graphGet g A = some m := by
    have h' := hself
    unfold hasSelfLoop at h'
    cases hgm : graphGet g A with
    | none =>
      rw [hgm] at h'
      cases h'
    | some m => exact ⟨m, rfl⟩
  obtain ⟨m, hm⟩ := hmex
  have hfind : ∃ imp,
      m.imports.find? (fun imp => imp.resolvedPath == A) = some imp := by
    have h' := hself
    unfold hasSelfLoop at h'
    rw [hm] at h'
    rw [List.any_eq_true] at h'
    obtain ⟨imp, himp, heq⟩ := h'
    have hs : (m.imports.find? fun imp => imp.resolvedPath == A).isSome := by
      rw [List.find?_isSome]
      exact ⟨imp, himp, heq⟩
    exact Option.isSome_iff_exists.mp hs
  obtain ⟨imp0, hfind0⟩ := hfind
  have hfcp : findCyclePath g [A] = [A, A] := by
    unfold findCyclePath
    simp
  have hedges : buildCycleEdges g [A, A] =
      [{ from' := A, to' := A, importInfo := imp0 }] := by
    unfold buildCycleEdges
    simp [hm, hfind0]
  have hpaths : (createCycle g [A]).paths = [A, A] := by
    show findCyclePath g [A] = [A, A]
    exact hfcp
  have hedges' : (createCycle g [A]).edges =
      [{ from' := A, to' := A, importInfo := imp0 }] := by
    show buildCycleEdges g (findCyclePath g [A]) = _
    rw [hfcp]
    exact hedges
  have hpred : (decide ([A].length > 1) ||
      hasSelfLoop g ([A].headD "")) = true := by
    simp [hself]
  have hmemc : createCycle g [A] ∈ detectCycles g 0 := by
    unfold detectCycles findCycles
    rw [List.mem_map]
    refine ⟨[A], ?_, rfl⟩
    rw [List.mem_filter]
    exact ⟨hsingle S0 hS0 hAS0 ▸ hS0, hpred⟩
  have hcover : ∀ c ∈ detectCycles g 0, ∃ S, S ∈ (runTarjan g).sccs ∧
      (1 < S.length ∨ hasSelfLoop g (S.headD "") = true) ∧
      c = createCycle g S := by
    intro c hc
    unfold detectCycles findCycles at hc
    rw [List.mem_map] at hc
    obtain ⟨S, hSf, hceq⟩ := hc
    rw [List.mem_filter] at hSf
    refine ⟨S, hSf.1, ?_, hceq.symm⟩
    have h2 := hSf.2
    rw [Bool.or_eq_true, decide_eq_true_iff] at h2
    exact h2
  exact ⟨⟨S0, hS0, hAS0⟩, hsingle, hpaths,
    ⟨_, hedges', rfl, rfl⟩, hmemc, hcover⟩

/-- Witness for C9 at the one-module self-`require` graph. -/
theorem selfLoop_single_cycle_witness :
    ("a" ∈ graphKeys gSelf ∧ hasSelfLoop gSelf "a" = true) ∧
    (createCycle gSelf ["a"]).paths = ["a", "a"] ∧
    createCycle gSelf ["a"] ∈ detectCycles gSelf 0 := by
  have hkey : "a" ∈ graphKeys gSelf := by
    show "a" ∈ ["a"]
    simp
  have hself : hasSelfLoop gSelf "a" = true := by decide
  have hedge : ∀ u w, Edge gSelf u w → w = "a" := by
    intro u w h
    obtain ⟨m, imp, hm, himp, hres, -⟩ := h
    have hm' : m = mkModule "a" [mkImport "a" .require] := by
      unfold gSelf graphGet at hm
      rw [List.find?_cons] at hm
      by_cases he : ((("a", mkModule "a" [mkImport "a" .require]) :
          ModulePath × Module).1 == u) = true
      · rw [he] at hm
        simp at hm
        exact hm.symm
      · have hf : ((("a", mkModule "a" [mkImport "a" .require]) :
            ModulePath × Module).1 == u) = false := by simpa using he
        rw [hf] at hm
        simp at hm
    rw [hm'] at himp
    simp [mkModule, mkImport] at himp
    rw [← hres, himp]
  have honly : ∀ w, Reaches gSelf "a" w → Reaches gSelf w "a" → w = "a" := by
    intro w h1 _
    induction h1 with
    | refl => rfl
    | tail h e ih => exact hedge _ _ e
  have main := selfLoop_single_cycle gSelf "a" hkey hself honly
  exact ⟨⟨hkey, hself⟩, main.2.2.1, main.2.2.2.2.1⟩

/-- Unfolding of `strongConnect` at positive fuel, written with the named
entry state and step function. -/
theorem strongConnect_succ (g : ModuleGraph) (n : Nat) (v : ModulePath)
    (s : TarjanState) :
    strongConnect g (n + 1) v s =
      match graphGet g v with
      | none => pushState s v
      | some m =>
        if ((m.imports.foldl (scStep g n v) (pushState s v)).lowOf v).getD 0 =
            ((m.imports.foldl (scStep g n v) (pushState s v)).idxOf v).getD 0
        then popScc v (m.imports.foldl (scStep g n v) (pushState s v))
        else m.imports.foldl (scStep g n v) (pushState s v) := by
  rw [strongConnect]
  cases hgm : graphGet g v with
  | none => rfl
  | some m => rfl

/-- Every entry of the path built by the reconstruction DFS either was in
the initial path, is the start node, or lies in some adjacency list. -/
theorem fcDfs_path_closed (adj : ModulePath → List ModulePath)
    (P : ModulePath → Prop) (hadj : ∀ u x, x ∈ adj u → P x) :
    ∀ (fuel : Nat) (node : ModulePath) (st : FcState), P node →
      (∀ x ∈ st.path, P x) → ∀ x ∈ (fcDfs adj fuel node st).2.path, P x := by
  intro fuel
  induction fuel with
  | zero =>
    intro node st hn hst
    exact hst
  | succ n ihf =>
    intro node st hn hst
    set st1 : FcState :=
      { visited := node :: st.visited
        path := st.path ++ [node]
        recStack := node :: st.recStack } with hst1def
    set r := (adj node).foldl
      (fun acc nb =>
        if acc.1 then acc
        else if ¬ acc.2.visited.contains nb then fcDfs adj n nb acc.2
        else if acc.2.recStack.contains nb then
          (true, { acc.2 with path := acc.2.path ++ [nb] })
        else acc)
      (false, st1) with hrdef
    have hred : fcDfs adj (n + 1) node st =
        if r.1 then r
        else (false,
          { r.2 with
            recStack := r.2.recStack.erase node
            path := r.2.path.dropLast }) := by
      rw [fcDfs]
    have hst1path : ∀ x ∈ st1.path, P x := by
      intro x hx
      have hx' : x ∈ st.path ++ [node] := hx
      rcases List.mem_append.mp hx' with h | h
      · exact hst x h
      · rw [List.mem_singleton] at h
        rw [h]
        exact hn
    have hfold : ∀ (l : List ModulePath), (∀ y ∈ l, P y) →
        ∀ (acc : Bool × FcState), (∀ x ∈ acc.2.path, P x) →
        ∀ x ∈ (l.foldl
          (fun acc nb =>
            if acc.1 then acc
            else if ¬ acc.2.visited.contains nb then fcDfs adj n nb acc.2
            else if acc.2.recStack.contains nb then
              (true, { acc.2 with path := acc.2.path ++ [nb] })
            else acc)
          acc).2.path, P x := by
      intro l
      induction l with
      | nil =>
        intro _ acc hacc
        exact hacc
      | cons nb l ihl =>
        intro hl acc hacc
        rw [List.foldl_cons]
        apply ihl (fun y hy => hl y (List.mem_cons_of_mem _ hy))
        show ∀ x ∈ ((if acc.1 = true then acc
            else if ¬ acc.2.visited.contains nb = true then
              fcDfs adj n nb acc.2
            else if acc.2.recStack.contains nb = true then
              (true, { acc.2 with path := acc.2.path ++ [nb] })
            else acc)).2.path, P x
        by_cases h1 : acc.1 = true
        · rw [if_pos h1]
          exact hacc
        · rw [if_neg h1]
          by_cases h2 : ¬ acc.2.visited.contains nb = true
          · rw [if_pos h2]
            exact ihf nb acc.2 (hl nb (List.mem_cons_self _ _)) hacc
          · rw [if_neg h2]
            by_cases h3 : acc.2.recStack.contains nb = true
            · rw [if_pos h3]
              intro x hx
              have hx' : x ∈ acc.2.path ++ [nb] := hx
              rcases List.mem_append.mp hx' with h | h
              · exact hacc x h
              · rw [List.mem_singleton] at h
                rw [h]
                exact hl nb (List.mem_cons_self _ _)
            · rw [if_neg h3]
              exact hacc
    have hr : ∀ x ∈ r.2.path, P x := by
      rw [hrdef]
      exact hfold (adj node) (fun y hy => hadj node y hy) (false, st1) hst1path
    rw [hred]
    by_cases hr1 : r.1 = true
    · rw [if_pos hr1]
      exact hr
    · rw [if_neg hr1]
      intro x hx
      have hx' : x ∈ r.2.path.dropLast := hx
      exact hr x ((List.dropLast_sublist _).subset hx')

/-- Dropping a middle element the predicate rejects does not change
`find?`. -/
theorem find?_drop_middle {α : Type} (p : α → Bool) (l1 l2 : List α) (a : α)
    (ha : p a = false) : (l1 ++ a :: l2).find? p = (l1 ++ l2).find? p := by
  induction l1 with
  | nil =>
    show (a :: l2).find? p = l2.find? p
    rw [List.find?_cons, ha]
  | cons b l1 ih =>
    show (b :: (l1 ++ a :: l2)).find? p = (b :: (l1 ++ l2)).find? p
    rw [List.find?_cons, List.find?_cons]
    cases hb : p b with
    | true => rfl
    | false => exact ih

/-- C8: an import whose resolved target is not a key of the module map is
skipped everywhere (SCC pass, self-loop check, adjacency map, cycle-edge
construction), so `detectCycles` agrees with the graph in which that import
was removed. -/
theorem detectCycles_drops_dangling (g g' : ModuleGraph) (d : Nat)
    (k : ModulePath) (mk0 mk1 : Module) (l1 l2 : List ImportInfo)
    (imp0 : ImportInfo)
    (hkeys : graphKeys g = graphKeys g')
    (hlen : g.length = g'.length)
    (hget : ∀ v, v ≠ k → graphGet g v = graphGet g' v)
    (hgk : graphGet g k = some mk0) (hgk' : graphGet g' k = some mk1)
    (him : mk0.imports = l1 ++ imp0 :: l2) (him' : mk1.imports = l1 ++ l2)
    (hdang : graphHas g imp0.resolvedPath = false) :
    detectCycles g d = detectCycles g' d := by
  have hhas : ∀ w, graphHas g w = graphHas g' w := by
    intro w
    by_cases hw : w = k
    · subst hw
      unfold graphHas
      rw [hgk, hgk']
      rfl
    · unfold graphHas
      rw [hget w hw]
  have hsc : ∀ fuel v s,
      strongConnect g fuel v s = strongConnect g' fuel v s := by
    intro fuel
    induction fuel with
    | zero => intro v s; rfl
    | succ n ih =>
      intro v s
      have hstep : ∀ st imp, scStep g n v st imp = scStep g' n v st imp := by
        intro st imp
        unfold scStep
        rw [hhas imp.resolvedPath]
        simp only [ih]
      have hfoldeq : ∀ (li : List ImportInfo) (st : TarjanState),
          li.foldl (scStep g n v) st = li.foldl (scStep g' n v) st := by
        intro li
        induction li with
        | nil => intro st; rfl
        | cons i li ihl =>
          intro st
          rw [List.foldl_cons, List.foldl_cons, hstep, ihl]
      rw [strongConnect_succ, strongConnect_succ]
      by_cases hv : v = k
      · subst hv
        rw [hgk, hgk']
        have hfe : mk0.imports.foldl (scStep g n v) (pushState s v) =
            mk1.imports.foldl (scStep g' n v) (pushState s v) := by
          rw [him, him']
          rw [List.foldl_append, List.foldl_append, List.foldl_cons]
          have hskip : ∀ st, scStep g n v st imp0 = st := by
            intro st
            unfold scStep
            rw [hdang]
            rw [if_pos (by simp)]
          rw [hskip]
          rw [hfoldeq, hfoldeq]
        show (if ((mk0.imports.foldl (scStep g n v) (pushState s v)).lowOf
              v).getD 0 =
            ((mk0.imports.foldl (scStep g n v) (pushState s v)).idxOf
              v).getD 0
          then popScc v (mk0.imports.foldl (scStep g n v) (pushState s v))
          else mk0.imports.foldl (scStep g n v) (pushState s v)) =
          (if ((mk1.imports.foldl (scStep g' n v) (pushState s v)).lowOf
              v).getD 0 =
            ((mk1.imports.foldl (scStep g' n v) (pushState s v)).idxOf
              v).getD 0
          then popScc v (mk1.imports.foldl (scStep g' n v) (pushState s v))
          else mk1.imports.foldl (scStep g' n v) (pushState s v))
        rw [hfe]
      · rw [hget v hv]
        cases hgm : graphGet g' v with
        | none => rfl
        | some m =>
          show (if ((m.imports.foldl (scStep g n v) (pushState s v)).lowOf
                v).getD 0 =
              ((m.imports.foldl (scStep g n v) (pushState s v)).idxOf
                v).getD 0
            then popScc v (m.imports.foldl (scStep g n v) (pushState s v))
            else m.imports.foldl (scStep g n v) (pushState s v)) =
            (if ((m.imports.foldl (scStep g' n v) (pushState s v)).lowOf
                v).getD 0 =
              ((m.imports.foldl (scStep g' n v) (pushState s v)).idxOf
                v).getD 0
            then popScc v (m.imports.foldl (scStep g' n v) (pushState s v))
            else m.imports.foldl (scStep g' n v) (pushState s v))
          rw [hfoldeq]
  have hts : ∀ s v, tarStep g s v = tarStep g' s v := by
    intro s v
    unfold tarStep
    rw [hlen, hsc]
  have hfold2 : ∀ (l : List ModulePath) s,
      l.foldl (tarStep g) s = l.foldl (tarStep g') s := by
    intro l
    induction l with
    | nil => intro s; rfl
    | cons v l ihl =>
      intro s
      rw [List.foldl_cons, List.foldl_cons, hts, ihl]
  have hrt : runTarjan g = runTarjan g' := by
    rw [runTarjan_eq, runTarjan_eq, hkeys, hfold2]
  have hsl : ∀ v, hasSelfLoop g v = hasSelfLoop g' v := by
    intro v
    unfold hasSelfLoop
    by_cases hv : v = k
    · subst hv
      rw [hgk, hgk']
      show (mk0.imports.any fun imp => imp.resolvedPath == v) =
        (mk1.imports.any fun imp => imp.resolvedPath == v)
      rw [him, him']
      rw [List.any_append, List.any_append, List.any_cons]
      have h0 : (imp0.resolvedPath == v) = false := by
        rw [beq_eq_false_iff_ne]
        intro hcon
        rw [hcon] at hdang
        unfold graphHas at hdang
        rw [hgk] at hdang
        cases hdang
      simp [h0]
    · rw [hget v hv]
  have hadj : ∀ (scc : List ModulePath), (∀ x ∈ scc, x ∈ graphKeys g) →
      ∀ v, sccAdj g scc v = sccAdj g' scc v := by
    intro scc hsub v
    unfold sccAdj
    by_cases hc : scc.contains v = true
    · rw [if_pos hc, if_pos hc]
      by_cases hv : v = k
      · subst hv
        rw [hgk, hgk']
        show ((mk0.imports.map (·.resolvedPath)).filter fun p =>
            scc.contains p) =
          ((mk1.imports.map (·.resolvedPath)).filter fun p => scc.contains p)
        rw [him, him']
        have h0 : imp0.resolvedPath ∉ scc := by
          intro hmem
          have hh := graphHas_iff_mem_keys.mpr (hsub _ hmem)
          rw [hh] at hdang
          cases hdang
        simp [List.map_append, List.filter_append, h0]
      · rw [hget v hv]
    · rw [if_neg hc, if_neg hc]
  have hfcpcongr : ∀ (scc : List ModulePath),
      (∀ x ∈ scc, x ∈ graphKeys g) →
      findCyclePath g scc = findCyclePath g' scc := by
    intro scc hsub
    have ha : sccAdj g scc = sccAdj g' scc := funext (hadj scc hsub)
    unfold findCyclePath
    rw [ha, hlen]
  have hfcpkeys : ∀ (scc : List ModulePath), scc ≠ [] →
      (∀ x ∈ scc, x ∈ graphKeys g) →
      ∀ x ∈ findCyclePath g' scc, x ∈ graphKeys g := by
    intro scc hne hsub
    have hhead : scc.headD "" ∈ scc := by
      cases scc with
      | nil => exact absurd rfl hne
      | cons a t => exact List.mem_cons_self _ _
    have hadjP : ∀ u x, x ∈ sccAdj g' scc u → x ∈ graphKeys g := by
      intro u x hx
      unfold sccAdj at hx
      by_cases hc : scc.contains u = true
      · rw [if_pos hc] at hx
        cases hgm : graphGet g' u with
        | none =>
          rw [hgm] at hx
          cases hx
        | some mu =>
          rw [hgm] at hx
          have hmf := List.mem_filter.mp hx
          have hmem : x ∈ scc := by simpa using hmf.2
          exact hsub x hmem
      · rw [if_neg hc] at hx
        cases hx
    intro x hx
    unfold findCyclePath at hx
    by_cases h1 : scc.length = 1
    · rw [if_pos h1] at hx
      rcases List.mem_cons.mp hx with h | h
      · rw [h]
        exact hsub _ hhead
      · rw [List.mem_singleton] at h
        rw [h]
        exact hsub _ hhead
    · rw [if_neg h1] at hx
      by_cases h2 : (fcDfs (sccAdj g' scc) (g'.length + 1) (scc.headD "")
          ⟨[], [], []⟩).2.path.length > 1
      · rw [if_pos h2] at hx
        exact fcDfs_path_closed (sccAdj g' scc) (· ∈ graphKeys g) hadjP
          (g'.length + 1) (scc.headD "") ⟨[], [], []⟩ (hsub _ hhead)
          (by intro y hy; cases hy) x hx
      · rw [if_neg h2] at hx
        rcases List.mem_cons.mp hx with h | h
        · rw [h]
          exact hsub _ hhead
        · rw [List.mem_singleton] at h
          rw [h]
          exact hsub _ hhead
  have hbce : ∀ (cp : List ModulePath), (∀ x ∈ cp, x ∈ graphKeys g) →
      buildCycleEdges g cp = buildCycleEdges g' cp := by
    intro cp hsub
    unfold buildCycleEdges
    apply List.filterMap_congr
    intro pr hpr
    have hcomp := List.of_mem_zip hpr
    have h2 : pr.2 ∈ cp := List.mem_of_mem_tail hcomp.2
    show (match graphGet g pr.1 with
      | none => (none : Option CycleEdge)
      | some m =>
        (m.imports.find? fun (imp : ImportInfo) =>
            imp.resolvedPath == pr.2).map
          fun (imp : ImportInfo) =>
            ({ from' := pr.1, to' := pr.2, importInfo := imp } : CycleEdge)) =
      (match graphGet g' pr.1 with
      | none => (none : Option CycleEdge)
      | some m =>
        (m.imports.find? fun (imp : ImportInfo) =>
            imp.resolvedPath == pr.2).map
          fun (imp : ImportInfo) =>
            ({ from' := pr.1, to' := pr.2, importInfo := imp } : CycleEdge))
    by_cases h1 : pr.1 = k
    · rw [h1, hgk, hgk']
      show ((mk0.imports.find? fun (imp : ImportInfo) =>
            imp.resolvedPath == pr.2).map
          fun (imp : ImportInfo) =>
            ({ from' := k, to' := pr.2, importInfo := imp } : CycleEdge)) =
        ((mk1.imports.find? fun (imp : ImportInfo) =>
            imp.resolvedPath == pr.2).map
          fun (imp : ImportInfo) =>
            ({ from' := k, to' := pr.2, importInfo := imp } : CycleEdge))
      have hfind : mk0.imports.find? (fun imp => imp.resolvedPath == pr.2) =
          mk1.imports.find? (fun imp => imp.resolvedPath == pr.2) := by
        rw [him, him']
        apply find?_drop_middle
        rw [beq_eq_false_iff_ne]
        intro hcon
        have hh := graphHas_iff_mem_keys.mpr (hsub pr.2 h2)
        rw [← hcon] at hh
        rw [hh] at hdang
        cases hdang
      rw [hfind]
    · rw [hget pr.1 h1]
  have hcc : ∀ (scc : List ModulePath), scc ≠ [] →
      (∀ x ∈ scc, x ∈ graphKeys g) →
      createCycle g scc = createCycle g' scc := by
    intro scc hne hsub
    simp only [createCycle]
    rw [hfcpcongr scc hsub]
    rw [hbce (findCyclePath g' scc) (hfcpkeys scc hne hsub)]
  unfold detectCycles findCycles
  rw [hrt]
  have hfiltereq : ((runTarjan g').sccs.filter fun scc =>
      decide (scc.length > 1) || hasSelfLoop g (scc.headD "")) =
      ((runTarjan g').sccs.filter fun scc =>
      decide (scc.length > 1) || hasSelfLoop g' (scc.headD "")) := by
    apply List.filter_congr
    intro S hS
    show (decide (S.length > 1) || hasSelfLoop g (S.headD "")) =
      (decide (S.length > 1) || hasSelfLoop g' (S.headD ""))
    rw [hsl (S.headD "")]
  rw [hfiltereq]
  apply List.map_congr_left
  intro S hS
  have hS' : S ∈ (runTarjan g').sccs := (List.mem_filter.mp hS).1
  have hsub : ∀ x ∈ S, x ∈ graphKeys g := by
    intro x hx
    have hfl : x ∈ (runTarjan g').sccs.flatten :=
      List.mem_flatten.mpr ⟨S, hS', hx⟩
    have hx' := (runTarjan_partition g' x).mp hfl
    rw [hkeys]
    exact hx'
  have hne : S ≠ [] := (runTarjan_spec g').1.sccs_nonnil S hS'
  exact hcc S hne hsub

/-- Witness for C8 at the one-module graph with a dangling import. -/
theorem detectCycles_drops_dangling_witness :
    graphHas gDangling "zz" = false ∧
      detectCycles gDangling 3 = detectCycles gDanglingRemoved 3 := by
  have hget : ∀ v, v ≠ "a" →
      graphGet gDangling v = graphGet gDanglingRemoved v := by
    intro v hv
    have hne : (("a" : String) == v) = false :=
      beq_eq_false_iff_ne.mpr (Ne.symm hv)
    unfold gDangling gDanglingRemoved graphGet
    rw [List.find?_cons, List.find?_cons]
    rw [show ((("a", mkModule "a" [mkImport "zz" .static]) :
        ModulePath × Module).1 == v) = false from hne]
  have h := detectCycles_drops_dangling gDangling gDanglingRemoved 3 "a"
    (mkModule "a" [mkImport "zz" .static]) (mkModule "a" []) [] []
    (mkImport "zz" .static) rfl rfl hget (by rfl) (by rfl) (by rfl) (by rfl)
    (by decide)
  exact ⟨by decide, h⟩

/-- Filtering with a stronger predicate keeps at most as many elements. -/
theorem filter_length_le_of_imp {α : Type} (p q : α → Bool)
    (h : ∀ x, p x = true → q x = true) :
    ∀ l : List α, (l.filter p).length ≤ (l.filter q).length := by
  intro l
  induction l with
  | nil => exact le_refl _
  | cons a t iht =>
    rw [List.filter_cons, List.filter_cons]
    by_cases hp : p a = true
    · rw [if_pos hp, if_pos (h a hp)]
      simpa using iht
    · rw [if_neg hp]
      by_cases hq : q a = true
      · rw [if_pos hq]
        calc (t.filter p).length ≤ (t.filter q).length := iht
        _ ≤ (a :: t.filter q).length := by simp
      · rw [if_neg hq]
        exact iht

/-- Strict version: an element kept by `q` but dropped by `p`. -/
theorem filter_length_lt_of_imp {α : Type} (p q : α → Bool)
    (h : ∀ x, p x = true → q x = true) (a : α) (hpa : p a = false)
    (hqa : q a = true) :
    ∀ l : List α, a ∈ l → (l.filter p).length < (l.filter q).length := by
  intro l
  induction l with
  | nil =>
    intro h0
    exact absurd h0 (List.not_mem_nil a)
  | cons b t iht =>
    intro hmem
    rw [List.filter_cons, List.filter_cons]
    rcases List.mem_cons.mp hmem with heq | hmem'
    · subst heq
      rw [if_neg (by simp [hpa]), if_pos hqa]
      calc (t.filter p).length ≤ (t.filter q).length :=
        filter_length_le_of_imp p q h t
      _ < (a :: t.filter q).length := by simp
    · by_cases hp : p b = true
      · rw [if_pos hp, if_pos (h b hp)]
        simpa using iht hmem'
      · rw [if_neg hp]
        by_cases hq : q b = true
        · rw [if_pos hq]
          calc (t.filter p).length < (t.filter q).length := iht hmem'
          _ ≤ (b :: t.filter q).length := by simp
        · rw [if_neg hq]
          exact iht hmem'

/-- Growing the visited set cannot increase the DFS measure. -/
theorem dfsMeasure_le_of_sub (univ : List ModulePath) (s s' : FcState)
    (h : ∀ x ∈ s.visited, x ∈ s'.visited) :
    dfsMeasure univ s' ≤ dfsMeasure univ s := by
  unfold dfsMeasure
  refine filter_length_le_of_imp _ _ ?_ univ
  intro x hx
  have hx' : x ∉ s'.visited := by simpa using hx
  have hxs : x ∉ s.visited := fun hm => hx' (h x hm)
  simpa using hxs

/-- From a fully processed node, every adjacency walk stays in fully
processed nodes. -/
theorem dfs_closed_rtg (adj : ModulePath → List ModulePath) (s : FcState)
    (hcl : ∀ u ∈ s.visited, u ∉ s.recStack → ∀ w ∈ adj u,
      w ∈ s.visited ∧ w ∉ s.recStack) :
    ∀ u z, Relation.ReflTransGen (AdjRel adj) u z →
      u ∈ s.visited → u ∉ s.recStack → z ∈ s.visited ∧ z ∉ s.recStack := by
  intro u z h
  induction h with
  | refl =>
    intro h1 h2
    exact ⟨h1, h2⟩
  | tail hab hbc ih =>
    intro h1 h2
    obtain ⟨hb1, hb2⟩ := ih h1 h2
    exact hcl _ hb1 hb2 _ hbc

/-- Completeness side of the reconstruction DFS: with enough fuel, on a
fresh node the DFS either reports a cycle or returns with the invariant
re-established, the recursion stack restored, the visited set grown and
the node fully processed. -/
theorem fcDfs_false_post (adj : ModulePath → List ModulePath)
    (univ : List ModulePath) (hadj : ∀ x, ∀ w ∈ adj x, w ∈ univ) :
    ∀ (fuel : Nat) (node : ModulePath) (st : FcState),
      node ∈ univ → node ∉ st.visited → DfsInv adj st →
      dfsMeasure univ st < fuel →
      (fcDfs adj fuel node st).1 = true ∨
      ((fcDfs adj fuel node st).1 = false ∧
        DfsInv adj (fcDfs adj fuel node st).2 ∧
        (fcDfs adj fuel node st).2.recStack = st.recStack ∧
        (∀ x ∈ st.visited, x ∈ (fcDfs adj fuel node st).2.visited) ∧
        node ∈ (fcDfs adj fuel node st).2.visited) := by
  intro fuel
  induction fuel with
  | zero =>
    intro node st _ _ _ hmeas
    exact absurd hmeas (Nat.not_lt_zero _)
  | succ fuel ih =>
    intro node st hnu hnv hinv hmeas
    rw [fcDfs]
    set st1 : FcState :=
      { visited := node :: st.visited
        path := st.path ++ [node]
        recStack := node :: st.recStack } with hst1
    have hlt1 : dfsMeasure univ st1 < dfsMeasure univ st := by
      unfold dfsMeasure
      refine filter_length_lt_of_imp _ _ ?_ node ?_ ?_ univ hnu
      · intro x hx
        have hx' : x ∉ st1.visited := by simpa using hx
        have : x ∉ st.visited := fun hm =>
          hx' (List.mem_cons_of_mem _ hm)
        simpa using this
      · have : node ∈ st1.visited := List.mem_cons_self _ _
        simp [this]
      · simpa using hnv
    have hmeas1 : dfsMeasure univ st1 < fuel := by omega
    have hinv1 : DfsInv adj st1 := by
      refine ⟨?_, ?_, ?_⟩
      · intro x hx
        rcases List.mem_cons.mp hx with heq | hx'
        · subst heq
          exact List.mem_cons_self _ _
        · exact List.mem_cons_of_mem _ (hinv.rec_sub x hx')
      · intro u hu hnr w hw
        have hune : u ≠ node := fun hc => hnr (hc ▸ List.mem_cons_self _ _)
        have hu' : u ∈ st.visited := by
          rcases List.mem_cons.mp hu with h | h
          · exact absurd h hune
          · exact h
        have hnr' : u ∉ st.recStack := fun hm =>
          hnr (List.mem_cons_of_mem _ hm)
        obtain ⟨hw1, hw2⟩ := hinv.closed u hu' hnr' w hw
        refine ⟨List.mem_cons_of_mem _ hw1, ?_⟩
        intro hm
        rcases List.mem_cons.mp hm with heq | hm'
        · subst heq
          exact hnv hw1
        · exact hw2 hm'
      · intro u hu hnr
        have hune : u ≠ node := fun hc => hnr (hc ▸ List.mem_cons_self _ _)
        have hu' : u ∈ st.visited := by
          rcases List.mem_cons.mp hu with h | h
          · exact absurd h hune
          · exact h
        exact hinv.nocyc u hu' (fun hm => hnr (List.mem_cons_of_mem _ hm))
    set Q : FcState → Prop := fun s2 =>
      DfsInv adj s2 ∧ s2.recStack = node :: st.recStack ∧
      (∀ x ∈ st1.visited, x ∈ s2.visited) ∧
      dfsMeasure univ s2 ≤ dfsMeasure univ st1 with hQ
    have absorb :
        ∀ (nbs : List ModulePath) (acc : Bool × FcState), acc.1 = true →
          nbs.foldl
            (fun acc nb =>
              if acc.1 then acc
              else if ¬ acc.2.visited.contains nb then fcDfs adj fuel nb acc.2
              else if acc.2.recStack.contains nb then
                (true, { acc.2 with path := acc.2.path ++ [nb] })
              else acc)
            acc = acc := by
      intro nbs
      induction nbs with
      | nil =>
        intro acc _
        rfl
      | cons nb rest ihl =>
        intro acc h
        rw [List.foldl_cons, if_pos h]
        exact ihl acc h
    have fold :
        ∀ (nbs : List ModulePath), (∀ nb ∈ nbs, nb ∈ univ) →
          ∀ acc : Bool × FcState,
            (acc.1 = true ∨ (acc.1 = false ∧ Q acc.2)) →
            (nbs.foldl
              (fun acc nb =>
                if acc.1 then acc
                else if ¬ acc.2.visited.contains nb then fcDfs adj fuel nb acc.2
                else if acc.2.recStack.contains nb then
                  (true, { acc.2 with path := acc.2.path ++ [nb] })
                else acc)
              acc).1 = true ∨
            ((nbs.foldl
              (fun acc nb =>
                if acc.1 then acc
                else if ¬ acc.2.visited.contains nb then fcDfs adj fuel nb acc.2
                else if acc.2.recStack.contains nb then
                  (true, { acc.2 with path := acc.2.path ++ [nb] })
                else acc)
              acc).1 = false ∧
            Q (nbs.foldl
              (fun acc nb =>
                if acc.1 then acc
                else if ¬ acc.2.visited.contains nb then fcDfs adj fuel nb acc.2
                else if acc.2.recStack.contains nb then
                  (true, { acc.2 with path := acc.2.path ++ [nb] })
                else acc)
              acc).2 ∧
            (∀ x ∈ acc.2.visited, x ∈ (nbs.foldl
              (fun acc nb =>
                if acc.1 then acc
                else if ¬ acc.2.visited.contains nb then fcDfs adj fuel nb acc.2
                else if acc.2.recStack.contains nb then
                  (true, { acc.2 with path := acc.2.path ++ [nb] })
                else acc)
              acc).2.visited) ∧
            ∀ nb ∈ nbs, nb ∈ (nbs.foldl
              (fun acc nb =>
                if acc.1 then acc
                else if ¬ acc.2.visited.contains nb then fcDfs adj fuel nb acc.2
                else if acc.2.recStack.contains nb then
                  (true, { acc.2 with path := acc.2.path ++ [nb] })
                else acc)
              acc).2.visited ∧ nb ∉ (nbs.foldl
              (fun acc nb =>
                if acc.1 then acc
                else if ¬ acc.2.visited.contains nb then fcDfs adj fuel nb acc.2
                else if acc.2.recStack.contains nb then
                  (true, { acc.2 with path := acc.2.path ++ [nb] })
                else acc)
              acc).2.recStack) := by
      intro nbs
      induction nbs with
      | nil =>
        intro _ acc hacc
        rcases hacc with h | ⟨hf, hq⟩
        · left
          exact h
        · right
          refine ⟨hf, hq, fun x hx => hx, ?_⟩
          intro nb hnb
          exact absurd hnb (List.not_mem_nil nb)
      | cons nb rest ihl =>
        intro hmem acc hacc
        rw [List.foldl_cons]
        rcases hacc with htrue | ⟨hfalse, hq⟩
        · rw [if_pos htrue, absorb rest acc htrue]
          left
          exact htrue
        · rw [if_neg (by simp [hfalse])]
          by_cases hv : acc.2.visited.contains nb = true
          · rw [if_neg (by simpa using hv)]
            by_cases hrc : acc.2.recStack.contains nb = true
            · rw [if_pos hrc, absorb rest _ rfl]
              left
              rfl
            · rw [if_neg hrc]
              have hres := ihl (fun x hx => hmem x (List.mem_cons_of_mem _ hx))
                acc (Or.inr ⟨hfalse, hq⟩)
              rcases hres with h | ⟨hf', hq', hmono', hdone'⟩
              · left
                exact h
              · right
                refine ⟨hf', hq', hmono', ?_⟩
                intro x hx
                rcases List.mem_cons.mp hx with heq | hx'
                · subst heq
                  refine ⟨hmono' x (by simpa using hv), ?_⟩
                  have hnot : x ∉ node :: st.recStack := by
                    rw [← hq.2.1]
                    simpa using hrc
                  rw [hq'.2.1]
                  exact hnot
                · exact hdone' x hx'
          · rw [if_pos hv]
            cases hru : (fcDfs adj fuel nb acc.2).1 with
            | true =>
              rw [absorb rest _ hru]
              left
              exact hru
            | false =>
              have hrec := ih nb acc.2 (hmem nb (List.mem_cons_self _ _))
                (by simpa using hv) hq.1
                (lt_of_le_of_lt hq.2.2.2 hmeas1)
              rcases hrec with h | ⟨-, hinv', hrs', hmono'', hnvis⟩
              · rw [hru] at h
                cases h
              · have hq'' : Q (fcDfs adj fuel nb acc.2).2 := by
                  refine ⟨hinv', ?_, ?_, ?_⟩
                  · rw [hrs', hq.2.1]
                  · intro x hx
                    exact hmono'' x (hq.2.2.1 x hx)
                  · exact le_trans
                      (dfsMeasure_le_of_sub univ acc.2 _ hmono'') hq.2.2.2
                have hres := ihl
                  (fun x hx => hmem x (List.mem_cons_of_mem _ hx)) _
                  (Or.inr ⟨hru, hq''⟩)
                rcases hres with h | ⟨hf', hq', hmono', hdone'⟩
                · left
                  exact h
                · right
                  refine ⟨hf', hq', fun x hx => hmono' x (hmono'' x hx), ?_⟩
                  intro x hx
                  rcases List.mem_cons.mp hx with heq | hx'
                  · subst heq
                    refine ⟨hmono' x hnvis, ?_⟩
                    have hnot : x ∉ node :: st.recStack := by
                      rw [← hq.2.1]
                      intro hm
                      exact (by simpa using hv :
                        x ∉ acc.2.visited) (hq.1.rec_sub x hm)
                    rw [hq'.2.1]
                    exact hnot
                  · exact hdone' x hx'
    have base : Q st1 := ⟨hinv1, rfl, fun x hx => hx, le_refl _⟩
    have hres := fold (adj node) (fun w hw => hadj node w hw) (false, st1)
      (Or.inr ⟨rfl, base⟩)
    set r := (adj node).foldl
      (fun acc nb =>
        if acc.1 then acc
        else if ¬ acc.2.visited.contains nb then fcDfs adj fuel nb acc.2
        else if acc.2.recStack.contains nb then
          (true, { acc.2 with path := acc.2.path ++ [nb] })
        else acc)
      (false, st1) with hrdef
    rcases hres with ht | ⟨hf, hq, hmono, hdone⟩
    · left
      rw [if_pos ht]
      exact ht
    · right
      rw [if_neg (by simp [hf])]
      obtain ⟨hinv2, hrs2, hst1mono, -⟩ := hq
      have herase : r.2.recStack.erase node = st.recStack := by
        rw [hrs2]
        exact List.erase_cons_head _ _
      refine ⟨rfl, ?_, ?_, ?_, ?_⟩
      · refine ⟨?_, ?_, ?_⟩
        · intro x hx
          have hx2 : x ∈ st.recStack := by
            have hx' : x ∈ r.2.recStack.erase node := hx
            rw [herase] at hx'
            exact hx'
          refine hinv2.rec_sub x ?_
          rw [hrs2]
          exact List.mem_cons_of_mem _ hx2
        · intro u hu hnr w hw
          have hnr2 : u ∉ st.recStack := by
            intro hm
            apply hnr
            show u ∈ r.2.recStack.erase node
            rw [herase]
            exact hm
          by_cases hun : u = node
          · subst hun
            obtain ⟨hw1, hw2⟩ := hdone w hw
            refine ⟨hw1, ?_⟩
            intro hm
            have hm2 : w ∈ st.recStack := by
              have hm' : w ∈ r.2.recStack.erase u := hm
              rw [herase] at hm'
              exact hm'
            apply hw2
            rw [hrs2]
            exact List.mem_cons_of_mem _ hm2
          · have hnr3 : u ∉ r.2.recStack := by
              rw [hrs2]
              intro hm
              rcases List.mem_cons.mp hm with h | h
              · exact hun h
              · exact hnr2 h
            obtain ⟨hw1, hw2⟩ := hinv2.closed u hu hnr3 w hw
            refine ⟨hw1, ?_⟩
            intro hm
            have hm2 : w ∈ st.recStack := by
              have hm' : w ∈ r.2.recStack.erase node := hm
              rw [herase] at hm'
              exact hm'
            apply hw2
            rw [hrs2]
            exact List.mem_cons_of_mem _ hm2
        · intro u hu hnr
          have hnr2 : u ∉ st.recStack := by
            intro hm
            apply hnr
            show u ∈ r.2.recStack.erase node
            rw [herase]
            exact hm
          by_cases hun : u = node
          · subst hun
            intro hcyc
            obtain ⟨c, hstep, htail⟩ := Relation.TransGen.head'_iff.mp hcyc
            obtain ⟨hc1, hc2⟩ := hdone c hstep
            have hdn := dfs_closed_rtg adj r.2 hinv2.closed c u htail hc1 hc2
            apply hdn.2
            rw [hrs2]
            exact List.mem_cons_self _ _
          · refine hinv2.nocyc u hu ?_
            rw [hrs2]
            intro hm
            rcases List.mem_cons.mp hm with h | h
            · exact hun h
            · exact hnr2 h
      · exact herase
      · intro x hx
        exact hmono x (List.mem_cons_of_mem _ hx)
      · exact hmono node (List.mem_cons_self _ _)

/-- If the start node lies on a nonempty adjacency cycle, the
reconstruction DFS reports `true` (enough fuel given). -/
theorem fcDfs_finds (adj : ModulePath → List ModulePath)
    (univ : List ModulePath) (hadj : ∀ x, ∀ w ∈ adj x, w ∈ univ)
    (start : ModulePath) (hstart : start ∈ univ) (fuel : Nat)
    (hfuel : univ.length < fuel)
    (hcyc : Relation.TransGen (AdjRel adj) start start) :
    (fcDfs adj fuel start ⟨[], [], []⟩).1 = true := by
  have hinv0 : DfsInv adj ⟨[], [], []⟩ :=
    ⟨fun x hx => absurd hx (List.not_mem_nil x),
      fun u hu => absurd hu (List.not_mem_nil u),
      fun u hu => absurd hu (List.not_mem_nil u)⟩
  have hmeas : dfsMeasure univ ⟨[], [], []⟩ < fuel := by
    have hle : dfsMeasure univ ⟨[], [], []⟩ ≤ univ.length := by
      unfold dfsMeasure
      exact List.length_filter_le _ _
    omega
  rcases fcDfs_false_post adj univ hadj fuel start ⟨[], [], []⟩ hstart
      (List.not_mem_nil start) hinv0 hmeas with h | ⟨-, hinv', hrs, -, hvis⟩
  · exact h
  · exfalso
    refine hinv'.nocyc start hvis ?_ hcyc
    rw [hrs]
    exact List.not_mem_nil start

/-- Every neighbor the SCC adjacency map lists is an SCC member. -/
theorem sccAdj_sub (g : ModuleGraph) (scc : List ModulePath) :
    ∀ x, ∀ w ∈ sccAdj g scc x, w ∈ scc := by
  intro x w hw
  unfold sccAdj at hw
  by_cases hx : scc.contains x = true
  · rw [if_pos hx] at hw
    cases hg : graphGet g x with
    | none =>
      rw [hg] at hw
      exact absurd hw (List.not_mem_nil w)
    | some m =>
      rw [hg] at hw
      rw [List.mem_filter] at hw
      have hc := hw.2
      simpa using hc
  · rw [if_neg hx] at hw
    exact absurd hw (List.not_mem_nil w)

/-- Every SCC-adjacency step is an import adjacency of the graph. -/
theorem sccAdj_imp_adjOK (g : ModuleGraph) (scc : List ModulePath) :
    ∀ u w, AdjRel (sccAdj g scc) u w → AdjOK g u w := by
  intro u w hw
  unfold AdjRel sccAdj at hw
  by_cases hu : scc.contains u = true
  · rw [if_pos hu] at hw
    cases hg : graphGet g u with
    | none =>
      rw [hg] at hw
      simp at hw
    | some m =>
      rw [hg] at hw
      rw [List.mem_filter, List.mem_map] at hw
      obtain ⟨⟨imp, himp, hres⟩, -⟩ := hw
      exact ⟨m, hg, imp, himp, hres⟩
  · rw [if_neg hu] at hw
    simp at hw

/-- A graph edge between two SCC members is an SCC-adjacency step. -/
theorem edge_to_sccAdj (g : ModuleGraph) (scc : List ModulePath)
    {a b : ModulePath} (ha : a ∈ scc) (hb : b ∈ scc) (he : Edge g a b) :
    AdjRel (sccAdj g scc) a b := by
  obtain ⟨m, imp, hm, himp, hres, -⟩ := he
  show b ∈ sccAdj g scc a
  unfold sccAdj
  rw [if_pos (by simpa using ha), hm]
  rw [List.mem_filter]
  refine ⟨?_, by simpa using hb⟩
  rw [List.mem_map]
  exact ⟨imp, himp, hres⟩

/-- An internal walk of the graph starting inside the SCC is a walk of the
SCC adjacency map. -/
theorem reachesIn_sccAdj (g : ModuleGraph) (scc : List ModulePath)
    {a b : ModulePath} (ha : a ∈ scc)
    (h : ReachesIn g (fun x => x ∈ scc) a b) :
    Relation.ReflTransGen (AdjRel (sccAdj g scc)) a b ∧
      (b ∈ scc ∨ b = a) := by
  unfold ReachesIn at h
  induction h with
  | refl => exact ⟨Relation.ReflTransGen.refl, Or.inr rfl⟩
  | tail hab hbc ih =>
    obtain ⟨he, hc⟩ := hbc
    obtain ⟨hrta, hor⟩ := ih
    rcases hor with hm | hbe
    · exact ⟨hrta.tail (edge_to_sccAdj g scc hm hc he), Or.inl hc⟩
    · rw [hbe] at hrta he
      exact ⟨hrta.tail (edge_to_sccAdj g scc ha hc he), Or.inl hc⟩

/-- Every member of an emitted SCC is a key of the graph. -/
theorem scc_sub_keys (g : ModuleGraph) (scc : List ModulePath)
    (hmem : scc ∈ (runTarjan g).sccs) : ∀ x ∈ scc, x ∈ graphKeys g := by
  intro x hx
  exact (runTarjan_partition g x).mp (List.mem_flatten.mpr ⟨scc, hmem, hx⟩)

/-- An emitted SCC has at most as many members as the graph has modules. -/
theorem scc_len_le (g : ModuleGraph) (scc : List ModulePath)
    (hmem : scc ∈ (runTarjan g).sccs) : scc.length ≤ g.length := by
  obtain ⟨hinv, -, -⟩ := runTarjan_spec g
  have hnd := nodup_of_mem_flatten hinv.sccs_flat_nodup hmem
  have hsub : scc ⊆ graphKeys g := fun x hx => scc_sub_keys g scc hmem x hx
  calc scc.length ≤ (graphKeys g).length := (hnd.subperm hsub).length_le
  _ = g.length := by
    unfold graphKeys
    rw [List.length_map]

/-- In an emitted SCC of two or more members, the head lies on a nonempty
cycle of the SCC adjacency map. -/
theorem scc_head_cycle (g : ModuleGraph) (scc : List ModulePath)
    (hmem : scc ∈ (runTarjan g).sccs) (hlen : 1 < scc.length) :
    Relation.TransGen (AdjRel (sccAdj g scc)) (scc.headD "") (scc.headD "") := by
  obtain ⟨hinv, -, -⟩ := runTarjan_spec g
  have hnodup : scc.Nodup := nodup_of_mem_flatten hinv.sccs_flat_nodup hmem
  obtain ⟨a, hamem, b, hbmem, hab⟩ := two_mem_of_length_gt_one hnodup hlen
  have hhead : scc.headD "" ∈ scc := by
    cases scc with
    | nil => simp at hlen
    | cons x t => exact List.mem_cons_self _ _
  have hex : ∃ y ∈ scc, y ≠ scc.headD "" := by
    by_cases hae : a = scc.headD ""
    · refine ⟨b, hbmem, ?_⟩
      intro hbe
      exact hab (by rw [hae, ← hbe])
    · exact ⟨a, hamem, hae⟩
  obtain ⟨y, hy, hyne⟩ := hex
  have hr1 := reachesIn_sccAdj g scc hhead
    (hinv.sccs_sound_in scc hmem _ hhead y hy)
  have hr2 := reachesIn_sccAdj g scc hy
    (hinv.sccs_sound_in scc hmem y hy _ hhead)
  have ht1 : Relation.TransGen (AdjRel (sccAdj g scc)) (scc.headD "") y := by
    rcases Relation.reflTransGen_iff_eq_or_transGen.mp hr1.1 with heq | ht
    · exact absurd heq.symm (Ne.symm hyne)
    · exact ht
  have hext : ∀ z, Relation.ReflTransGen (AdjRel (sccAdj g scc)) y z →
      Relation.TransGen (AdjRel (sccAdj g scc)) (scc.headD "") z := by
    intro z hz
    induction hz with
    | refl => exact ht1
    | tail hab2 hbc2 ih2 => exact ih2.tail hbc2
  exact hext _ hr2.1

/-- For every SCC the filter keeps, the reconstructed path is an
import-adjacency chain (the degenerate `[x, x]` shape only arises for a
singleton SCC, whose retention forces a real self-loop). -/
theorem findCyclePath_chain (g : ModuleGraph) (scc : List ModulePath)
    (hmem : scc ∈ (runTarjan g).sccs)
    (hkeep : (decide (scc.length > 1) || hasSelfLoop g (scc.headD "")) = true) :
    List.Chain' (AdjOK g) (findCyclePath g scc) := by
  unfold findCyclePath
  by_cases hlen : scc.length = 1
  · rw [if_pos hlen]
    have hself : hasSelfLoop g (scc.headD "") = true := by
      have hkeep' : 1 < scc.length ∨ hasSelfLoop g (scc.headD "") = true := by
        simpa using hkeep
      rcases hkeep' with h | h
      · exfalso
        rw [hlen] at h
        omega
      · exact h
    obtain ⟨m, imp, hm, himp, hres, -⟩ := hasSelfLoop_edge hself
    exact List.chain'_cons.mpr
      ⟨⟨m, hm, imp, himp, hres⟩, List.chain'_singleton _⟩
  · rw [if_neg hlen]
    obtain ⟨hinv, -, -⟩ := runTarjan_spec g
    have hnonnil : scc ≠ [] := hinv.sccs_nonnil scc hmem
    have hpos : 0 < scc.length := List.length_pos.mpr hnonnil
    have hlen2 : 1 < scc.length := by omega
    have hhead : scc.headD "" ∈ scc := by
      cases scc with
      | nil => simp at hpos
      | cons x t => exact List.mem_cons_self _ _
    have hcyc := scc_head_cycle g scc hmem hlen2
    have htrue := fcDfs_finds (sccAdj g scc) scc (sccAdj_sub g scc)
      (scc.headD "") hhead (g.length + 1)
      (Nat.lt_succ_of_le (scc_len_le g scc hmem)) hcyc
    rcases fcDfs_spec (sccAdj g scc) (g.length + 1) (scc.headD "") ⟨[], [], []⟩
        rfl (by simp) with ⟨hf, -, -⟩ | ⟨-, hc, p0, last, hshape, hmemlast⟩
    · rw [htrue] at hf
      cases hf
    · have hp0 : p0 ≠ [] := List.ne_nil_of_mem hmemlast
      have hlenp : 1 < (fcDfs (sccAdj g scc) (g.length + 1) (scc.headD "")
          ⟨[], [], []⟩).2.path.length := by
        rw [hshape, List.length_append]
        have := List.length_pos.mpr hp0
        simp only [List.length_singleton]
        omega
      rw [if_pos hlenp]
      refine hc.imp ?_
      intro u w hw
      exact sccAdj_imp_adjOK g scc u w hw

/-- C2 (amended): every Cycle returned by `detectCycles` is a loop-closing
walk — `paths` has at least two entries and its final entry repeats an
earlier entry (not necessarily `paths[0]`); every edge joins a consecutive
pair of `paths` through an actual import of the graph; and `edges` lists
exactly one edge per consecutive pair of `paths`, in order, so it has
exactly `paths.length - 1` entries. -/
theorem cycle_walk_shape (g : ModuleGraph) (d : Nat) (c : Cycle)
    (hc : c ∈ detectCycles g d) :
    2 ≤ c.paths.length ∧
    c.paths.getLastD "" ∈ c.paths.dropLast ∧
    (∀ e ∈ c.edges,
      (∃ i, i + 1 < c.paths.length ∧ c.paths.getD i "" = e.from' ∧
        c.paths.getD (i + 1) "" = e.to') ∧
      ∃ m, graphGet g e.from' = some m ∧ e.importInfo ∈ m.imports ∧
        e.importInfo.resolvedPath = e.to') ∧
    c.edges.map (fun e => (e.from', e.to')) = c.paths.zip c.paths.tail ∧
    c.edges.length = c.paths.length - 1 := by
  unfold detectCycles findCycles at hc
  rw [List.mem_map] at hc
  obtain ⟨scc, hsccmem, hcc⟩ := hc
  rw [List.mem_filter] at hsccmem
  obtain ⟨hmem, hkeep⟩ := hsccmem
  subst hcc
  have hp : (createCycle g scc).paths = findCyclePath g scc := rfl
  have he : (createCycle g scc).edges =
      buildCycleEdges g (findCyclePath g scc) := rfl
  rw [hp, he]
  obtain ⟨h2, hlast, -⟩ := findCyclePath_spec g scc
  have hchain := findCyclePath_chain g scc hmem (by simpa using hkeep)
  have hmap := buildCycleEdges_complete g _ hchain
  refine ⟨h2, hlast, buildCycleEdges_sub g _, hmap, ?_⟩
  have hlenmap := congrArg List.length hmap
  rw [List.length_map, List.length_zip, List.length_tail] at hlenmap
  rw [hlenmap]
  exact min_eq_right (Nat.sub_le _ _)

/-- C2 witness: the theorem applied to the concrete cycle reported on
`gStem`. -/
theorem cycle_walk_shape_witness :
    cStem ∈ detectCycles gStem 0 ∧
    (2 ≤ cStem.paths.length ∧
      cStem.paths.getLastD "" ∈ cStem.paths.dropLast ∧
      (∀ e ∈ cStem.edges,
        (∃ i, i + 1 < cStem.paths.length ∧ cStem.paths.getD i "" = e.from' ∧
          cStem.paths.getD (i + 1) "" = e.to') ∧
        ∃ m, graphGet gStem e.from' = some m ∧ e.importInfo ∈ m.imports ∧
          e.importInfo.resolvedPath = e.to') ∧
      cStem.edges.map (fun e => (e.from', e.to')) =
        cStem.paths.zip cStem.paths.tail ∧
      cStem.edges.length = cStem.paths.length - 1) :=
  ⟨by decide, cycle_walk_shape gStem 0 cStem (by decide)⟩

end Cycfix
